import Mathlib

/-! Lab6 `DistObj<T>`: a token-passing distributed object.

A shallow embedding of `Lab6/old_version_python_cpp/DistObj.cpp` and of the driver
`main.cpp`, instantiated at `T = int`.

* The data members of `DistObj<int>` are the structure `DistObj`.
* An MPI process is a `Process`: its rank and the communicator size, its `DistObj`, the
  messages delivered to it and not yet received (`inbox`), the messages it has sent that
  are not yet delivered (`outbox`), and the point of the program it has reached.
* Every member function is a function `Process → Option Process`.  The result `none`
  stands for a call that does not produce a next state: an index outside `read_tokens`
  (undefined behaviour of `std::vector::operator[]`), a send to a rank outside the
  communicator (MPI aborts), or a blocking receive with nothing to receive.
* `MPI_Send` is buffered: the message is appended to the sender's `outbox`.  A delivery
  moves the oldest message of one sender for one destination to the end of the
  destination's `inbox`, so messages between a pair of processes are not overtaken.
* The values of `T = int` are never computed with, only copied, so they are `Int`.
  `std::cout` traces and the mutex (one thread per process) are not modelled.
-/

namespace Lab6

/-! ## Data -/

/-- Internal message tags (`DistObj.cpp` lines 23-28). -/
inductive MessageTag
  | TOKEN_REQUEST
  | TOKEN_RESPONSE
  | NEW_PROCESS
  | VALUE_UPDATE
  deriving DecidableEq, Repr

/-- A message handed to MPI: sending rank, destination rank, tag, and the one `int` it
carries (a rank for the token tags and `NEW_PROCESS`, the value for `VALUE_UPDATE`). -/
structure Msg where
  src : Nat
  dst : Nat
  tag : MessageTag
  payload : Int
  deriving DecidableEq, Repr

/-- The data members of `DistObj<int>` (`DistObj.cpp` lines 14-18). -/
structure DistObj where
  _obj : Int
  rank : Nat
  world_size : Nat
  read_tokens : List Bool
  write_token : Bool
  deriving DecidableEq, Repr

/-- A public member function call made by the application. -/
inductive Call
  | read
  | write (val : Int)
  deriving DecidableEq, Repr

/-- Where a process stands in its program.  The wait loops of `read` and `write` are cut
at their two polls, the only places where a message can be consumed. -/
inductive Pc
  /-- about to run the constructor `DistObj(val)` (`DistObj()` is `construct 0`) -/
  | construct (val : Int)
  /-- in the constructor of a rank other than 0, blocked in `MPI_Recv` (lines 138, 152) -/
  | ctor_recv
  /-- in the wait loop of `read`, about to call `handleTokenRequests` (line 165) -/
  | read_handle
  /-- in the wait loop of `read`, about to call `receiveTokens` (line 166) -/
  | read_receive
  /-- in the wait loop of `write(val)`, about to call `handleTokenRequests` (line 181);
  `in_ctor` tells that the write was called by the constructor (lines 135, 149) -/
  | write_handle (val : Int) (in_ctor : Bool)
  /-- in the wait loop of `write(val)`, about to call `receiveTokens` (line 182) -/
  | write_receive (val : Int) (in_ctor : Bool)
  /-- constructed, between two calls of the application -/
  | ready
  deriving DecidableEq, Repr

/-- One MPI process running the program. -/
structure Process where
  /-- what `MPI_Comm_rank(MPI_COMM_WORLD, _)` returns -/
  mpi_rank : Nat
  /-- what `MPI_Comm_size(MPI_COMM_WORLD, _)` returns -/
  mpi_size : Nat
  obj : DistObj
  /-- delivered to this process, not yet received, oldest first -/
  inbox : List Msg
  /-- sent by this process, not yet delivered, oldest first -/
  outbox : List Msg
  pc : Pc
  /-- the calls the application still has to make, in order -/
  script : List Call
  /-- the values returned by the `read` calls made so far, in order -/
  returns : List Int
  deriving DecidableEq, Repr

/-- The processes of `MPI_COMM_WORLD`, listed by rank. -/
abbrev World := List Process

/-! ## MPI primitives -/

/-- `MPI_Send(&payload, 1, MPI_INT, dest, tag, MPI_COMM_WORLD)`; aborts on a destination
outside the communicator. -/
def MPI_Send (p : Process) (payload : Int) (dest : Int) (tag : MessageTag) : Option Process :=
  if 0 ≤ dest ∧ dest < p.mpi_size then
    some { p with outbox := p.outbox ++ [⟨p.mpi_rank, dest.toNat, tag, payload⟩] }
  else none

/-- The oldest message satisfying `f`, and the queue without it. -/
def takeFirst (f : Msg → Bool) : List Msg → Option (Msg × List Msg)
  | [] => none
  | m :: ms =>
    if f m then some (m, ms)
    else match takeFirst f ms with
      | none => none
      | some (x, rest) => some (x, m :: rest)

/-- The loop `for (int i = 0; i < n; i++) body(i)`. -/
def forLoop (n : Nat) (body : Nat → Process → Option Process) (p : Process) : Option Process :=
  (List.range n).foldlM (fun q i => body i q) p

/-! ## Member functions of `DistObj<T>` -/

/-- `read_tokens.resize(n, val)` of `std::vector`. -/
def resize (v : List Bool) (n : Nat) (val : Bool) : List Bool :=
  v.take n ++ List.replicate (n - v.length) val

/-- `DistObj<T>::initMPI` (lines 46-53).  MPI guarantees `mpi_rank < mpi_size`. -/
def initMPI (p : Process) : Process :=
  let rank := p.mpi_rank
  let world_size := p.mpi_size
  let read_tokens := resize p.obj.read_tokens world_size false
  let read_tokens := read_tokens.set rank true
  { p with obj := { p.obj with rank := rank, world_size := world_size,
                               read_tokens := read_tokens, write_token := (rank == 0) } }

/-- The range-for of `hasAllTokens` (lines 58-61). -/
def hasAllTokens.loop : List Bool → Bool
  | [] => true
  | token :: rest => if !token then false else hasAllTokens.loop rest

/-- `DistObj<T>::hasAllTokens` (lines 55-62).  It has no assignment, so it is a function
of the object alone. -/
def hasAllTokens (s : DistObj) : Bool :=
  if !s.write_token then false
  else hasAllTokens.loop s.read_tokens

/-- `DistObj<T>::requestTokens` (lines 64-79). -/
def requestTokens (p : Process) : Option Process := do
  let p ←
    if !p.obj.write_token then
      forLoop p.obj.world_size (fun i q =>
        if i != q.obj.rank then MPI_Send q q.obj.rank i .TOKEN_REQUEST else some q) p
    else some p
  forLoop p.obj.world_size (fun i q =>
    if i != q.obj.rank then do
      let held ← q.obj.read_tokens[i]?
      if !held then MPI_Send q q.obj.rank i .TOKEN_REQUEST else some q
    else some q) p

/-- `DistObj<T>::handleTokenRequests` (lines 81-103). -/
def handleTokenRequests (p : Process) : Option Process :=
  match takeFirst (fun m => m.tag == .TOKEN_REQUEST) p.inbox with
  | none => some p
  | some (m, rest) => do
    let requesting_rank := m.payload
    let p := { p with inbox := rest }
    let p ←
      if p.obj.write_token then
        MPI_Send { p with obj := { p.obj with write_token := false } }
          p.obj.rank requesting_rank .TOKEN_RESPONSE
      else some p
    let own ← p.obj.read_tokens[p.obj.rank]?
    if own then
      MPI_Send { p with obj := { p.obj with
                   read_tokens := p.obj.read_tokens.set p.obj.rank false } }
        p.obj.rank requesting_rank .TOKEN_RESPONSE
    else some p

/-- `DistObj<T>::receiveTokens` (lines 105-119). -/
def receiveTokens (p : Process) : Option Process :=
  match takeFirst (fun m => m.tag == .TOKEN_RESPONSE) p.inbox with
  | none => some p
  | some (m, rest) =>
    let sender_rank := m.payload
    if 0 ≤ sender_rank ∧ sender_rank < p.obj.read_tokens.length then
      some { p with inbox := rest,
                    obj := { p.obj with
                      read_tokens := p.obj.read_tokens.set sender_rank.toNat true,
                      write_token := true } }
    else none

/-- `DistObj<T>::broadcastNewProcess` (lines 121-128). -/
def broadcastNewProcess (p : Process) : Option Process :=
  forLoop p.obj.world_size (fun i q =>
    if i != q.obj.rank then MPI_Send q q.obj.rank i .NEW_PROCESS else some q) p

/-- The end of both constructors (lines 141, 155): announce, then return to `main`. -/
def ctor_finish (p : Process) : Option Process := do
  let p ← broadcastNewProcess p
  some { p with pc := .ready }

/-- `DistObj<T>::write` after its wait loop (lines 186-193): assign, broadcast, return to
the caller. -/
def write_commit (val : Int) (in_ctor : Bool) (p : Process) : Option Process := do
  let p := { p with obj := { p.obj with _obj := val } }
  let p ← forLoop p.obj.world_size (fun i q =>
    if i != q.obj.rank then MPI_Send q q.obj._obj i .VALUE_UPDATE else some q) p
  if in_ctor then ctor_finish p else some { p with pc := .ready }

/-- The test of `while (!hasAllTokens())` (line 180). -/
def write_while (val : Int) (in_ctor : Bool) (p : Process) : Option Process :=
  if !hasAllTokens p.obj then some { p with pc := .write_handle val in_ctor }
  else write_commit val in_ctor p

/-- `DistObj<T>::write` from its entry to its first poll or to its return
(lines 174-194). -/
def write (val : Int) (in_ctor : Bool) (p : Process) : Option Process :=
  if !hasAllTokens p.obj then do
    let p ← requestTokens p
    write_while val in_ctor p
  else write_commit val in_ctor p

/-- `DistObj<T>::read` after its wait loop (lines 170-171): return `_obj`. -/
def read_return (p : Process) : Option Process :=
  some { p with returns := p.returns ++ [p.obj._obj], pc := .ready }

/-- The test of `while (!read_tokens[rank])` (line 164). -/
def read_while (p : Process) : Option Process := do
  let own ← p.obj.read_tokens[p.obj.rank]?
  if !own then some { p with pc := .read_handle } else read_return p

/-- `DistObj<T>::read` from its entry to its first poll or to its return
(lines 158-172). -/
def read (p : Process) : Option Process := do
  let own ← p.obj.read_tokens[p.obj.rank]?
  if !own then do
    let p ← requestTokens p
    read_while p
  else read_return p

/-- Both constructors up to the first blocking point (lines 130-140, 144-154). -/
def construct (val : Int) (p : Process) : Option Process :=
  let p := initMPI { p with obj := { p.obj with _obj := val } }
  if p.obj.rank == 0 then write p.obj._obj true p
  else some { p with pc := .ctor_recv }

/-- The blocking `MPI_Recv(&_obj, sizeof(T), MPI_BYTE, 0, VALUE_UPDATE, ..)` of the
constructor (lines 138, 152) and the rest of the constructor. -/
def ctor_receive (p : Process) : Option Process :=
  match takeFirst (fun m => m.src == 0 && m.tag == .VALUE_UPDATE) p.inbox with
  | none => none
  | some (m, rest) => ctor_finish { p with inbox := rest, obj := { p.obj with _obj := m.payload } }

/-- One move of a process: from the point it has reached to the next poll, blocking
receive or end of call. -/
def Process.step (p : Process) : Option Process :=
  match p.pc with
  | .construct val => construct val p
  | .ctor_recv => ctor_receive p
  | .read_handle => do
    let q ← handleTokenRequests p
    some { q with pc := .read_receive }
  | .read_receive => do
    let q ← receiveTokens p
    read_while q
  | .write_handle val in_ctor => do
    let q ← handleTokenRequests p
    some { q with pc := .write_receive val in_ctor }
  | .write_receive val in_ctor => do
    let q ← receiveTokens p
    write_while val in_ctor q
  | .ready =>
    match p.script with
    | [] => none
    | .read :: rest => read { p with script := rest }
    | .write val :: rest => write val false { p with script := rest }

/-! ## The group of processes -/

/-- Process `r` of `n` as `mpirun` starts it: nothing sent or received, the object not yet
constructed.  The members that `initMPI` assigns before anything reads them start from
placeholders. -/
def Process.start (r n : Nat) (val : Int) (script : List Call) : Process :=
  { mpi_rank := r, mpi_size := n,
    obj := { _obj := 0, rank := 0, world_size := 0, read_tokens := [], write_token := false },
    inbox := [], outbox := [], pc := .construct val, script := script, returns := [] }

/-- Process `i` of the group runs `f`. -/
def runAt (f : Process → Option Process) (i : Nat) (w : World) : Option World := do
  let p ← w[i]?
  let q ← f p
  some (w.set i q)

/-- MPI delivers the oldest undelivered message from `src` to `dst`. -/
def deliver (src dst : Nat) (w : World) : Option World := do
  let s ← w[src]?
  let (m, rest) ← takeFirst (fun m => m.dst == dst) s.outbox
  let w := w.set src { s with outbox := rest }
  let d ← w[dst]?
  some (w.set dst { d with inbox := d.inbox ++ [m] })

/-- The moves of the token protocol taken one member function at a time. -/
inductive TokenAction
  | requestTokens (p : Nat)
  | handleTokenRequests (p : Nat)
  | receiveTokens (p : Nat)
  | deliver (src dst : Nat)
  deriving DecidableEq, Repr

/-- The group after one move of the token protocol. -/
def tokenStep (w : World) : TokenAction → Option World
  | .requestTokens i => runAt requestTokens i w
  | .handleTokenRequests i => runAt handleTokenRequests i w
  | .receiveTokens i => runAt receiveTokens i w
  | .deliver src dst => deliver src dst w

/-- Process `r` of `n` right after its `initMPI`, with `val` in its cache. -/
def Process.initialised (r n : Nat) (val : Int) : Process :=
  initMPI { Process.start r n val [] with
    obj := { (Process.start r n val []).obj with _obj := val }, pc := .ready }

/-- The group of `n` processes right after every rank has run `initMPI`; `val r` is the
value cached at rank `r`. -/
def tokenInit (n : Nat) (val : Nat → Int) : World :=
  (List.range n).map (fun r => Process.initialised r n (val r))

/-- The moves of the group when every process runs its program. -/
inductive Action
  | run (p : Nat)
  | deliver (src dst : Nat)
  deriving DecidableEq, Repr

/-- The group after one move of a running program. -/
def programStep (w : World) : Action → Option World
  | .run i => runAt Process.step i w
  | .deliver src dst => deliver src dst w

/-- The group of `n` processes as `mpirun -np n` starts it: rank `r` constructs its object
from `val r` and then makes the calls `script r`. -/
def programInit (n : Nat) (val : Nat → Int) (script : Nat → List Call) : World :=
  (List.range n).map (fun r => Process.start r n (val r) (script r))

/-- The states a transition function reaches from `init`. -/
inductive Reachable {α : Type} (step : World → α → Option World) (init : World) : World → Prop
  | start : Reachable step init init
  | next {w w2 : World} {a : α} :
      Reachable step init w → step w a = some w2 → Reachable step init w2

/-- The state after a given sequence of moves, when each of them is possible. -/
def runTrace {α : Type} (step : World → α → Option World) : World → List α → Option World
  | w, [] => some w
  | w, a :: rest =>
    match step w a with
    | none => none
    | some w2 => runTrace step w2 rest

/-- The number of processes of the group holding the write token. -/
def writeHolders (w : World) : Nat :=
  (w.filter (fun p => p.obj.write_token)).length

/-- The number of processes of the group holding the read token of rank `j`. -/
def readHolders (j : Nat) (w : World) : Nat :=
  (w.filter (fun p => p.obj.read_tokens[j]? == some true)).length

/-- The messages with one tag and one payload that rank `src` sends to the ranks `dests`,
in order. -/
def sentTo (src : Nat) (tag : MessageTag) (payload : Int) (dests : List Nat) : List Msg :=
  dests.map (fun i => { src := src, dst := i, tag := tag, payload := payload })

/-- The grant that `p` sends to the rank named by the request `m`. -/
def grantFor (p : Process) (m : Msg) : Msg :=
  { src := p.mpi_rank, dst := m.payload.toNat, tag := .TOKEN_RESPONSE, payload := p.obj.rank }

/-- A grant (`TOKEN_RESPONSE`) whose payload is rank `j`. -/
def isGrantOf (j : Nat) (m : Msg) : Bool :=
  m.tag == .TOKEN_RESPONSE && m.payload == (j : Int)

/-- The read token of rank `j` is at process `p`: held in `read_tokens[j]`, or named by a
grant that `p` has sent and MPI has not delivered, or that was delivered to `p` and `p` has
not received. -/
def carriesReadToken (j : Nat) (p : Process) : Bool :=
  p.obj.read_tokens[j]? == some true || p.inbox.any (isGrantOf j) || p.outbox.any (isGrantOf j)

/-- The value of the write that a process is about to start or is waiting in. -/
def Process.writing (p : Process) : Option Int :=
  match p.pc with
  | .construct val => if p.mpi_rank == 0 then some val else none
  | .write_handle val _ => some val
  | .write_receive val _ => some val
  | .ready =>
    match p.script with
    | .write val :: _ => some val
    | _ => none
  | _ => none

/-- The state of rank 0 of `n` after the first move of its constructor. -/
def seedingWait (n : Nat) (val : Int) (script : List Call) : Process :=
  { mpi_rank := 0, mpi_size := n,
    obj := { _obj := val, rank := 0, world_size := n,
             read_tokens := (List.replicate n false).set 0 true, write_token := true },
    inbox := [],
    outbox := sentTo 0 .TOKEN_REQUEST 0 ((List.range n).filter (fun i => i != 0)),
    pc := .write_handle val true, script := script, returns := [] }

/-- Process `i` of a group of `n` is still in its constructor, and has neither sent nor been
sent anything but token requests: rank 0 waits in the loop of its first `write` without all
tokens, the other ranks have not passed their blocking receive. -/
def constructing (n i : Nat) (p : Process) : Prop :=
  p.mpi_rank = i ∧ p.mpi_size = n ∧ p.returns = [] ∧ p.pc ≠ .ready ∧
  (∀ m ∈ p.inbox, m.tag = .TOKEN_REQUEST) ∧
  (∀ m ∈ p.outbox, m.tag = .TOKEN_REQUEST ∧ m.dst ≠ 0) ∧
  (i = 0 → p.inbox = [] ∧
    (((∃ v, p.pc = .construct v) ∧ p.obj.read_tokens = []) ∨
     ((∃ v, p.pc = .write_handle v true ∨ p.pc = .write_receive v true) ∧
       hasAllTokens p.obj = false))) ∧
  (i ≠ 0 → p.outbox = [] ∧ ((∃ v, p.pc = .construct v) ∨ p.pc = .ctor_recv))

/-- The process has no `write` ahead: its constructor is past `initMPI` and, at rank 0, past
its `write`; it is in no `write`; the calls left to make are all `read`. -/
def noWriteAhead (p : Process) : Bool :=
  (p.pc == .ctor_recv || p.pc == .read_handle || p.pc == .read_receive || p.pc == .ready) &&
    p.script.all (fun c => c == .read)

/-- A `VALUE_UPDATE` sent by rank `src`. -/
def isValueUpdateFrom (src : Nat) (m : Msg) : Bool :=
  m.tag == .VALUE_UPDATE && m.src == src

/-- No `VALUE_UPDATE` sent by rank `src` is in any outbox (undelivered) or inbox (delivered,
not received). -/
def noValueUpdateFrom (src : Nat) (w : World) : Bool :=
  w.all (fun p => (p.inbox ++ p.outbox).all (fun m => !isValueUpdateFrom src m))

/-- The written value `v` of rank `P` is at every process or on its way to it: no process
has a write ahead; every `VALUE_UPDATE` of `P` in a queue carries `v`; `P` caches `v`; and
every other process either caches `v` and is past its blocking receive, or has a
`VALUE_UPDATE` of `P` in its inbox, or has one addressed to it in the outbox of `P`. -/
def spreading (P : Nat) (v : Int) (w : World) : Prop :=
  (∀ (i : Nat) (p : Process), w[i]? = some p → noWriteAhead p = true ∧
    ∀ m, m ∈ p.inbox ∨ m ∈ p.outbox → isValueUpdateFrom P m = true → m.payload = v) ∧
  (∀ p : Process, w[P]? = some p → p.obj._obj = v ∧ p.pc ≠ .ctor_recv) ∧
  (∀ (i : Nat) (p : Process), w[i]? = some p → i ≠ P →
    (p.obj._obj = v ∧ p.pc ≠ .ctor_recv) ∨
    (∃ m ∈ p.inbox, isValueUpdateFrom P m = true) ∨
    (∃ pP, w[P]? = some pP ∧ ∃ m ∈ pP.outbox, isValueUpdateFrom P m = true ∧ m.dst = i))

/-- A message of the token protocol names its sender: its payload is the sending rank, both
ends are ranks of the group, and they differ. -/
def validMsg (n : Nat) (m : Msg) : Prop :=
  (m.tag = .TOKEN_REQUEST ∨ m.tag = .TOKEN_RESPONSE) →
    m.payload = (m.src : Int) ∧ m.src < n ∧ m.dst < n ∧ m.src ≠ m.dst

/-- Process `i` of a group of `n` is constructed (rank, size and vector as `initMPI` sets
them) and its queues hold valid messages: in the inbox, messages sent to `i`; in the outbox,
messages sent by `i`. -/
def validProcess (n i : Nat) (p : Process) : Prop :=
  p.mpi_rank = i ∧ p.mpi_size = n ∧ p.obj.rank = i ∧ p.obj.world_size = n ∧
  p.obj.read_tokens.length = n ∧ i < n ∧
  (∀ m ∈ p.inbox, validMsg n m ∧ m.dst = i) ∧ (∀ m ∈ p.outbox, validMsg n m ∧ m.src = i)

/-- Every process of the group is valid at its rank. -/
def validWorld (n : Nat) (w : World) : Prop :=
  w.length = n ∧ ∀ (i : Nat) (p : Process), w[i]? = some p → validProcess n i p

/-- Process `k` of a group of `n` is valid and no longer holds its own read token. -/
def lostOwn (n k : Nat) (p : Process) : Prop :=
  validProcess n k p ∧ p.obj.read_tokens[k]? = some false

/-- Process `k` of a group of `n` is in the wait loop of a `write` of the application,
valid, and no longer holds its own read token. -/
def stuckWriter (n k : Nat) (p : Process) : Prop :=
  lostOwn n k p ∧ ∃ v, p.pc = .write_handle v false ∨ p.pc = .write_receive v false

instance (n : Nat) (m : Msg) : Decidable (validMsg n m) := by
  unfold validMsg
  infer_instance

instance (n i : Nat) (p : Process) : Decidable (validProcess n i p) := by
  unfold validProcess
  infer_instance

instance (n k : Nat) (p : Process) : Decidable (lostOwn n k p) := by
  unfold lostOwn
  infer_instance

/-- The object of `p` has rank `r` and holds the read token of `j`. -/
def holdsToken (r j : Nat) (p : Process) : Prop :=
  p.obj.rank = r ∧ p.obj.read_tokens[j]? = some true

/-! ## Programs, traces and states used below -/

/-- The driver `main.cpp` after the construction: rank 0 writes 100, then every rank reads. -/
def mainScript (rank : Nat) : List Call :=
  if rank == 0 then [.write 100, .read] else [.read]

/-- The group `mpirun -np n` starts on `main.cpp`: every rank constructs `DistObj<int>`
from 42. -/
def mainInit (n : Nat) : World :=
  programInit n (fun _ => 42) mainScript

/-- The start of a run of `main.cpp` on 3 processes: every constructor starts, the two
requests of rank 0 are delivered and rank 0 polls three times. -/
def mainStuckTrace : List Action :=
  [.run 0, .run 1, .run 2, .deliver 0 1, .deliver 0 2, .run 0, .run 0, .run 0]

/-- The state `mainStuckTrace` leads to. -/
def mainStuckWorld : World :=
  (runTrace programStep (mainInit 3) mainStuckTrace).getD []


/-- Two ranks call `write` at the same time.  Rank 1 asks rank 0 twice (once for the
write token, once for the read token of rank 0); rank 0 asks rank 1 once.  Rank 0 answers
the first request with two grants, rank 1 answers with one grant and takes the first
grant of rank 0, and rank 0 takes the grant of rank 1. -/
def duplicateWriteTrace : List TokenAction :=
  [.requestTokens 1, .requestTokens 0, .deliver 1 0, .deliver 1 0, .deliver 0 1,
   .handleTokenRequests 0, .receiveTokens 0,
   .handleTokenRequests 1, .deliver 0 1, .receiveTokens 1,
   .deliver 1 0, .handleTokenRequests 0, .receiveTokens 0]

/-- The state `duplicateWriteTrace` leads to in a group of 2. -/
def duplicateWriteWorld : World :=
  (runTrace tokenStep (tokenInit 2 (fun _ => 42)) duplicateWriteTrace).getD []

/-- Rank 1 asks rank 0 for its tokens and rank 0 answers the first request: it clears its
write token and its own read token and sends two grants. -/
def lostReadTrace : List TokenAction :=
  [.requestTokens 1, .deliver 1 0, .handleTokenRequests 0]

/-- The state `lostReadTrace` leads to in a group of 2. -/
def lostReadWorld : World :=
  (runTrace tokenStep (tokenInit 2 (fun _ => 42)) lostReadTrace).getD []

/-- Three ranks call `write` one after the other.  Rank 1 asks; rank 0 gives it the write
token and the read token of rank 0 (two grants with payload 0) and rank 1 takes the first.
Rank 0 asks; rank 1 gives it the write token and the read token of rank 1, and rank 0 takes
the first grant: it has the write token again.  Rank 2 asks; rank 0 gives it the write
token in a grant with payload 0, which rank 2 takes as the read token of rank 0. -/
def duplicateReadTrace : List TokenAction :=
  [.requestTokens 1, .deliver 1 0, .deliver 1 0, .handleTokenRequests 0,
   .handleTokenRequests 0, .deliver 0 1, .receiveTokens 1,
   .requestTokens 0, .deliver 0 1, .deliver 0 1, .handleTokenRequests 1,
   .deliver 1 0, .receiveTokens 0,
   .requestTokens 2, .deliver 2 0, .handleTokenRequests 0,
   .deliver 0 2, .deliver 0 2, .deliver 0 2, .receiveTokens 2]

/-- The state `duplicateReadTrace` leads to in a group of 3. -/
def duplicateReadWorld : World :=
  (runTrace tokenStep (tokenInit 3 (fun _ => 42)) duplicateReadTrace).getD []

/-- Rank 1 of a group of 3, constructed, holding the write token and every read token. -/
def allTokensAt1 : Process :=
  { mpi_rank := 1, mpi_size := 3,
    obj := { _obj := 42, rank := 1, world_size := 3, read_tokens := [true, true, true],
             write_token := true },
    inbox := [], outbox := [], pc := .ready, script := [], returns := [] }

/-- Rank 0 of 3 holds the write token and every read token (the initial state the
specification describes) and is about to call `write(100)`. -/
def seedingWriter : Process :=
  { mpi_rank := 0, mpi_size := 3,
    obj := { _obj := 42, rank := 0, world_size := 3, read_tokens := [true, true, true],
             write_token := true },
    inbox := [], outbox := [], pc := .ready, script := [.write 100, .read], returns := [] }

/-- Rank 0 of 3 after that `write(100)`. -/
def seedingWritten : Process :=
  { seedingWriter with
    obj := { seedingWriter.obj with _obj := 100 },
    outbox := [⟨0, 1, .VALUE_UPDATE, 100⟩, ⟨0, 2, .VALUE_UPDATE, 100⟩],
    script := [.read] }

/-- A group of 3 put together by hand: rank 0 is `seedingWriter`; ranks 1 and 2 are past
`initMPI`, in the blocking receive of their constructors, with a `read` to follow. -/
def seedingWorld : World :=
  [ seedingWriter,
    { Process.initialised 1 3 42 with pc := .ctor_recv, script := [.read] },
    { Process.initialised 2 3 42 with pc := .ctor_recv, script := [.read] } ]

/-- The two updates are delivered and received, rank 2 first. -/
def seedingDeliveries : List Action :=
  [.deliver 0 2, .run 2, .deliver 0 1, .run 1]

/-- The group once the write of rank 0 has returned and its two updates are received. -/
def seedingDone : World :=
  (runTrace programStep (seedingWorld.set 0 seedingWritten) seedingDeliveries).getD []

/-- Rank 0 of 2 right after `initMPI`, with a request of rank 1 delivered to it. -/
def requestPending : Process :=
  { Process.initialised 0 2 42 with inbox := [⟨1, 0, .TOKEN_REQUEST, 1⟩] }

/-- Rank 1 of 2 right after `initMPI`, with a grant of rank 0 delivered to it. -/
def grantPending : Process :=
  { Process.initialised 1 2 42 with inbox := [⟨0, 1, .TOKEN_RESPONSE, 0⟩] }

/-- Rank 1 in `duplicateWriteWorld`. -/
def ownLostAt1 : Process :=
  duplicateWriteWorld[1]?.getD (Process.start 1 2 42 [])

/-- Rank 0 in `lostReadWorld`. -/
def ownLostAt0 : Process :=
  lostReadWorld[0]?.getD (Process.start 0 2 42 [])

/-- After `lostReadTrace`: rank 0 asks in its turn, rank 1 answers with its own read token
(one grant), and rank 0 takes that grant. -/
def lostReadLaterTrace : List TokenAction :=
  [.requestTokens 0, .deliver 0 1, .deliver 0 1, .deliver 0 1, .deliver 0 1,
   .handleTokenRequests 1, .deliver 1 0, .deliver 1 0, .receiveTokens 0]

/-- The state `lostReadLaterTrace` leads to from `lostReadWorld`. -/
def lostReadLater : World :=
  (runTrace tokenStep lostReadWorld lostReadLaterTrace).getD []

/-- Rank 0 in `lostReadLater`. -/
def ownLostAt0Later : Process :=
  lostReadLater[0]?.getD (Process.start 0 2 42 [])

/-- Two constructed ranks, in the states set by `initMPI`; rank 0 is about to call
`write(1)`, rank 1 `write(2)`. -/
def writersWorld : World :=
  [ { Process.initialised 0 2 42 with script := [.write 1] },
    { Process.initialised 1 2 42 with script := [.write 2] } ]

/-- Both ranks enter `write`, send their requests and wait; the requests are delivered; rank
0 goes once round its loop (it grants its two tokens to rank 1, then finds no grant); rank 1
goes once round its loop (it grants its own read token to rank 0, then takes the first
grant of rank 0). -/
def writersTrace : List Action :=
  [.run 0, .run 1, .deliver 1 0, .deliver 1 0, .deliver 0 1,
   .run 0, .run 0, .run 1, .deliver 0 1, .run 1]

/-- Rank 0 after `writersTrace`: in the wait loop of `write(1)`, holding no token. -/
def stuckAt0 : Process :=
  { mpi_rank := 0, mpi_size := 2,
    obj := { _obj := 42, rank := 0, world_size := 2, read_tokens := [false, false],
             write_token := false },
    inbox := [⟨1, 0, .TOKEN_REQUEST, 1⟩], outbox := [⟨0, 1, .TOKEN_RESPONSE, 0⟩],
    pc := .write_handle 1 false, script := [], returns := [] }

/-- Rank 1 after `writersTrace`: in the wait loop of `write(2)`, holding the write token and
the read token of rank 0, not its own. -/
def stuckAt1 : Process :=
  { mpi_rank := 1, mpi_size := 2,
    obj := { _obj := 42, rank := 1, world_size := 2, read_tokens := [true, false],
             write_token := true },
    inbox := [], outbox := [⟨1, 0, .TOKEN_RESPONSE, 1⟩],
    pc := .write_handle 2 false, script := [], returns := [] }

/-- The state `writersTrace` leads to. -/
def writersStuck : World := [stuckAt0, stuckAt1]

/-- After `writersTrace`: the two grants still under way are delivered and each rank goes
once more round its loop. -/
def writersLaterTrace : List Action :=
  [.deliver 1 0, .deliver 0 1, .run 0, .run 0, .run 1, .run 1]

/-- The state `writersLaterTrace` leads to from `writersStuck`. -/
def writersLater : World :=
  (runTrace programStep writersStuck writersLaterTrace).getD []

/-- Rank 1 of 3, holding every token, about to call `write(100)`. -/
def writeCall : Process := { allTokensAt1 with script := [.write 100] }

/-- Rank 1 of 3 after its `write(100)`. -/
def writeDone : Process :=
  { allTokensAt1 with
    obj := { allTokensAt1.obj with _obj := 100 },
    outbox := [⟨1, 0, .VALUE_UPDATE, 100⟩, ⟨1, 2, .VALUE_UPDATE, 100⟩] }

/-- From `writersWorld`: both ranks enter `write` and send their requests; the request of
rank 0 is delivered and rank 1 grants its own read token; rank 0 polls for requests and
finds none; the two requests and the grant of rank 1 are delivered; rank 0 takes the grant,
holds every token, assigns 1, sends the `VALUE_UPDATE` and returns; the `VALUE_UPDATE` is
delivered to rank 1. -/
def staleTrace : List Action :=
  [.run 0, .run 1, .deliver 0 1, .run 1, .run 0, .deliver 1 0, .deliver 1 0, .deliver 1 0,
   .run 0, .deliver 0 1]

/-- Rank 0 after `staleTrace`: its `write(1)` has returned. -/
def writtenAt0 : Process :=
  { mpi_rank := 0, mpi_size := 2,
    obj := { _obj := 1, rank := 0, world_size := 2, read_tokens := [true, true],
             write_token := true },
    inbox := [⟨1, 0, .TOKEN_REQUEST, 1⟩, ⟨1, 0, .TOKEN_REQUEST, 1⟩], outbox := [],
    pc := .ready, script := [], returns := [] }

/-- Rank 1 after `staleTrace`: in the wait loop of `write(2)`, the `VALUE_UPDATE` of rank 0
delivered to it, its cache still 42. -/
def staleAt1 : Process :=
  { mpi_rank := 1, mpi_size := 2,
    obj := { _obj := 42, rank := 1, world_size := 2, read_tokens := [false, false],
             write_token := false },
    inbox := [⟨0, 1, .VALUE_UPDATE, 1⟩], outbox := [],
    pc := .write_receive 2 false, script := [], returns := [] }

/-- The state `staleTrace` leads to. -/
def staleWorld : World := [writtenAt0, staleAt1]

/-- After `staleTrace`: rank 1 goes three times round its wait loop. -/
def staleLaterTrace : List Action :=
  [.run 1, .run 1, .run 1, .run 1, .run 1, .run 1]

/-- The state `staleLaterTrace` leads to from `staleWorld`. -/
def staleLater : World :=
  (runTrace programStep staleWorld staleLaterTrace).getD []

/-- Process `p` has returned from `write(v)` and from `main`'s calls: it caches `v`, has
nothing left to send and makes no further call. -/
def writtenOut (n k : Nat) (v : Int) (p : Process) : Prop :=
  validProcess n k p ∧ p.pc = .ready ∧ p.script = [] ∧ p.obj._obj = v ∧ p.outbox = []

/-- Process `p` waits in `write` without its own read token, caches `old`, and has the
message `m` in its inbox. -/
def staleWriter (n k : Nat) (old : Int) (m : Msg) (p : Process) : Prop :=
  stuckWriter n k p ∧ p.obj._obj = old ∧ m ∈ p.inbox

/-! # Theorems -/

/-! ## Traces and reachability -/

theorem Reachable.of_runTrace {α : Type} (step : World → α → Option World) (init : World) :
    ∀ (as : List α) (w w2 : World), Reachable step init w → runTrace step w as = some w2 →
      Reachable step init w2 := by
  intro as
  induction as with
  | nil =>
    intro w w2 hw h
    simp only [runTrace, Option.some.injEq] at h
    exact h ▸ hw
  | cons a rest ih =>
    intro w w2 hw h
    simp only [runTrace] at h
    cases hs : step w a with
    | none => simp [hs] at h
    | some w1 =>
      rw [hs] at h
      exact ih w1 w2 (Reachable.next hw hs) h

/-! ## Queues, sends and loops of sends -/

theorem takeFirst_some {f : Msg → Bool} : ∀ {l : List Msg} {m : Msg} {rest : List Msg},
    takeFirst f l = some (m, rest) →
      f m = true ∧ ∃ pre post, l = pre ++ m :: post ∧ rest = pre ++ post ∧
        (∀ x ∈ pre, f x = false) := by
  intro l
  induction l with
  | nil => intro m rest h; simp [takeFirst] at h
  | cons a t ih =>
    intro m rest h
    simp only [takeFirst] at h
    by_cases ha : f a = true
    · simp only [ha, if_true, Option.some.injEq, Prod.mk.injEq] at h
      obtain ⟨rfl, rfl⟩ := h
      exact ⟨ha, [], t, by simp, by simp, by simp⟩
    · simp only [ha] at h
      cases ht : takeFirst f t with
      | none => simp [ht] at h
      | some r =>
        obtain ⟨x, rest2⟩ := r
        simp only [ht, Bool.false_eq_true, if_false, Option.some.injEq, Prod.mk.injEq] at h
        obtain ⟨rfl, rfl⟩ := h
        obtain ⟨hx, pre, post, hl, hr, hp⟩ := ih ht
        refine ⟨hx, a :: pre, post, by simp [hl], by simp [hr], ?_⟩
        intro y hy
        rcases List.mem_cons.mp hy with rfl | hy
        · simpa using ha
        · exact hp y hy

theorem takeFirst_mem {f : Msg → Bool} {l : List Msg} {m : Msg} {rest : List Msg}
    (h : takeFirst f l = some (m, rest)) (x : Msg) : x ∈ l ↔ x = m ∨ x ∈ rest := by
  obtain ⟨_, pre, post, hl, hr, _⟩ := takeFirst_some h
  subst hl hr
  simp only [List.mem_append, List.mem_cons]
  tauto

theorem takeFirst_none {f : Msg → Bool} : ∀ {l : List Msg},
    takeFirst f l = none ↔ ∀ x ∈ l, f x = false := by
  intro l
  induction l with
  | nil => simp [takeFirst]
  | cons a t ih =>
    simp only [takeFirst]
    by_cases ha : f a = true
    · simp [ha]
    · simp only [ha, Bool.false_eq_true, if_false, List.mem_cons, forall_eq_or_imp]
      cases ht : takeFirst f t with
      | none => simpa [ha] using ih.mp ht
      | some r =>
        constructor
        · intro h; simp at h
        · intro hall
          rw [ih.mpr hall.2] at ht
          simp at ht

theorem MPI_Send_eq {p q : Process} {payload dest : Int} {tag : MessageTag}
    (h : MPI_Send p payload dest tag = some q) :
    (0 ≤ dest ∧ dest < p.mpi_size) ∧
      q = { p with outbox := p.outbox ++ [⟨p.mpi_rank, dest.toNat, tag, payload⟩] } := by
  unfold MPI_Send at h
  by_cases hd : 0 ≤ dest ∧ dest < p.mpi_size
  · simp only [hd, and_self, if_true, Option.some.injEq] at h
    exact ⟨hd, h.symm⟩
  · simp [hd] at h

/-- What a loop of sends does: the messages go to the ranks below `n` selected by `c`, in
increasing order; nothing else changes. -/
theorem forLoop_send (c : Nat → DistObj → Bool) (pay : DistObj → Int) (tag : MessageTag)
    (p : Process) : ∀ n, n ≤ p.mpi_size →
    forLoop n (fun i q => if c i q.obj then MPI_Send q (pay q.obj) i tag else some q) p =
      some { p with
        outbox := p.outbox ++
          sentTo p.mpi_rank tag (pay p.obj) ((List.range n).filter (fun i => c i p.obj)) } := by
  intro n
  induction n with
  | zero => intro _; simp [forLoop, sentTo]
  | succ k ih =>
    intro hk
    have ih2 := ih (by omega)
    unfold forLoop at ih2 ⊢
    rw [List.range_succ, List.foldlM_append, ih2]
    simp only [Option.bind_eq_bind, Option.some_bind, List.foldlM_cons, List.foldlM_nil,
      List.filter_append, sentTo, List.map_append]
    by_cases hc : c k p.obj = true
    · have hlt : (k : Int) < (p.mpi_size : Int) := by exact_mod_cast hk
      simp [hc, MPI_Send, hlt, List.filter_cons]
    · simp [hc, List.filter_cons]

theorem set_same_false {l : List Bool} {i : Nat} (h : l[i]? = some false) :
    l.set i false = l := by
  apply List.ext_getElem?
  intro k
  rw [List.getElem?_set]
  by_cases hi : i = k
  · subst hi
    obtain ⟨hlt, _⟩ := List.getElem?_eq_some.mp h
    simp [hlt, h]
  · simp [hi]

/-- A loop whose body only sends only sends. -/
theorem forLoop_sends (Q : Nat → Nat → DistObj → Msg → Prop)
    (body : Nat → Process → Option Process)
    (hb : ∀ i p q, body i p = some q →
      ∃ ms, q = { p with outbox := p.outbox ++ ms } ∧
        ∀ m ∈ ms, Q p.mpi_rank p.mpi_size p.obj m) :
    ∀ n p q, forLoop n body p = some q →
      ∃ ms, q = { p with outbox := p.outbox ++ ms } ∧
        ∀ m ∈ ms, Q p.mpi_rank p.mpi_size p.obj m := by
  intro n
  induction n with
  | zero =>
    intro p q h
    simp only [forLoop, List.range_zero, List.foldlM_nil, pure, Option.some.injEq] at h
    exact ⟨[], by simp [← h], by simp⟩
  | succ k ih =>
    intro p q h
    unfold forLoop at h
    rw [List.range_succ, List.foldlM_append] at h
    cases h1 : forLoop k body p with
    | none =>
      unfold forLoop at h1
      simp [h1] at h
    | some p1 =>
      have h1b := h1
      unfold forLoop at h1b
      simp only [h1b, Option.bind_eq_bind, Option.some_bind, List.foldlM_cons,
        List.foldlM_nil] at h
      obtain ⟨ms1, rfl, hq1⟩ := ih p p1 h1
      cases h2 : body k { p with outbox := p.outbox ++ ms1 } with
      | none => simp [h2] at h
      | some p2 =>
        simp only [h2, Option.some_bind, pure, Option.some.injEq] at h
        subst h
        obtain ⟨ms2, rfl, hq2⟩ := hb _ _ _ h2
        refine ⟨ms1 ++ ms2, by simp, ?_⟩
        intro m hm
        rcases List.mem_append.mp hm with hm | hm
        · exact hq1 m hm
        · exact hq2 m hm

/-! ## The token protocol, one member function at a time -/

/-- What `requestTokens` does: it sends requests carrying the own rank to other ranks,
and nothing else. -/
theorem requestTokens_sends {p q : Process} (h : requestTokens p = some q) :
    ∃ ms, q = { p with outbox := p.outbox ++ ms } ∧
      ∀ m ∈ ms, m.tag = .TOKEN_REQUEST ∧ m.src = p.mpi_rank ∧ m.payload = p.obj.rank ∧
        m.dst ≠ p.obj.rank ∧ m.dst < p.mpi_size := by
  have key : ∀ (i : Nat) (p q : Process),
      MPI_Send p p.obj.rank i .TOKEN_REQUEST = some q → i ≠ p.obj.rank →
      ∃ ms, q = { p with outbox := p.outbox ++ ms } ∧
        ∀ m ∈ ms, m.tag = .TOKEN_REQUEST ∧ m.src = p.mpi_rank ∧ m.payload = p.obj.rank ∧
          m.dst ≠ p.obj.rank ∧ m.dst < p.mpi_size := by
    intro i p q hs hi
    obtain ⟨hd, rfl⟩ := MPI_Send_eq hs
    refine ⟨_, rfl, ?_⟩
    intro m hm
    simp only [List.mem_singleton] at hm
    subst hm
    have : i < p.mpi_size := by exact_mod_cast hd.2
    simp [hi, this]
  have none_sent : ∀ p : Process, ∃ ms : List Msg, p = { p with outbox := p.outbox ++ ms } ∧
      ∀ m ∈ ms, m.tag = .TOKEN_REQUEST ∧ m.src = p.mpi_rank ∧ m.payload = p.obj.rank ∧
          m.dst ≠ p.obj.rank ∧ m.dst < p.mpi_size :=
    fun p => ⟨[], by simp, by simp⟩
  have loop1 := forLoop_sends
    (fun r n o m => m.tag = .TOKEN_REQUEST ∧ m.src = r ∧ m.payload = o.rank ∧
      m.dst ≠ o.rank ∧ m.dst < n)
    (fun i q => if i != q.obj.rank then MPI_Send q q.obj.rank i .TOKEN_REQUEST else some q)
    (by
      intro i p q hq
      by_cases hi : i = p.obj.rank
      · simp only [hi, bne_self_eq_false, Bool.false_eq_true, if_false,
          Option.some.injEq] at hq
        subst hq
        exact none_sent _
      · have : (i != p.obj.rank) = true := by simpa using hi
        simp only [this, if_true] at hq
        exact key i p q hq hi)
  have loop2 := forLoop_sends
    (fun r n o m => m.tag = .TOKEN_REQUEST ∧ m.src = r ∧ m.payload = o.rank ∧
      m.dst ≠ o.rank ∧ m.dst < n)
    (fun i q =>
      if i != q.obj.rank then do
        let held ← q.obj.read_tokens[i]?
        if !held then MPI_Send q q.obj.rank i .TOKEN_REQUEST else some q
      else some q)
    (by
      intro i p q hq
      by_cases hi : i = p.obj.rank
      · simp only [hi, bne_self_eq_false, Bool.false_eq_true, if_false,
          Option.some.injEq] at hq
        subst hq
        exact none_sent _
      · have : (i != p.obj.rank) = true := by simpa using hi
        simp only [this, if_true] at hq
        cases hh : p.obj.read_tokens[i]? with
        | none => simp [hh] at hq
        | some held =>
          cases held with
          | true =>
            simp only [hh, Option.bind_eq_bind, Option.some_bind, Bool.not_true,
              Bool.false_eq_true, if_false, Option.some.injEq] at hq
            subst hq
            exact none_sent _
          | false =>
            simp only [hh, Option.bind_eq_bind, Option.some_bind, Bool.not_false,
              if_true] at hq
            exact key i p q hq hi)
  unfold requestTokens at h
  cases hw : p.obj.write_token with
  | true =>
    simp only [hw, Bool.not_true, Bool.false_eq_true, if_false, Option.bind_eq_bind,
      Option.some_bind] at h
    exact loop2 _ _ _ h
  | false =>
    simp only [hw, Bool.not_false, if_true, Option.bind_eq_bind] at h
    obtain ⟨p1, h1, h2⟩ := Option.bind_eq_some.mp h
    obtain ⟨ms1, rfl, hq1⟩ := loop1 _ _ _ h1
    obtain ⟨ms2, rfl, hq2⟩ := loop2 _ _ _ h2
    refine ⟨ms1 ++ ms2, by simp, ?_⟩
    intro m hm
    rcases List.mem_append.mp hm with hm | hm
    · exact hq1 m hm
    · exact hq2 m hm

theorem handleTokenRequests_idle {p : Process}
    (h : takeFirst (fun m => m.tag == .TOKEN_REQUEST) p.inbox = none) :
    handleTokenRequests p = some p := by
  simp [handleTokenRequests, h]

/-- What `handleTokenRequests` does with a pending request. -/
theorem handleTokenRequests_eq {p q : Process} {m : Msg} {rest : List Msg}
    (ht : takeFirst (fun m => m.tag == .TOKEN_REQUEST) p.inbox = some (m, rest))
    (h : handleTokenRequests p = some q) :
    ∃ own, p.obj.read_tokens[p.obj.rank]? = some own ∧
      ((p.obj.write_token = true ∨ own = true) → 0 ≤ m.payload ∧ m.payload < p.mpi_size) ∧
      q = { p with
        inbox := rest,
        obj := { p.obj with write_token := false,
                            read_tokens := p.obj.read_tokens.set p.obj.rank false },
        outbox := p.outbox ++ (if p.obj.write_token then [grantFor p m] else []) ++
                    (if own then [grantFor p m] else []) } := by
  simp only [handleTokenRequests, ht] at h
  rcases p with ⟨mr, ms, ⟨o, r, ws, rt, wt⟩, ib, ob, pc, sc, rets⟩
  simp only at h ht ⊢
  cases hown : rt[r]? with
  | none =>
    cases wt <;> simp [hown, MPI_Send] at h
    split at h <;> simp [hown] at h
  | some own =>
    refine ⟨own, rfl, ?_⟩
    by_cases hd : 0 ≤ m.payload ∧ m.payload < ms
    · cases wt <;> cases own <;>
        simp [hown, MPI_Send, hd, grantFor, set_same_false] at h ⊢ <;> exact h.symm
    · cases wt <;> cases own <;>
        simp [hown, MPI_Send, hd, grantFor, set_same_false] at h ⊢
      exact h.symm

theorem receiveTokens_idle {p : Process}
    (h : takeFirst (fun m => m.tag == .TOKEN_RESPONSE) p.inbox = none) :
    receiveTokens p = some p := by
  simp [receiveTokens, h]

/-- What `receiveTokens` does with a pending grant. -/
theorem receiveTokens_eq {p q : Process} {m : Msg} {rest : List Msg}
    (ht : takeFirst (fun m => m.tag == .TOKEN_RESPONSE) p.inbox = some (m, rest))
    (h : receiveTokens p = some q) :
    (0 ≤ m.payload ∧ m.payload < p.obj.read_tokens.length) ∧
      q = { p with
        inbox := rest,
        obj := { p.obj with read_tokens := p.obj.read_tokens.set m.payload.toNat true,
                            write_token := true } } := by
  simp only [receiveTokens, ht] at h
  by_cases hd : 0 ≤ m.payload ∧ m.payload < p.obj.read_tokens.length
  · simp only [hd, and_self, if_true, Option.some.injEq] at h
    exact ⟨hd, h.symm⟩
  · simp [hd] at h

/-! ## Token bookkeeping: `initMPI` and `hasAllTokens` -/

theorem hasAllTokens.loop_iff (l : List Bool) :
    hasAllTokens.loop l = true ↔ ∀ j, j < l.length → l[j]? = some true := by
  induction l with
  | nil => simp [hasAllTokens.loop]
  | cons b rest ih =>
    simp only [hasAllTokens.loop]
    constructor
    · intro h j hj
      cases b with
      | false => simp at h
      | true =>
        simp only [Bool.not_true, Bool.false_eq_true, if_false] at h
        cases j with
        | zero => simp
        | succ k =>
          simp only [List.getElem?_cons_succ]
          exact ih.mp h k (by simpa using hj)
    · intro h
      have h0 := h 0 (by simp)
      simp only [List.getElem?_cons_zero, Option.some.injEq] at h0
      subst h0
      simp only [Bool.not_true, Bool.false_eq_true, if_false]
      apply ih.mpr
      intro j hj
      have := h (j + 1) (by simpa using hj)
      simpa using this

theorem initMPI_read_tokens (p : Process) (hv : p.obj.read_tokens = []) (j : Nat)
    (hj : j < p.mpi_size) :
    (initMPI p).obj.read_tokens[j]? = some (decide (j = p.mpi_rank)) := by
  simp only [initMPI, resize, hv, List.take_nil, List.nil_append, List.length_nil, Nat.sub_zero]
  rw [List.getElem?_set]
  by_cases h : p.mpi_rank = j
  · subst h; simp [hj]
  · have h2 : ¬ j = p.mpi_rank := fun e => h e.symm
    simp [h, h2, hj]

theorem initMPI_length (p : Process) (hv : p.obj.read_tokens = []) :
    (initMPI p).obj.read_tokens.length = p.mpi_size := by
  simp [initMPI, resize, hv]

/-- The tokens after `initMPI` on a freshly constructed object (its vector empty), in a
group of `mpi_size` processes: `rank` and `world_size` are the MPI rank and size, the write
token is held exactly by rank 0, the vector has one entry per rank, and entry `j` is true
exactly when `j` is the process's own rank. -/
theorem initMPI_tokens (p : Process) (hv : p.obj.read_tokens = []) :
    (initMPI p).obj.rank = p.mpi_rank ∧ (initMPI p).obj.world_size = p.mpi_size ∧
    ((initMPI p).obj.write_token = true ↔ p.mpi_rank = 0) ∧
    (initMPI p).obj.read_tokens.length = p.mpi_size ∧
    ∀ j, j < p.mpi_size →
      (initMPI p).obj.read_tokens[j]? = some (decide (j = p.mpi_rank)) := by
  refine ⟨rfl, rfl, ?_, initMPI_length p hv, initMPI_read_tokens p hv⟩
  simp [initMPI]

/-- C3, the code at the failing input.  At rank 0 of a group of 2 or more, `initMPI` on a
freshly constructed object leaves the write token held and `read_tokens[0]` true, but
`read_tokens[j]` false for every other rank `j`: rank 0 does not start with all the read
tokens, and `hasAllTokens()` is false right after `initMPI`. -/
theorem C3_rank0_starts_without_the_other_read_tokens (p : Process)
    (hv : p.obj.read_tokens = []) (h0 : p.mpi_rank = 0) (hn : 2 ≤ p.mpi_size) :
    (initMPI p).obj.write_token = true ∧
    (initMPI p).obj.read_tokens[0]? = some true ∧
    (∀ j, 0 < j → j < p.mpi_size → (initMPI p).obj.read_tokens[j]? = some false) ∧
    ¬ (∀ j, j < p.mpi_size → (initMPI p).obj.read_tokens[j]? = some true) ∧
    hasAllTokens (initMPI p).obj = false := by
  have hall := initMPI_read_tokens p hv
  have h1 : (initMPI p).obj.read_tokens[1]? = some false := by
    rw [hall 1 (by omega), h0]
    rfl
  refine ⟨by simp [initMPI, h0], ?_, ?_, ?_, ?_⟩
  · rw [hall 0 (by omega), h0]
    rfl
  · intro j hj hlt
    rw [hall j hlt, h0]
    have : ¬ j = 0 := by omega
    simp [this]
  · intro h
    have h2 := h 1 (by omega)
    rw [h1] at h2
    cases h2
  · unfold hasAllTokens
    have hw : (initMPI p).obj.write_token = true := by simp [initMPI, h0]
    rw [hw]
    simp only [Bool.not_true, Bool.false_eq_true, if_false]
    cases hl : hasAllTokens.loop (initMPI p).obj.read_tokens with
    | false => rfl
    | true =>
      have := (hasAllTokens.loop_iff (initMPI p).obj.read_tokens).mp hl 1
        (by rw [initMPI_length p hv]; omega)
      rw [h1] at this
      cases this

/-- C3, witness: rank 0 of 3. -/
theorem C3_rank0_starts_without_the_other_read_tokens_witness :
    ((Process.start 0 3 42 []).obj.read_tokens = [] ∧ (Process.start 0 3 42 []).mpi_rank = 0 ∧
      2 ≤ (Process.start 0 3 42 []).mpi_size) ∧
    ((initMPI (Process.start 0 3 42 [])).obj.write_token = true ∧
     (initMPI (Process.start 0 3 42 [])).obj.read_tokens[0]? = some true ∧
     (∀ j, 0 < j → j < (Process.start 0 3 42 []).mpi_size →
       (initMPI (Process.start 0 3 42 [])).obj.read_tokens[j]? = some false) ∧
     ¬ (∀ j, j < (Process.start 0 3 42 []).mpi_size →
       (initMPI (Process.start 0 3 42 [])).obj.read_tokens[j]? = some true) ∧
     hasAllTokens (initMPI (Process.start 0 3 42 [])).obj = false) :=
  ⟨⟨rfl, rfl, by decide⟩,
    C3_rank0_starts_without_the_other_read_tokens (Process.start 0 3 42 []) rfl rfl
      (by decide)⟩

/-- C4.  On an object whose vector has `world_size` entries (as `initMPI` sizes it),
`hasAllTokens()` is true exactly when the write token is held and `read_tokens[j]` is
true for every `j` in `[0, world_size)`.  The function reads the object and returns a
`bool`; it has no other effect. -/
theorem C4_hasAllTokens_exact (s : DistObj) (hlen : s.read_tokens.length = s.world_size) :
    hasAllTokens s = true ↔
      (s.write_token = true ∧ ∀ j, j < s.world_size → s.read_tokens[j]? = some true) := by
  unfold hasAllTokens
  rw [← hlen]
  cases hw : s.write_token with
  | false => simp
  | true => simpa using hasAllTokens.loop_iff s.read_tokens

/-- C4, witness: the object of the only process of a group of 1, which holds everything. -/
theorem C4_hasAllTokens_exact_witness :
    (initMPI (Process.start 0 1 42 [])).obj.read_tokens.length =
      (initMPI (Process.start 0 1 42 [])).obj.world_size ∧
    (hasAllTokens (initMPI (Process.start 0 1 42 [])).obj = true ↔
      ((initMPI (Process.start 0 1 42 [])).obj.write_token = true ∧
        ∀ j, j < (initMPI (Process.start 0 1 42 [])).obj.world_size →
          (initMPI (Process.start 0 1 42 [])).obj.read_tokens[j]? = some true)) :=
  ⟨rfl, C4_hasAllTokens_exact (initMPI (Process.start 0 1 42 [])).obj rfl⟩

/-! ## The write token is duplicated -/

/-- C1, the code at the failing input.  In a group of 2, `duplicateWriteTrace` leads from
the state set by `initMPI` to a state in which rank 0 and rank 1 both have
`write_token = true`. -/
theorem C1_write_token_held_twice :
    Reachable tokenStep (tokenInit 2 (fun _ => 42)) duplicateWriteWorld ∧
      duplicateWriteWorld.map (fun p => p.obj.write_token) = [true, true] ∧
      writeHolders duplicateWriteWorld = 2 :=
  ⟨Reachable.of_runTrace _ _ duplicateWriteTrace _ _ Reachable.start rfl, by decide, by decide⟩

/-! ## No read token is lost -/

theorem carriesReadToken_iff (j : Nat) (p : Process) :
    carriesReadToken j p = true ↔
      p.obj.read_tokens[j]? = some true ∨ (∃ m ∈ p.inbox, isGrantOf j m = true) ∨
        ∃ m ∈ p.outbox, isGrantOf j m = true := by
  simp [carriesReadToken, or_assoc]

theorem carries_requestTokens {j : Nat} {p q : Process} (h : requestTokens p = some q)
    (hc : carriesReadToken j p = true) : carriesReadToken j q = true := by
  obtain ⟨ms, rfl, _⟩ := requestTokens_sends h
  rw [carriesReadToken_iff] at hc ⊢
  rcases hc with hc | hc | ⟨m, hm, hg⟩
  · exact Or.inl hc
  · exact Or.inr (Or.inl hc)
  · exact Or.inr (Or.inr ⟨m, List.mem_append_left _ hm, hg⟩)

theorem carries_handleTokenRequests {j : Nat} {p q : Process}
    (h : handleTokenRequests p = some q)
    (hc : carriesReadToken j p = true) : carriesReadToken j q = true := by
  cases ht : takeFirst (fun m => m.tag == .TOKEN_REQUEST) p.inbox with
  | none =>
    rw [handleTokenRequests_idle ht] at h
    exact (Option.some.inj h) ▸ hc
  | some r =>
    obtain ⟨req, rest⟩ := r
    obtain ⟨own, hown, _, rfl⟩ := handleTokenRequests_eq ht h
    obtain ⟨hreq, _⟩ := takeFirst_some ht
    rw [carriesReadToken_iff] at hc ⊢
    rcases hc with hc | ⟨m, hm, hg⟩ | ⟨m, hm, hg⟩
    · by_cases hj : p.obj.rank = j
      · subst hj
        rw [hown] at hc
        cases hc
        refine Or.inr (Or.inr ⟨grantFor p req, by simp, ?_⟩)
        simp [isGrantOf, grantFor]
      · refine Or.inl ?_
        simp only
        rw [List.getElem?_set_ne hj]
        exact hc
    · refine Or.inr (Or.inl ⟨m, ?_, hg⟩)
      rcases (takeFirst_mem ht m).mp hm with rfl | hm
      · simp only [isGrantOf, Bool.and_eq_true, beq_iff_eq] at hg
        simp only [beq_iff_eq] at hreq
        rw [hreq] at hg
        exact absurd hg.1 (by decide)
      · exact hm
    · exact Or.inr (Or.inr ⟨m, by simp [hm], hg⟩)

theorem carries_receiveTokens {j : Nat} {p q : Process}
    (h : receiveTokens p = some q)
    (hc : carriesReadToken j p = true) : carriesReadToken j q = true := by
  cases ht : takeFirst (fun m => m.tag == .TOKEN_RESPONSE) p.inbox with
  | none =>
    rw [receiveTokens_idle ht] at h
    exact (Option.some.inj h) ▸ hc
  | some r =>
    obtain ⟨g, rest⟩ := r
    obtain ⟨hb, rfl⟩ := receiveTokens_eq ht h
    rw [carriesReadToken_iff] at hc ⊢
    rcases hc with hc | ⟨m, hm, hg⟩ | hc
    · refine Or.inl ?_
      simp only
      rw [List.getElem?_set]
      split
      · have : g.payload.toNat < p.obj.read_tokens.length := by omega
        simp [this]
      · exact hc
    · rcases (takeFirst_mem ht m).mp hm with rfl | hm
      · refine Or.inl ?_
        simp only [isGrantOf, Bool.and_eq_true, beq_iff_eq] at hg
        have hlt : j < p.obj.read_tokens.length := by
          have := hb.2
          rw [hg.2] at this
          exact_mod_cast this
        simp [hg.2, hlt]
      · exact Or.inr (Or.inl ⟨m, hm, hg⟩)
    · exact Or.inr (Or.inr hc)

/-- A property of one process that a member function preserves stays true of some process
of the group when one process runs the function. -/
theorem any_runAt {P : Process → Bool} {f : Process → Option Process} {i : Nat} {w w2 : World}
    (hf : ∀ p q, f p = some q → P p = true → P q = true)
    (h : runAt f i w = some w2) (hw : w.any P = true) : w2.any P = true := by
  unfold runAt at h
  simp only [Option.bind_eq_bind] at h
  obtain ⟨p, hp, h⟩ := Option.bind_eq_some.mp h
  obtain ⟨q, hq, h⟩ := Option.bind_eq_some.mp h
  simp only [Option.some.injEq] at h
  subst h
  rw [List.any_eq_true] at hw ⊢
  obtain ⟨x, hx, hPx⟩ := hw
  obtain ⟨k, hk, hkx⟩ := List.getElem_of_mem hx
  obtain ⟨hi, hpi⟩ := List.getElem?_eq_some.mp hp
  by_cases hik : i = k
  · subst hik
    have : x = p := by rw [← hkx, ← hpi]
    subst this
    refine ⟨q, ?_, hf _ _ hq hPx⟩
    exact List.mem_iff_getElem.mpr ⟨i, by simpa using hi, by simp⟩
  · refine ⟨x, ?_, hPx⟩
    exact List.mem_iff_getElem.mpr ⟨k, by simpa using hk, by simp [List.getElem_set, hik, hkx]⟩

/-- What a delivery does. -/
theorem deliver_eq {src dst : Nat} {w w2 : World} (h : deliver src dst w = some w2) :
    ∃ s m rest d, w[src]? = some s ∧
      takeFirst (fun m => m.dst == dst) s.outbox = some (m, rest) ∧
      (w.set src { s with outbox := rest })[dst]? = some d ∧
      w2 = (w.set src { s with outbox := rest }).set dst { d with inbox := d.inbox ++ [m] } := by
  unfold deliver at h
  simp only [Option.bind_eq_bind] at h
  obtain ⟨s, hs, h⟩ := Option.bind_eq_some.mp h
  obtain ⟨⟨m, rest⟩, ht, h⟩ := Option.bind_eq_some.mp h
  obtain ⟨d, hd, h⟩ := Option.bind_eq_some.mp h
  simp only [Option.some.injEq] at h
  exact ⟨s, m, rest, d, hs, ht, hd, h.symm⟩

/-- A delivery moves one message from the outbox of `src` to the inbox of `dst` and changes
nothing else. -/
theorem deliver_frame {src dst : Nat} {w w2 : World} (h : deliver src dst w = some w2) :
    ∃ msg, msg.dst = dst ∧ (∃ s, w[src]? = some s ∧ msg ∈ s.outbox) ∧
      (∃ d, w2[dst]? = some d ∧ msg ∈ d.inbox) ∧
      ∀ k p, w[k]? = some p → ∃ q, w2[k]? = some q ∧
        q.mpi_rank = p.mpi_rank ∧ q.mpi_size = p.mpi_size ∧ q.obj = p.obj ∧ q.pc = p.pc ∧
        q.script = p.script ∧ q.returns = p.returns ∧
        (∀ m, m ∈ q.inbox ↔ (m ∈ p.inbox ∨ (k = dst ∧ m = msg))) ∧
        (∀ m ∈ q.outbox, m ∈ p.outbox) ∧
        (∀ m ∈ p.outbox, m ∈ q.outbox ∨ (k = src ∧ m = msg)) := by
  obtain ⟨s, msg, rest, d, hs, ht, hd, rfl⟩ := deliver_eq h
  obtain ⟨hf, _⟩ := takeFirst_some ht
  have hmem := takeFirst_mem ht
  obtain ⟨hsl, hsv⟩ := List.getElem?_eq_some.mp hs
  have hdl : dst < w.length := by
    have := (List.getElem?_eq_some.mp hd).1
    simpa using this
  refine ⟨msg, by simpa using hf, ⟨s, hs, (hmem msg).mpr (Or.inl rfl)⟩,
    ⟨{ d with inbox := d.inbox ++ [msg] }, by simp [hdl], by simp⟩, ?_⟩
  intro k p hk
  obtain ⟨hkl, hkv⟩ := List.getElem?_eq_some.mp hk
  by_cases hkd : k = dst
  · subst hkd
    refine ⟨{ d with inbox := d.inbox ++ [msg] }, by simp [hkl], ?_⟩
    by_cases hks : src = k
    · subst hks
      have hps : p = s := by rw [← hkv, ← hsv]
      subst hps
      simp only [List.getElem?_set_self, hsl, Option.some.injEq] at hd
      subst hd
      refine ⟨rfl, rfl, rfl, rfl, rfl, rfl, ?_, ?_, ?_⟩
      · intro m; simp
      · intro m hm; exact (hmem m).mpr (Or.inr hm)
      · intro m hm
        rcases (hmem m).mp hm with h1 | h1
        · exact Or.inr ⟨rfl, h1⟩
        · exact Or.inl h1
    · rw [List.getElem?_set_ne hks, hk] at hd
      simp only [Option.some.injEq] at hd
      subst hd
      refine ⟨rfl, rfl, rfl, rfl, rfl, rfl, ?_, fun m hm => hm, fun m hm => Or.inl hm⟩
      intro m; simp
  · have hkd2 : ¬ dst = k := fun e => hkd e.symm
    by_cases hks : src = k
    · subst hks
      have hps : p = s := by rw [← hkv, ← hsv]
      subst hps
      refine ⟨{ p with outbox := rest }, by simp [List.getElem?_set_ne hkd2, hsl], ?_⟩
      refine ⟨rfl, rfl, rfl, rfl, rfl, rfl, ?_, ?_, ?_⟩
      · intro m; simp [hkd]
      · intro m hm; exact (hmem m).mpr (Or.inr hm)
      · intro m hm
        rcases (hmem m).mp hm with h1 | h1
        · exact Or.inr ⟨rfl, h1⟩
        · exact Or.inl h1
    · refine ⟨p, by simp [List.getElem?_set_ne hkd2, List.getElem?_set_ne hks, hk], ?_⟩
      refine ⟨rfl, rfl, rfl, rfl, rfl, rfl, ?_, fun m hm => hm, fun m hm => Or.inl hm⟩
      intro m; simp [hkd]

theorem carries_deliver {j src dst : Nat} {w w2 : World} (h : deliver src dst w = some w2)
    (hw : w.any (carriesReadToken j) = true) : w2.any (carriesReadToken j) = true := by
  obtain ⟨msg, _, _, ⟨d, hd, hmd⟩, hframe⟩ := deliver_frame h
  rw [List.any_eq_true] at hw ⊢
  obtain ⟨x, hx, hc⟩ := hw
  obtain ⟨k, hk, hkx⟩ := List.getElem_of_mem hx
  have hk2 : w[k]? = some x := by rw [List.getElem?_eq_getElem hk, hkx]
  obtain ⟨q, hq, _, _, hobj, _, _, _, hin, _, hout⟩ := hframe k x hk2
  rw [carriesReadToken_iff] at hc
  rcases hc with hc | ⟨m, hm, hg⟩ | ⟨m, hm, hg⟩
  · exact ⟨q, List.getElem?_mem hq, (carriesReadToken_iff j q).mpr (Or.inl (hobj ▸ hc))⟩
  · exact ⟨q, List.getElem?_mem hq,
      (carriesReadToken_iff j q).mpr (Or.inr (Or.inl ⟨m, (hin m).mpr (Or.inl hm), hg⟩))⟩
  · rcases hout m hm with h1 | ⟨_, rfl⟩
    · exact ⟨q, List.getElem?_mem hq,
        (carriesReadToken_iff j q).mpr (Or.inr (Or.inr ⟨m, h1, hg⟩))⟩
    · exact ⟨d, List.getElem?_mem hd,
        (carriesReadToken_iff j d).mpr (Or.inr (Or.inl ⟨m, hmd, hg⟩))⟩

theorem tokenInit_get (n : Nat) (val : Nat → Int) (r : Nat) (hr : r < n) :
    (tokenInit n val)[r]? = some (Process.initialised r n (val r)) := by
  simp [tokenInit, hr]

theorem initialised_read_tokens (r n : Nat) (val : Int) (j : Nat) (hj : j < n) :
    (Process.initialised r n val).obj.read_tokens[j]? = some (decide (j = r)) :=
  initMPI_read_tokens _ rfl j hj

theorem carries_tokenStep {j : Nat} {w w2 : World} {a : TokenAction}
    (h : tokenStep w a = some w2) (hw : w.any (carriesReadToken j) = true) :
    w2.any (carriesReadToken j) = true := by
  cases a with
  | requestTokens i => exact any_runAt (fun _ _ => carries_requestTokens) h hw
  | handleTokenRequests i => exact any_runAt (fun _ _ => carries_handleTokenRequests) h hw
  | receiveTokens i => exact any_runAt (fun _ _ => carries_receiveTokens) h hw
  | deliver src dst => exact carries_deliver h hw

/-- C2, as the source has it (no loss).  In every state of a group of `n` processes
reached from the states set by `initMPI` through `requestTokens`, `handleTokenRequests`,
`receiveTokens` and deliveries, the read token of every rank `j < n` is somewhere: some
process has `read_tokens[j] = true`, or a grant with payload `j` is in an outbox or an
inbox.  Nothing is said of the number of holders. -/
theorem C2_read_token_never_lost (n : Nat) (val : Nat → Int) (w : World) (j : Nat)
    (hw : Reachable tokenStep (tokenInit n val) w) (hj : j < n) :
    w.any (carriesReadToken j) = true := by
  induction hw with
  | start =>
    rw [List.any_eq_true]
    refine ⟨_, List.getElem?_mem (tokenInit_get n val j hj),
      (carriesReadToken_iff j _).mpr (Or.inl ?_)⟩
    simpa using initialised_read_tokens j n (val j) j hj
  | next _ hs ih => exact carries_tokenStep hs ih

/-- C2, witness: the state of `lostReadWorld`, where the read token of rank 0 is held by
nobody and travels in a grant. -/
theorem C2_read_token_never_lost_witness :
    (Reachable tokenStep (tokenInit 2 (fun _ => 42)) lostReadWorld ∧ 0 < 2) ∧
      lostReadWorld.any (carriesReadToken 0) = true :=
  have hr : Reachable tokenStep (tokenInit 2 (fun _ => 42)) lostReadWorld :=
    Reachable.of_runTrace _ _ lostReadTrace _ _ Reachable.start rfl
  ⟨⟨hr, by decide⟩, C2_read_token_never_lost 2 (fun _ => 42) lostReadWorld 0 hr (by decide)⟩

/-- C2, as the specification states it, fails both ways.  In a group of 2, after rank 0
has answered a request of rank 1, no process holds the read token of rank 0.  In a group
of 3, after `duplicateReadTrace`, rank 1 and rank 2 both hold the read token of rank 0. -/
theorem C2_read_token_not_held_exactly_once :
    (Reachable tokenStep (tokenInit 2 (fun _ => 42)) lostReadWorld ∧
      readHolders 0 lostReadWorld = 0) ∧
    (Reachable tokenStep (tokenInit 3 (fun _ => 42)) duplicateReadWorld ∧
      readHolders 0 duplicateReadWorld = 2 ∧
      duplicateReadWorld.map (fun p => p.obj.read_tokens[0]?) =
        [some false, some true, some true]) :=
  ⟨⟨Reachable.of_runTrace _ _ lostReadTrace _ _ Reachable.start rfl, by decide⟩,
   ⟨Reachable.of_runTrace _ _ duplicateReadTrace _ _ Reachable.start rfl, by decide,
    by decide⟩⟩

/-! ## `read` and `write` when the tokens are held -/

theorem length_filter_ne (r : Nat) : ∀ n,
    ((List.range n).filter (fun i => i != r)).length = if r < n then n - 1 else n := by
  intro n
  induction n with
  | zero => simp
  | succ k ih =>
    rw [List.range_succ, List.filter_append, List.length_append, ih]
    by_cases hk : k = r
    · subst hk; simp
    · have : (k != r) = true := by simpa using hk
      simp only [List.filter_cons, this, if_true, List.filter_nil, List.length_singleton]
      by_cases hlt : r < k
      · have : r < k + 1 := by omega
        simp [hlt, this]; omega
      · have : ¬ r < k + 1 := by omega
        simp [hlt, this]

theorem broadcastNewProcess_eq (p : Process) (hn : p.obj.world_size ≤ p.mpi_size) :
    broadcastNewProcess p = some { p with
      outbox := p.outbox ++ sentTo p.mpi_rank .NEW_PROCESS p.obj.rank
        ((List.range p.obj.world_size).filter (fun i => i != p.obj.rank)) } :=
  forLoop_send (fun i o => i != o.rank) (fun o => o.rank) .NEW_PROCESS p p.obj.world_size hn

theorem write_commit_user (val : Int) (p : Process) (hn : p.obj.world_size ≤ p.mpi_size) :
    write_commit val false p = some { p with
      obj := { p.obj with _obj := val },
      outbox := p.outbox ++ sentTo p.mpi_rank .VALUE_UPDATE val
        ((List.range p.obj.world_size).filter (fun i => i != p.obj.rank)),
      pc := .ready } := by
  have := forLoop_send (fun i o => i != o.rank) (fun o => o._obj) .VALUE_UPDATE
    { p with obj := { p.obj with _obj := val } } p.obj.world_size hn
  simp only [write_commit, this, Option.bind_eq_bind, Option.some_bind, Bool.false_eq_true,
    if_false]

/-- C8.  When `read_tokens[rank]` is true, `read()` returns at once: the value returned
(appended to `returns`) is the cached `_obj`; the outbox is unchanged (nothing sent), the
inbox is unchanged (nothing received), and so is the object (`read_tokens`, `write_token`,
`_obj`). -/
theorem C8_read_with_own_token_is_local (p : Process)
    (hown : p.obj.read_tokens[p.obj.rank]? = some true) :
    read p = some { p with returns := p.returns ++ [p.obj._obj], pc := .ready } := by
  simp [read, hown, read_return]

/-- C8, witness: rank 1 of 3 right after `initMPI`. -/
theorem C8_read_with_own_token_is_local_witness :
    (Process.initialised 1 3 42).obj.read_tokens[(Process.initialised 1 3 42).obj.rank]? =
        some true ∧
      read (Process.initialised 1 3 42) =
        some { Process.initialised 1 3 42 with
          returns := (Process.initialised 1 3 42).returns ++ [(Process.initialised 1 3 42).obj._obj],
          pc := .ready } :=
  ⟨rfl, C8_read_with_own_token_is_local (Process.initialised 1 3 42) rfl⟩

/-- C9.  In a group of `world_size` processes, `write(val)` called by the application at
rank `rank` with `hasAllTokens()` true returns at once with `_obj = val`; what it sends is
one `VALUE_UPDATE` carrying `val` to each rank other than `rank`, in increasing order of
rank, `world_size - 1` messages in all, and nothing else; the inbox, `read_tokens` and
`write_token` are unchanged. -/
theorem C9_write_commits_and_broadcasts (val : Int) (p : Process)
    (hsize : p.obj.world_size = p.mpi_size) (hr : p.obj.rank < p.obj.world_size)
    (hall : hasAllTokens p.obj = true) :
    write val false p = some { p with
      obj := { p.obj with _obj := val },
      outbox := p.outbox ++ sentTo p.mpi_rank .VALUE_UPDATE val
        ((List.range p.obj.world_size).filter (fun i => i != p.obj.rank)),
      pc := .ready } ∧
    (sentTo p.mpi_rank .VALUE_UPDATE val
        ((List.range p.obj.world_size).filter (fun i => i != p.obj.rank))).length =
      p.obj.world_size - 1 := by
  constructor
  · unfold write
    simp only [hall, Bool.not_true, Bool.false_eq_true, if_false]
    exact write_commit_user val p (by omega)
  · simp [sentTo, length_filter_ne, hr]

/-- C9, witness: rank 1 of 3 holding every token writes 100 and sends it to ranks 0 and 2. -/
theorem C9_write_commits_and_broadcasts_witness :
    (allTokensAt1.obj.world_size = allTokensAt1.mpi_size ∧
      allTokensAt1.obj.rank < allTokensAt1.obj.world_size ∧
      hasAllTokens allTokensAt1.obj = true) ∧
    (write 100 false allTokensAt1 = some { allTokensAt1 with
        obj := { allTokensAt1.obj with _obj := 100 },
        outbox := [⟨1, 0, .VALUE_UPDATE, 100⟩, ⟨1, 2, .VALUE_UPDATE, 100⟩],
        pc := .ready } ∧
      (sentTo 1 .VALUE_UPDATE 100 [0, 2]).length = 3 - 1) :=
  ⟨⟨rfl, by decide, rfl⟩, C9_write_commits_and_broadcasts 100 allTokensAt1 rfl (by decide) rfl⟩

/-! ## Permission gating -/

theorem broadcastNewProcess_sends {p q : Process} (h : broadcastNewProcess p = some q) :
    ∃ ms, q = { p with outbox := p.outbox ++ ms } ∧ ∀ m ∈ ms, m.tag = .NEW_PROCESS := by
  have := forLoop_sends (fun _ _ _ m => m.tag = .NEW_PROCESS)
    (fun i q => if i != q.obj.rank then MPI_Send q q.obj.rank i .NEW_PROCESS else some q)
    (by
      intro i p q hq
      by_cases hi : (i != p.obj.rank) = true
      · simp only [hi, if_true] at hq
        obtain ⟨_, rfl⟩ := MPI_Send_eq hq
        exact ⟨_, rfl, by simp⟩
      · simp only [hi, Bool.false_eq_true, if_false, Option.some.injEq] at hq
        subst hq
        exact ⟨[], by simp, by simp⟩)
  exact this _ _ _ h

theorem ctor_finish_sends {p q : Process} (h : ctor_finish p = some q) :
    ∃ ms, q = { p with outbox := p.outbox ++ ms, pc := .ready } ∧
      ∀ m ∈ ms, m.tag = .NEW_PROCESS := by
  unfold ctor_finish at h
  simp only [Option.bind_eq_bind] at h
  obtain ⟨p1, h1, h2⟩ := Option.bind_eq_some.mp h
  obtain ⟨ms, rfl, hms⟩ := broadcastNewProcess_sends h1
  simp only [Option.some.injEq] at h2
  exact ⟨ms, h2.symm, hms⟩

/-- What the end of `write` does: it assigns, sends the value, and (in the constructor)
announces the process. -/
theorem write_commit_sends {val : Int} {c : Bool} {p q : Process}
    (h : write_commit val c p = some q) :
    ∃ ms, q = { p with obj := { p.obj with _obj := val }, outbox := p.outbox ++ ms,
                       pc := .ready } ∧
      ∀ m ∈ ms, (m.tag = .VALUE_UPDATE ∧ m.payload = val) ∨ m.tag = .NEW_PROCESS := by
  unfold write_commit at h
  simp only [Option.bind_eq_bind] at h
  obtain ⟨p1, h1, h2⟩ := Option.bind_eq_some.mp h
  have := forLoop_sends (fun _ _ o m => m.tag = .VALUE_UPDATE ∧ m.payload = o._obj)
    (fun i q => if i != q.obj.rank then MPI_Send q q.obj._obj i .VALUE_UPDATE else some q)
    (by
      intro i p q hq
      by_cases hi : (i != p.obj.rank) = true
      · simp only [hi, if_true] at hq
        obtain ⟨_, rfl⟩ := MPI_Send_eq hq
        exact ⟨_, rfl, by simp⟩
      · simp only [hi, Bool.false_eq_true, if_false, Option.some.injEq] at hq
        subst hq
        exact ⟨[], by simp, by simp⟩)
  obtain ⟨ms1, rfl, hms1⟩ := this _ _ _ h1
  cases c with
  | false =>
    simp only [Bool.false_eq_true, if_false, Option.some.injEq] at h2
    exact ⟨ms1, h2.symm, fun m hm => Or.inl (hms1 m hm)⟩
  | true =>
    simp only [if_true] at h2
    obtain ⟨ms2, rfl, hms2⟩ := ctor_finish_sends h2
    refine ⟨ms1 ++ ms2, by simp, ?_⟩
    intro m hm
    rcases List.mem_append.mp hm with hm | hm
    · exact Or.inl (hms1 m hm)
    · exact Or.inr (hms2 m hm)

theorem write_while_out {val : Int} {c : Bool} {p q : Process}
    (h : write_while val c p = some q) :
    (hasAllTokens p.obj = false ∧ q = { p with pc := .write_handle val c }) ∨
    (hasAllTokens p.obj = true ∧ write_commit val c p = some q) := by
  unfold write_while at h
  cases ha : hasAllTokens p.obj with
  | false =>
    simp only [ha, Bool.not_false, if_true, Option.some.injEq] at h
    exact Or.inl ⟨rfl, h.symm⟩
  | true =>
    simp only [ha, Bool.not_true, Bool.false_eq_true, if_false] at h
    exact Or.inr ⟨rfl, h⟩

theorem write_out {val : Int} {c : Bool} {p q : Process} (h : write val c p = some q) :
    (hasAllTokens p.obj = true ∧ write_commit val c p = some q) ∨
    (hasAllTokens p.obj = false ∧
      ∃ p1, requestTokens p = some p1 ∧ q = { p1 with pc := .write_handle val c }) := by
  unfold write at h
  cases ha : hasAllTokens p.obj with
  | true =>
    simp only [ha, Bool.not_true, Bool.false_eq_true, if_false] at h
    exact Or.inl ⟨rfl, h⟩
  | false =>
    simp only [ha, Bool.not_false, if_true, Option.bind_eq_bind] at h
    obtain ⟨p1, h1, h2⟩ := Option.bind_eq_some.mp h
    refine Or.inr ⟨rfl, p1, h1, ?_⟩
    obtain ⟨ms, rfl, _⟩ := requestTokens_sends h1
    rcases write_while_out h2 with ⟨_, hq⟩ | ⟨ht, _⟩
    · exact hq
    · simp only [ha] at ht
      exact absurd ht (by decide)

theorem read_while_out {p q : Process} (h : read_while p = some q) :
    (p.obj.read_tokens[p.obj.rank]? = some false ∧ q = { p with pc := .read_handle }) ∨
    (p.obj.read_tokens[p.obj.rank]? = some true ∧
      q = { p with returns := p.returns ++ [p.obj._obj], pc := .ready }) := by
  unfold read_while at h
  cases ho : p.obj.read_tokens[p.obj.rank]? with
  | none => simp [ho] at h
  | some own =>
    cases own with
    | false =>
      simp only [ho, Option.bind_eq_bind, Option.some_bind, Bool.not_false, if_true,
        Option.some.injEq] at h
      exact Or.inl ⟨rfl, h.symm⟩
    | true =>
      simp only [ho, Option.bind_eq_bind, Option.some_bind, Bool.not_true, Bool.false_eq_true,
        if_false, read_return, Option.some.injEq] at h
      exact Or.inr ⟨rfl, h.symm⟩

theorem read_out {p q : Process} (h : read p = some q) :
    (p.obj.read_tokens[p.obj.rank]? = some true ∧
      q = { p with returns := p.returns ++ [p.obj._obj], pc := .ready }) ∨
    (p.obj.read_tokens[p.obj.rank]? = some false ∧
      ∃ p1, requestTokens p = some p1 ∧ q = { p1 with pc := .read_handle }) := by
  unfold read at h
  cases ho : p.obj.read_tokens[p.obj.rank]? with
  | none => simp [ho] at h
  | some own =>
    cases own with
    | true =>
      simp only [ho, Option.bind_eq_bind, Option.some_bind, Bool.not_true, Bool.false_eq_true,
        if_false, read_return, Option.some.injEq] at h
      exact Or.inl ⟨rfl, h.symm⟩
    | false =>
      simp only [ho, Option.bind_eq_bind, Option.some_bind, Bool.not_false, if_true] at h
      obtain ⟨p1, h1, h2⟩ := Option.bind_eq_some.mp h
      refine Or.inr ⟨rfl, p1, h1, ?_⟩
      obtain ⟨ms, rfl, _⟩ := requestTokens_sends h1
      rcases read_while_out h2 with ⟨_, hq⟩ | ⟨ht, _⟩
      · exact hq
      · simp only [ho] at ht
        exact absurd ht (by simp)

theorem mem_new_of_append {l ms : List Msg} {m : Msg} (h1 : m ∈ l ++ ms) (h2 : m ∉ l) :
    m ∈ ms := by
  rcases List.mem_append.mp h1 with h | h
  · exact absurd h h2
  · exact h

theorem construct_rank0 (val : Int) (p : Process) (h0 : p.mpi_rank = 0) :
    construct val p = write val true (initMPI { p with obj := { p.obj with _obj := val } }) := by
  have hr : ((initMPI { p with obj := { p.obj with _obj := val } }).obj.rank == 0) = true := by
    simpa [initMPI] using h0
  unfold construct
  simp only [hr, if_true]
  rfl

theorem construct_other (val : Int) (p : Process) (h0 : p.mpi_rank ≠ 0) :
    construct val p =
      some { initMPI { p with obj := { p.obj with _obj := val } } with pc := .ctor_recv } := by
  have hr : ((initMPI { p with obj := { p.obj with _obj := val } }).obj.rank == 0) = false := by
    simpa [initMPI] using h0
  unfold construct
  simp only [hr, Bool.false_eq_true, if_false]

/-- One call of `write`, up to its first poll or its return: it completes, and it sends the
value, only with every token. -/
theorem write_gate {val : Int} {c : Bool} {p q : Process} (h : write val c p = some q) :
    (q.pc = .ready → hasAllTokens q.obj = true ∧ q.obj._obj = val) ∧
    ((∃ m ∈ q.outbox, m.tag = .VALUE_UPDATE ∧ m ∉ p.outbox) → hasAllTokens q.obj = true) ∧
    q.returns = p.returns := by
  rcases write_out h with ⟨ha, hc⟩ | ⟨_, p1, h1, rfl⟩
  · obtain ⟨ms, rfl, _⟩ := write_commit_sends hc
    exact ⟨fun _ => ⟨ha, rfl⟩, fun _ => ha, rfl⟩
  · obtain ⟨ms, rfl, hms⟩ := requestTokens_sends h1
    refine ⟨fun hpc => by simp at hpc, ?_, rfl⟩
    rintro ⟨m, hm, ht, hn⟩
    have := (hms m (mem_new_of_append hm hn)).1
    rw [this] at ht
    exact absurd ht (by decide)

theorem write_while_gate {val : Int} {c : Bool} {p q : Process}
    (h : write_while val c p = some q) :
    (q.pc = .ready → hasAllTokens q.obj = true ∧ q.obj._obj = val) ∧
    ((∃ m ∈ q.outbox, m.tag = .VALUE_UPDATE ∧ m ∉ p.outbox) → hasAllTokens q.obj = true) ∧
    q.returns = p.returns := by
  rcases write_while_out h with ⟨_, rfl⟩ | ⟨ha, hc⟩
  · refine ⟨fun hpc => by simp at hpc, ?_, rfl⟩
    rintro ⟨m, hm, _, hn⟩
    exact absurd hm hn
  · obtain ⟨ms, rfl, _⟩ := write_commit_sends hc
    exact ⟨fun _ => ⟨ha, rfl⟩, fun _ => ha, rfl⟩

theorem read_gate {p q : Process} (h : read p = some q) :
    (∀ m ∈ q.outbox, m.tag = .VALUE_UPDATE → m ∈ p.outbox) ∧
    (q.returns ≠ p.returns →
      q.obj.read_tokens[q.obj.rank]? = some true ∧ q.returns = p.returns ++ [q.obj._obj]) := by
  rcases read_out h with ⟨ho, rfl⟩ | ⟨_, p1, h1, rfl⟩
  · exact ⟨fun m hm _ => hm, fun _ => ⟨ho, rfl⟩⟩
  · obtain ⟨ms, rfl, hms⟩ := requestTokens_sends h1
    refine ⟨?_, fun hne => absurd rfl hne⟩
    intro m hm ht
    rcases List.mem_append.mp hm with hm | hm
    · exact hm
    · rw [(hms m hm).1] at ht
      exact absurd ht (by decide)

theorem read_while_gate {p q : Process} (h : read_while p = some q) :
    q.outbox = p.outbox ∧
    (q.returns ≠ p.returns →
      q.obj.read_tokens[q.obj.rank]? = some true ∧ q.returns = p.returns ++ [q.obj._obj]) := by
  rcases read_while_out h with ⟨_, rfl⟩ | ⟨ho, rfl⟩
  · exact ⟨rfl, fun hne => absurd rfl hne⟩
  · exact ⟨rfl, fun _ => ⟨ho, rfl⟩⟩

/-- What `handleTokenRequests` leaves alone. -/
theorem handleTokenRequests_frame {p q : Process} (h : handleTokenRequests p = some q) :
    q.returns = p.returns ∧ q.pc = p.pc ∧ q.script = p.script ∧ q.obj._obj = p.obj._obj ∧
    q.mpi_rank = p.mpi_rank ∧ q.mpi_size = p.mpi_size ∧
    (∃ ms, q.outbox = p.outbox ++ ms ∧ ∀ m ∈ ms, m.tag = .TOKEN_RESPONSE) ∧
    (∀ m ∈ q.inbox, m ∈ p.inbox) ∧
    (∀ m ∈ p.inbox, m.tag ≠ .TOKEN_REQUEST → m ∈ q.inbox) := by
  cases ht : takeFirst (fun m => m.tag == .TOKEN_REQUEST) p.inbox with
  | none =>
    rw [handleTokenRequests_idle ht] at h
    cases h
    exact ⟨rfl, rfl, rfl, rfl, rfl, rfl, ⟨[], by simp, by simp⟩, fun m hm => hm,
      fun m hm _ => hm⟩
  | some r =>
    obtain ⟨req, rest⟩ := r
    obtain ⟨own, _, _, rfl⟩ := handleTokenRequests_eq ht h
    obtain ⟨hreq, _⟩ := takeFirst_some ht
    refine ⟨rfl, rfl, rfl, rfl, rfl, rfl, ⟨_, List.append_assoc _ _ _, ?_⟩, ?_, ?_⟩
    · intro m hm
      rcases List.mem_append.mp hm with hm | hm
      · split at hm
        · simp only [List.mem_singleton] at hm; subst hm; rfl
        · simp at hm
      · split at hm
        · simp only [List.mem_singleton] at hm; subst hm; rfl
        · simp at hm
    · intro m hm
      exact (takeFirst_mem ht m).mpr (Or.inr hm)
    · intro m hm hne
      rcases (takeFirst_mem ht m).mp hm with rfl | hm
      · exact absurd (by simpa using hreq) hne
      · exact hm

/-- What `receiveTokens` leaves alone. -/
theorem receiveTokens_frame {p q : Process} (h : receiveTokens p = some q) :
    q.returns = p.returns ∧ q.pc = p.pc ∧ q.script = p.script ∧ q.obj._obj = p.obj._obj ∧
    q.mpi_rank = p.mpi_rank ∧ q.mpi_size = p.mpi_size ∧ q.outbox = p.outbox ∧
    (∀ m ∈ q.inbox, m ∈ p.inbox) ∧
    (∀ m ∈ p.inbox, m.tag ≠ .TOKEN_RESPONSE → m ∈ q.inbox) := by
  cases ht : takeFirst (fun m => m.tag == .TOKEN_RESPONSE) p.inbox with
  | none =>
    rw [receiveTokens_idle ht] at h
    cases h
    exact ⟨rfl, rfl, rfl, rfl, rfl, rfl, rfl, fun m hm => hm, fun m hm _ => hm⟩
  | some r =>
    obtain ⟨g, rest⟩ := r
    obtain ⟨_, rfl⟩ := receiveTokens_eq ht h
    obtain ⟨hg, _⟩ := takeFirst_some ht
    refine ⟨rfl, rfl, rfl, rfl, rfl, rfl, rfl, ?_, ?_⟩
    · intro m hm
      exact (takeFirst_mem ht m).mpr (Or.inr hm)
    · intro m hm hne
      rcases (takeFirst_mem ht m).mp hm with rfl | hm
      · exact absurd (by simpa using hg) hne
      · exact hm

/-- What one move of a process shows of the tokens: a `write(val)` that ends, and any
`VALUE_UPDATE` sent, come with `hasAllTokens()` true of the resulting object; a value
returned by `read` comes with `read_tokens[rank]` true and is `_obj`. -/
theorem step_gate (p q : Process) (h : Process.step p = some q) :
    (∀ val, p.writing = some val → q.pc = .ready →
      hasAllTokens q.obj = true ∧ q.obj._obj = val) ∧
    ((∃ m ∈ q.outbox, m.tag = .VALUE_UPDATE ∧ m ∉ p.outbox) → hasAllTokens q.obj = true) ∧
    (q.returns ≠ p.returns →
      q.obj.read_tokens[q.obj.rank]? = some true ∧ q.returns = p.returns ++ [q.obj._obj]) := by
  unfold Process.step at h
  cases hpc : p.pc with
  | construct val =>
    simp only [hpc] at h
    by_cases h0 : p.mpi_rank = 0
    · rw [construct_rank0 val p h0] at h
      obtain ⟨g1, g2, g3⟩ := write_gate h
      refine ⟨?_, g2, fun hne => absurd g3 hne⟩
      intro v hv
      simp only [Process.writing, hpc, h0, beq_self_eq_true, if_true, Option.some.injEq] at hv
      subst hv
      exact g1
    · rw [construct_other val p h0] at h
      simp only [Option.some.injEq] at h
      subst h
      refine ⟨fun v _ hq => by simp at hq, ?_, fun hne => absurd rfl hne⟩
      rintro ⟨m, hm, _, hn⟩
      exact absurd hm hn
  | ctor_recv =>
    simp only [hpc, ctor_receive] at h
    cases ht : takeFirst (fun m => m.src == 0 && m.tag == .VALUE_UPDATE) p.inbox with
    | none => simp [ht] at h
    | some r =>
      obtain ⟨m0, rest⟩ := r
      simp only [ht] at h
      obtain ⟨ms, rfl, hms⟩ := ctor_finish_sends h
      refine ⟨fun v hv => by simp [Process.writing, hpc] at hv, ?_, fun hne => absurd rfl hne⟩
      rintro ⟨m, hm, ht, hn⟩
      rw [hms m (mem_new_of_append hm hn)] at ht
      exact absurd ht (by decide)
  | read_handle =>
    simp only [hpc, Option.bind_eq_bind] at h
    obtain ⟨p1, h1, h2⟩ := Option.bind_eq_some.mp h
    simp only [Option.some.injEq] at h2
    subst h2
    obtain ⟨hret, _, _, _, _, _, ⟨ms, hout, hms⟩, _⟩ := handleTokenRequests_frame h1
    refine ⟨fun v hv => by simp [Process.writing, hpc] at hv, ?_, fun hne => absurd hret hne⟩
    rintro ⟨m, hm, ht, hn⟩
    have hm2 : m ∈ p1.outbox := hm
    rw [hout] at hm2
    rw [hms m (mem_new_of_append hm2 hn)] at ht
    exact absurd ht (by decide)
  | read_receive =>
    simp only [hpc, Option.bind_eq_bind] at h
    obtain ⟨p1, h1, h2⟩ := Option.bind_eq_some.mp h
    obtain ⟨hret, _, _, _, _, _, hout, _⟩ := receiveTokens_frame h1
    obtain ⟨g1, g2⟩ := read_while_gate h2
    refine ⟨fun v hv => by simp [Process.writing, hpc] at hv, ?_, ?_⟩
    · rintro ⟨m, hm, _, hn⟩
      rw [g1, hout] at hm
      exact absurd hm hn
    · rw [← hret]
      exact g2
  | write_handle val c =>
    simp only [hpc, Option.bind_eq_bind] at h
    obtain ⟨p1, h1, h2⟩ := Option.bind_eq_some.mp h
    simp only [Option.some.injEq] at h2
    subst h2
    obtain ⟨hret, _, _, _, _, _, ⟨ms, hout, hms⟩, _⟩ := handleTokenRequests_frame h1
    refine ⟨fun v _ hq => by simp at hq, ?_, fun hne => absurd hret hne⟩
    rintro ⟨m, hm, ht, hn⟩
    have hm2 : m ∈ p1.outbox := hm
    rw [hout] at hm2
    rw [hms m (mem_new_of_append hm2 hn)] at ht
    exact absurd ht (by decide)
  | write_receive val c =>
    simp only [hpc, Option.bind_eq_bind] at h
    obtain ⟨p1, h1, h2⟩ := Option.bind_eq_some.mp h
    obtain ⟨hret, _, _, _, _, _, hout, _⟩ := receiveTokens_frame h1
    obtain ⟨g1, g2, g3⟩ := write_while_gate h2
    refine ⟨?_, ?_, fun hne => absurd (g3.trans hret) hne⟩
    · intro v hv
      simp only [Process.writing, hpc, Option.some.injEq] at hv
      subst hv
      exact g1
    · rw [← hout]
      exact g2
  | ready =>
    simp only [hpc] at h
    cases hs : p.script with
    | nil => simp [hs] at h
    | cons c rest =>
      cases c with
      | read =>
        simp only [hs] at h
        obtain ⟨g1, g2⟩ := read_gate h
        refine ⟨fun v hv => by simp [Process.writing, hpc, hs] at hv, ?_, g2⟩
        rintro ⟨m, hm, ht, hn⟩
        exact absurd (g1 m hm ht) hn
      | write v0 =>
        simp only [hs] at h
        obtain ⟨g1, g2, g3⟩ := write_gate h
        refine ⟨?_, g2, fun hne => absurd g3 hne⟩
        intro v hv
        simp only [Process.writing, hpc, hs, Option.some.injEq] at hv
        subst hv
        exact g1


/-- The end of `write` leaves the tokens as it found them. -/
theorem write_commit_tokens {val : Int} {c : Bool} {s q : Process}
    (h : write_commit val c s = some q) :
    ∃ ms, q.outbox = s.outbox ++ ms ∧ q.obj = { s.obj with _obj := val } ∧ q.pc = .ready ∧
      hasAllTokens q.obj = hasAllTokens s.obj ∧ q.returns = s.returns := by
  obtain ⟨ms, rfl, _⟩ := write_commit_sends h
  exact ⟨ms, rfl, rfl, rfl, rfl, rfl⟩

/-- A call of `write` from its entry: without every token it assigns nothing and sends
only requests; with every token it runs the assignment and the broadcast. -/
theorem write_exact {val : Int} {c : Bool} {s q : Process} (h : write val c s = some q) :
    (hasAllTokens s.obj = true ∧ write_commit val c s = some q) ∨
    (hasAllTokens s.obj = false ∧ q.obj = s.obj ∧ q.pc = .write_handle val c ∧
      q.returns = s.returns ∧
      ∃ ms, q.outbox = s.outbox ++ ms ∧ ∀ m ∈ ms, m.tag = .TOKEN_REQUEST) := by
  rcases write_out h with ⟨ha, hc⟩ | ⟨ha, p1, h1, rfl⟩
  · exact Or.inl ⟨ha, hc⟩
  · obtain ⟨ms, rfl, hms⟩ := requestTokens_sends h1
    exact Or.inr ⟨ha, rfl, rfl, rfl, ms, rfl, fun m hm => (hms m hm).1⟩

theorem step_write_exact (p q : Process) (h : Process.step p = some q) :
    ∃ ms, q.outbox = p.outbox ++ ms ∧
      ((((∀ v, p.pc ≠ .construct v) ∧ p.pc ≠ .ctor_recv ∧ q.obj._obj ≠ p.obj._obj) ∨
          (∃ m ∈ ms, m.tag = .VALUE_UPDATE) ∨
          (∃ val, p.writing = some val ∧ q.pc = .ready)) →
        ∃ val c s, p.writing = some val ∧
          ((p.pc = .ready ∧ c = false ∧
              ∃ rest, p.script = .write val :: rest ∧ s = { p with script := rest }) ∨
           (p.pc = .construct val ∧ c = true ∧ p.mpi_rank = 0 ∧
              s = initMPI { p with obj := { p.obj with _obj := val } }) ∨
           (p.pc = .write_receive val c ∧ receiveTokens p = some s)) ∧
          hasAllTokens s.obj = true ∧ write_commit val c s = some q ∧
          q.obj = { s.obj with _obj := val } ∧ q.pc = .ready ∧
          hasAllTokens q.obj = true) := by
  unfold Process.step at h
  cases hpc : p.pc with
  | construct val =>
    simp only [hpc] at h
    by_cases h0 : p.mpi_rank = 0
    · rw [construct_rank0 val p h0] at h
      have hw : p.writing = some val := by simp [Process.writing, hpc, h0]
      rcases write_exact h with ⟨ha, hc⟩ | ⟨ha, ho, hq, hr, ms, hout, hms⟩
      · obtain ⟨ms, hout, ho, hq, hh, _⟩ := write_commit_tokens hc
        rw [hpc] at hc
        refine ⟨ms, hout, fun _ => ⟨val, true, _, hw, Or.inr (Or.inl ⟨rfl, rfl, h0, rfl⟩),
          ha, hc, ho, hq, hh.trans ha⟩⟩
      · refine ⟨ms, hout, ?_⟩
        rintro (⟨hc, _⟩ | ⟨m, hm, ht⟩ | ⟨v, _, hr⟩)
        · exact absurd rfl (hc val)
        · rw [hms m hm] at ht
          cases ht
        · rw [hq] at hr
          cases hr
    · rw [construct_other val p h0] at h
      simp only [Option.some.injEq] at h
      subst h
      refine ⟨[], by simp [initMPI], ?_⟩
      rintro (⟨hc, _⟩ | ⟨m, hm, _⟩ | ⟨v, _, hr⟩)
      · exact absurd rfl (hc val)
      · simp at hm
      · simp at hr
  | ctor_recv =>
    simp only [hpc, ctor_receive] at h
    cases ht : takeFirst (fun m => m.src == 0 && m.tag == .VALUE_UPDATE) p.inbox with
    | none => simp [ht] at h
    | some r =>
      obtain ⟨m0, rest⟩ := r
      simp only [ht] at h
      obtain ⟨ms, rfl, hms⟩ := ctor_finish_sends h
      refine ⟨ms, rfl, ?_⟩
      rintro (⟨_, hc, _⟩ | ⟨m, hm, ht⟩ | ⟨v, hv, _⟩)
      · exact absurd rfl hc
      · rw [hms m hm] at ht
        cases ht
      · simp [Process.writing, hpc] at hv
  | read_handle =>
    simp only [hpc, Option.bind_eq_bind] at h
    obtain ⟨p1, h1, h2⟩ := Option.bind_eq_some.mp h
    simp only [Option.some.injEq] at h2
    subst h2
    obtain ⟨_, _, _, hobj, _, _, ⟨ms, hout, hms⟩, _⟩ := handleTokenRequests_frame h1
    refine ⟨ms, hout, ?_⟩
    rintro (⟨_, _, hne⟩ | ⟨m, hm, ht⟩ | ⟨v, hv, _⟩)
    · exact absurd hobj hne
    · rw [hms m hm] at ht
      cases ht
    · simp [Process.writing, hpc] at hv
  | read_receive =>
    simp only [hpc, Option.bind_eq_bind] at h
    obtain ⟨p1, h1, h2⟩ := Option.bind_eq_some.mp h
    obtain ⟨_, _, _, hobj, _, _, hout, _⟩ := receiveTokens_frame h1
    have hq : q.obj = p1.obj ∧ q.outbox = p1.outbox := by
      rcases read_while_out h2 with ⟨_, rfl⟩ | ⟨_, rfl⟩ <;> exact ⟨rfl, rfl⟩
    refine ⟨[], by rw [hq.2, hout]; simp, ?_⟩
    rintro (⟨_, _, hne⟩ | ⟨m, hm, _⟩ | ⟨v, hv, _⟩)
    · rw [hq.1] at hne
      exact absurd hobj hne
    · simp at hm
    · simp [Process.writing, hpc] at hv
  | write_handle val c =>
    simp only [hpc, Option.bind_eq_bind] at h
    obtain ⟨p1, h1, h2⟩ := Option.bind_eq_some.mp h
    simp only [Option.some.injEq] at h2
    subst h2
    obtain ⟨_, _, _, hobj, _, _, ⟨ms, hout, hms⟩, _⟩ := handleTokenRequests_frame h1
    refine ⟨ms, hout, ?_⟩
    rintro (⟨_, _, hne⟩ | ⟨m, hm, ht⟩ | ⟨v, _, hr⟩)
    · exact absurd hobj hne
    · rw [hms m hm] at ht
      cases ht
    · simp at hr
  | write_receive val c =>
    simp only [hpc, Option.bind_eq_bind] at h
    obtain ⟨p1, h1, h2⟩ := Option.bind_eq_some.mp h
    obtain ⟨_, _, _, hobj, _, _, hout, _⟩ := receiveTokens_frame h1
    have hw : p.writing = some val := by simp [Process.writing, hpc]
    rcases write_while_out h2 with ⟨_, rfl⟩ | ⟨ha, hc⟩
    · refine ⟨[], by rw [← hout]; simp, ?_⟩
      rintro (⟨_, _, hne⟩ | ⟨m, hm, _⟩ | ⟨v, _, hr⟩)
      · exact absurd hobj hne
      · simp at hm
      · simp at hr
    · obtain ⟨ms, hout2, ho, hq, hh, _⟩ := write_commit_tokens hc
      refine ⟨ms, by rw [hout2, hout], fun _ => ⟨val, c, p1, hw,
        Or.inr (Or.inr ⟨rfl, h1⟩), ha, hc, ho, hq, hh.trans ha⟩⟩
  | ready =>
    simp only [hpc] at h
    cases hs : p.script with
    | nil => simp [hs] at h
    | cons c rest =>
      cases c with
      | read =>
        simp only [hs] at h
        have hq : q.obj = p.obj ∧ ∃ ms, q.outbox = p.outbox ++ ms ∧
            ∀ m ∈ ms, m.tag = .TOKEN_REQUEST := by
          rcases read_out h with ⟨_, rfl⟩ | ⟨_, p1, h1, rfl⟩
          · exact ⟨rfl, [], by simp, by simp⟩
          · obtain ⟨ms, rfl, hms⟩ := requestTokens_sends h1
            exact ⟨rfl, ms, rfl, fun m hm => (hms m hm).1⟩
        obtain ⟨ho, ms, hout, hms⟩ := hq
        refine ⟨ms, hout, ?_⟩
        rintro (⟨_, _, hne⟩ | ⟨m, hm, ht⟩ | ⟨v, hv, _⟩)
        · rw [ho] at hne
          exact absurd rfl hne
        · rw [hms m hm] at ht
          cases ht
        · simp [Process.writing, hpc, hs] at hv
      | write v0 =>
        simp only [hs] at h
        have hw : p.writing = some v0 := by simp [Process.writing, hpc, hs]
        rcases write_exact h with ⟨ha, hc⟩ | ⟨ha, ho, hq, hr, ms, hout, hms⟩
        · obtain ⟨ms, hout, ho, hq, hh, _⟩ := write_commit_tokens hc
          refine ⟨ms, hout, fun _ => ⟨v0, false, _, hw,
            Or.inl ⟨rfl, rfl, rest, rfl, rfl⟩, ha, hc, ho, hq, hh.trans ha⟩⟩
        · refine ⟨ms, hout, ?_⟩
          rintro (⟨_, _, hne⟩ | ⟨m, hm, ht⟩ | ⟨v, _, hr⟩)
          · rw [ho] at hne
            exact absurd rfl hne
          · rw [hms m hm] at ht
            cases ht
          · rw [hq] at hr
            cases hr

theorem step_read_exact (p q : Process) (h : Process.step p = some q) :
    (q.returns ≠ p.returns ∨
        ((p.pc = .read_handle ∨ p.pc = .read_receive ∨
            (p.pc = .ready ∧ ∃ rest, p.script = .read :: rest)) ∧ q.pc = .ready)) →
      ∃ s, ((p.pc = .ready ∧ ∃ rest, p.script = .read :: rest ∧
              s = { p with script := rest }) ∨
            (p.pc = .read_receive ∧ receiveTokens p = some s)) ∧
        s.obj.read_tokens[s.obj.rank]? = some true ∧ s.returns = p.returns ∧
        q = { s with returns := s.returns ++ [s.obj._obj], pc := .ready } := by
  obtain ⟨_, _, g3⟩ := step_gate p q h
  unfold Process.step at h
  cases hpc : p.pc with
  | construct val =>
    rintro (hne | ⟨hp | hp | ⟨hp, _⟩, _⟩)
    · simp only [hpc] at h
      by_cases h0 : p.mpi_rank = 0
      · rw [construct_rank0 val p h0] at h
        exact absurd (write_gate h).2.2 hne
      · rw [construct_other val p h0] at h
        simp only [Option.some.injEq] at h
        subst h
        exact absurd rfl hne
    · cases hp
    · cases hp
    · cases hp
  | ctor_recv =>
    rintro (hne | ⟨hp | hp | ⟨hp, _⟩, _⟩)
    · simp only [hpc, ctor_receive] at h
      cases ht : takeFirst (fun m => m.src == 0 && m.tag == .VALUE_UPDATE) p.inbox with
      | none => simp [ht] at h
      | some r =>
        obtain ⟨m0, rest⟩ := r
        simp only [ht] at h
        obtain ⟨ms, rfl, hms⟩ := ctor_finish_sends h
        exact absurd rfl hne
    · cases hp
    · cases hp
    · cases hp
  | read_handle =>
    simp only [hpc, Option.bind_eq_bind] at h
    obtain ⟨p1, h1, h2⟩ := Option.bind_eq_some.mp h
    simp only [Option.some.injEq] at h2
    subst h2
    obtain ⟨hret, _⟩ := handleTokenRequests_frame h1
    rintro (hne | ⟨_, hr⟩)
    · exact absurd hret hne
    · simp at hr
  | read_receive =>
    simp only [hpc, Option.bind_eq_bind] at h
    obtain ⟨p1, h1, h2⟩ := Option.bind_eq_some.mp h
    obtain ⟨hret, _⟩ := receiveTokens_frame h1
    rcases read_while_out h2 with ⟨_, rfl⟩ | ⟨ho, rfl⟩
    · rintro (hne | ⟨_, hr⟩)
      · exact absurd hret hne
      · simp at hr
    · exact fun _ => ⟨p1, Or.inr ⟨rfl, h1⟩, ho, hret, rfl⟩
  | write_handle val c =>
    simp only [hpc, Option.bind_eq_bind] at h
    obtain ⟨p1, h1, h2⟩ := Option.bind_eq_some.mp h
    simp only [Option.some.injEq] at h2
    subst h2
    obtain ⟨hret, _⟩ := handleTokenRequests_frame h1
    rintro (hne | ⟨hp | hp | ⟨hp, _⟩, _⟩)
    · exact absurd hret hne
    · cases hp
    · cases hp
    · cases hp
  | write_receive val c =>
    simp only [hpc, Option.bind_eq_bind] at h
    obtain ⟨p1, h1, h2⟩ := Option.bind_eq_some.mp h
    obtain ⟨hret, _⟩ := receiveTokens_frame h1
    rintro (hne | ⟨hp | hp | ⟨hp, _⟩, _⟩)
    · exact absurd ((write_while_gate h2).2.2.trans hret) hne
    · cases hp
    · cases hp
    · cases hp
  | ready =>
    simp only [hpc] at h
    cases hs : p.script with
    | nil => simp [hs] at h
    | cons c rest =>
      cases c with
      | read =>
        simp only [hs] at h
        rcases read_out h with ⟨ho, rfl⟩ | ⟨_, p1, h1, rfl⟩
        · exact fun _ => ⟨_, Or.inl ⟨rfl, rest, rfl, rfl⟩, ho, rfl, rfl⟩
        · obtain ⟨ms, rfl, hms⟩ := requestTokens_sends h1
          rintro (hne | ⟨_, hr⟩)
          · exact absurd rfl hne
          · simp at hr
      | write v0 =>
        simp only [hs] at h
        rintro (hne | ⟨hp | hp | ⟨_, r2, hp⟩, _⟩)
        · exact absurd (write_gate h).2.2 hne
        · cases hp
        · cases hp
        · cases hp

/-- C10.  For every move of a process (from one poll, blocking receive or end of call to
the next), with `ms` the messages the move sends:

* if the move changes `_obj` outside the constructor's initialisation and receive, or sends
  a `VALUE_UPDATE`, or ends a `write(val)`, then it is the end of `write` (the assignment
  and the broadcast, lines 186-193) run from the state `s` in which the test of the wait
  loop was made (the entry of `write`, or the state after `receiveTokens`), and
  `hasAllTokens()` is true of `s`; the tokens are still those of `s` afterwards;
* if the move returns a value from `read`, or ends a `read`, then it is the return of
  `read` from the state `s` in which the test of its loop was made, `read_tokens[rank]` is
  true in `s` and the value is `_obj`.

So a `write` without every token assigns nothing, sends no value and does not end, and a
`read` without the own read token returns nothing. -/
theorem C10_permission_gating (p q : Process) (h : Process.step p = some q) :
    (∀ val, p.writing = some val → q.pc = .ready →
      hasAllTokens q.obj = true ∧ q.obj._obj = val) ∧
    ((∃ m ∈ q.outbox, m.tag = .VALUE_UPDATE ∧ m ∉ p.outbox) → hasAllTokens q.obj = true) ∧
    (q.returns ≠ p.returns →
      q.obj.read_tokens[q.obj.rank]? = some true ∧ q.returns = p.returns ++ [q.obj._obj]) ∧
    (∃ ms, q.outbox = p.outbox ++ ms ∧
      ((((∀ v, p.pc ≠ .construct v) ∧ p.pc ≠ .ctor_recv ∧ q.obj._obj ≠ p.obj._obj) ∨
          (∃ m ∈ ms, m.tag = .VALUE_UPDATE) ∨
          (∃ val, p.writing = some val ∧ q.pc = .ready)) →
        ∃ val c s, p.writing = some val ∧
          ((p.pc = .ready ∧ c = false ∧
              ∃ rest, p.script = .write val :: rest ∧ s = { p with script := rest }) ∨
           (p.pc = .construct val ∧ c = true ∧ p.mpi_rank = 0 ∧
              s = initMPI { p with obj := { p.obj with _obj := val } }) ∨
           (p.pc = .write_receive val c ∧ receiveTokens p = some s)) ∧
          hasAllTokens s.obj = true ∧ write_commit val c s = some q ∧
          q.obj = { s.obj with _obj := val } ∧ q.pc = .ready ∧
          hasAllTokens q.obj = true)) ∧
    ((q.returns ≠ p.returns ∨
        ((p.pc = .read_handle ∨ p.pc = .read_receive ∨
            (p.pc = .ready ∧ ∃ rest, p.script = .read :: rest)) ∧ q.pc = .ready)) →
      ∃ s, ((p.pc = .ready ∧ ∃ rest, p.script = .read :: rest ∧
              s = { p with script := rest }) ∨
            (p.pc = .read_receive ∧ receiveTokens p = some s)) ∧
        s.obj.read_tokens[s.obj.rank]? = some true ∧ s.returns = p.returns ∧
        q = { s with returns := s.returns ++ [s.obj._obj], pc := .ready }) :=
  ⟨(step_gate p q h).1, (step_gate p q h).2.1, (step_gate p q h).2.2,
    step_write_exact p q h, step_read_exact p q h⟩

/-- C10, witness: rank 1 of 3, holding every token, makes the call `write(100)`. -/
theorem C10_permission_gating_witness :
    Process.step writeCall = some writeDone ∧
    ((∀ val, writeCall.writing = some val → writeDone.pc = .ready →
      hasAllTokens writeDone.obj = true ∧ writeDone.obj._obj = val) ∧
    ((∃ m ∈ writeDone.outbox, m.tag = .VALUE_UPDATE ∧ m ∉ writeCall.outbox) →
      hasAllTokens writeDone.obj = true) ∧
    (writeDone.returns ≠ writeCall.returns →
      writeDone.obj.read_tokens[writeDone.obj.rank]? = some true ∧
        writeDone.returns = writeCall.returns ++ [writeDone.obj._obj]) ∧
    (∃ ms, writeDone.outbox = writeCall.outbox ++ ms ∧
      ((((∀ v, writeCall.pc ≠ .construct v) ∧ writeCall.pc ≠ .ctor_recv ∧
            writeDone.obj._obj ≠ writeCall.obj._obj) ∨
          (∃ m ∈ ms, m.tag = .VALUE_UPDATE) ∨
          (∃ val, writeCall.writing = some val ∧ writeDone.pc = .ready)) →
        ∃ val c s, writeCall.writing = some val ∧
          ((writeCall.pc = .ready ∧ c = false ∧
              ∃ rest, writeCall.script = .write val :: rest ∧
                s = { writeCall with script := rest }) ∨
           (writeCall.pc = .construct val ∧ c = true ∧ writeCall.mpi_rank = 0 ∧
              s = initMPI { writeCall with obj := { writeCall.obj with _obj := val } }) ∨
           (writeCall.pc = .write_receive val c ∧ receiveTokens writeCall = some s)) ∧
          hasAllTokens s.obj = true ∧ write_commit val c s = some writeDone ∧
          writeDone.obj = { s.obj with _obj := val } ∧ writeDone.pc = .ready ∧
          hasAllTokens writeDone.obj = true)) ∧
    ((writeDone.returns ≠ writeCall.returns ∨
        ((writeCall.pc = .read_handle ∨ writeCall.pc = .read_receive ∨
            (writeCall.pc = .ready ∧ ∃ rest, writeCall.script = .read :: rest)) ∧
          writeDone.pc = .ready)) →
      ∃ s, ((writeCall.pc = .ready ∧ ∃ rest, writeCall.script = .read :: rest ∧
              s = { writeCall with script := rest }) ∨
            (writeCall.pc = .read_receive ∧ receiveTokens writeCall = some s)) ∧
        s.obj.read_tokens[s.obj.rank]? = some true ∧ s.returns = writeCall.returns ∧
        writeDone = { s with returns := s.returns ++ [s.obj._obj], pc := .ready })) :=
  ⟨rfl, C10_permission_gating writeCall writeDone rfl⟩

/-! ## What `requestTokens` sends -/

/-- A loop whose body, at the states the loop goes through, sends one message to the ranks
selected by `c` and does nothing at the others. -/
theorem forLoop_send_of (body : Nat → Process → Option Process)
    (c : Nat → Bool) (pay : Int) (tag : MessageTag) (p : Process) :
    ∀ n, n ≤ p.mpi_size →
    (∀ i, i < n → ∀ ms, body i { p with outbox := p.outbox ++ ms } =
      if c i then MPI_Send { p with outbox := p.outbox ++ ms } pay i tag
      else some { p with outbox := p.outbox ++ ms }) →
    forLoop n body p =
      some { p with
        outbox := p.outbox ++ sentTo p.mpi_rank tag pay ((List.range n).filter c) } := by
  intro n
  induction n with
  | zero => intro _ _; simp [forLoop, sentTo]
  | succ k ih =>
    intro hk hb
    have ih2 := ih (by omega) (fun i hi ms => hb i (by omega) ms)
    unfold forLoop at ih2 ⊢
    rw [List.range_succ, List.foldlM_append, ih2]
    simp only [Option.bind_eq_bind, Option.some_bind, List.foldlM_cons, List.foldlM_nil]
    rw [hb k (by omega)]
    simp only [List.filter_append, sentTo, List.map_append]
    by_cases hc : c k = true
    · have hlt : (k : Int) < (p.mpi_size : Int) := by exact_mod_cast hk
      simp [hc, MPI_Send, hlt, List.filter_cons]
    · simp [hc, List.filter_cons]

/-- What `requestTokens` sends, on an object whose vector has `world_size` entries. -/
theorem requestTokens_eq (p : Process) (hsize : p.obj.world_size ≤ p.mpi_size)
    (hlen : p.obj.read_tokens.length = p.obj.world_size) :
    requestTokens p = some { p with
      outbox := p.outbox ++
        ((if p.obj.write_token then []
          else sentTo p.mpi_rank .TOKEN_REQUEST p.obj.rank
            ((List.range p.obj.world_size).filter (fun i => i != p.obj.rank))) ++
         sentTo p.mpi_rank .TOKEN_REQUEST p.obj.rank
            ((List.range p.obj.world_size).filter
              (fun i => i != p.obj.rank && !(p.obj.read_tokens.getD i true)))) } := by
  have loop2 : ∀ q : Process, q.obj = p.obj → q.mpi_size = p.mpi_size →
      forLoop p.obj.world_size (fun i q =>
        if i != q.obj.rank then do
          let held ← q.obj.read_tokens[i]?
          if !held then MPI_Send q q.obj.rank i .TOKEN_REQUEST else some q
        else some q) q =
      some { q with
        outbox := q.outbox ++ sentTo q.mpi_rank .TOKEN_REQUEST p.obj.rank
          ((List.range p.obj.world_size).filter
            (fun i => i != p.obj.rank && !(p.obj.read_tokens.getD i true))) } := by
    intro q hq hqs
    apply forLoop_send_of
    · omega
    · intro i hi ms
      have hget : p.obj.read_tokens[i]? = some (p.obj.read_tokens.getD i true) := by
        have : i < p.obj.read_tokens.length := by omega
        simp [List.getD, List.getElem?_eq_getElem this]
      simp only [hq, hget, Option.bind_eq_bind, Option.some_bind]
      by_cases h1 : (i != p.obj.rank) = true
      · cases h2 : p.obj.read_tokens.getD i true <;> simp [h1]
      · simp [h1]
  have loop1 : forLoop p.obj.world_size (fun i q =>
        if i != q.obj.rank then MPI_Send q q.obj.rank i .TOKEN_REQUEST else some q) p =
      some { p with
        outbox := p.outbox ++ sentTo p.mpi_rank .TOKEN_REQUEST p.obj.rank
          ((List.range p.obj.world_size).filter (fun i => i != p.obj.rank)) } :=
    forLoop_send (fun i o => i != o.rank) (fun o => o.rank) .TOKEN_REQUEST p _ hsize
  unfold requestTokens
  cases hw : p.obj.write_token with
  | true =>
    simp only [Bool.not_true, Bool.false_eq_true, if_false, Option.bind_eq_bind,
      Option.some_bind, if_true, List.nil_append]
    exact loop2 p rfl rfl
  | false =>
    simp only [Bool.not_false, if_true, Option.bind_eq_bind, loop1, Option.some_bind,
      Bool.false_eq_true, if_false]
    refine (loop2 { p with
      outbox := p.outbox ++ sentTo p.mpi_rank .TOKEN_REQUEST p.obj.rank
        ((List.range p.obj.world_size).filter (fun i => i != p.obj.rank)) } rfl rfl).trans ?_
    simp

/-! ## The constructor of rank 0 -/

theorem hasAllTokens_false_of_missing {s : DistObj} {j : Nat}
    (h : s.read_tokens[j]? = some false) : hasAllTokens s = false := by
  cases hh : hasAllTokens s with
  | false => rfl
  | true =>
    unfold hasAllTokens at hh
    cases hw : s.write_token with
    | false => simp [hw] at hh
    | true =>
      simp only [hw, Bool.not_true, Bool.false_eq_true, if_false] at hh
      have := (hasAllTokens.loop_iff s.read_tokens).mp hh j
        ((List.getElem?_eq_some.mp h).1)
      rw [h] at this
      exact absurd this (by simp)

theorem seeding_step (n : Nat) (hn : 2 ≤ n) (val : Int) (script : List Call) :
    Process.step (Process.start 0 n val script) = some (seedingWait n val script) ∧
      hasAllTokens (seedingWait n val script).obj = false := by
  have hmiss : (seedingWait n val script).obj.read_tokens[1]? = some false := by
    simp only [seedingWait]
    rw [List.getElem?_set_ne (by decide), List.getElem?_replicate]
    have : 1 < n := by omega
    simp [this]
  have hfalse := hasAllTokens_false_of_missing hmiss
  refine ⟨?_, hfalse⟩
  have hinit : initMPI { Process.start 0 n val script with
        obj := { (Process.start 0 n val script).obj with _obj := val } } =
      { seedingWait n val script with outbox := [], pc := .construct val } := by
    simp [initMPI, Process.start, seedingWait, resize]
  have hstep : Process.step (Process.start 0 n val script) =
      construct val (Process.start 0 n val script) := rfl
  rw [hstep, construct_rank0 val _ rfl, hinit]
  unfold write
  have hf2 : hasAllTokens ({ seedingWait n val script with
      outbox := [], pc := .construct val } : Process).obj = false := hfalse
  simp only [hf2, Bool.not_false, if_true]
  rw [requestTokens_eq _ (by simp [seedingWait]) (by simp [seedingWait])]
  have hfilter : (List.range n).filter
      (fun i => i != 0 && !(((List.replicate n false).set 0 true).getD i true)) =
      (List.range n).filter (fun i => i != 0) := by
    apply List.filter_congr
    intro i hi
    have hi2 : i < n := List.mem_range.mp hi
    by_cases h0 : i = 0
    · simp [h0]
    · have : ((List.replicate n false).set 0 true)[i]? = some false := by
        rw [List.getElem?_set_ne (fun e => h0 e.symm)]
        simp [hi2]
      simp [List.getD, this]
  simp only [Option.bind_eq_bind, Option.some_bind, write_while]
  split
  · simp only [seedingWait, Bool.true_eq_false, if_false, List.nil_append, Nat.cast_zero]
    rw [hfilter]
    simp
  · rename_i hc
    exact absurd hfalse (by simpa using hc)

/-! ## Construction does not end in a group of two or more -/

theorem constructing_step {n i : Nat} (hn : 2 ≤ n) {p q : Process}
    (hp : constructing n i p) (h : Process.step p = some q) : constructing n i q := by
  obtain ⟨hr, hs, hret, hpc, hin, hout, h0, h1⟩ := hp
  by_cases hi : i = 0
  · subst hi
    obtain ⟨hnil, hcase⟩ := h0 rfl
    rcases hcase with ⟨⟨v, hv⟩, hfresh⟩ | ⟨⟨v, hv | hv⟩, hfalse⟩
    · -- the constructor starts
      simp only [Process.step, hv] at h
      rw [construct_rank0 v p hr] at h
      have hmiss : (initMPI { p with obj := { p.obj with _obj := v } }).obj.read_tokens[1]? =
          some false := by
        refine (initMPI_read_tokens { p with obj := { p.obj with _obj := v } } hfresh 1
          (by show 1 < p.mpi_size; omega)).trans ?_
        show some (decide (1 = p.mpi_rank)) = some false
        rw [hr]
        rfl
      have hf := hasAllTokens_false_of_missing hmiss
      rcases write_out h with ⟨ht, _⟩ | ⟨_, p1, h1, rfl⟩
      · rw [hf] at ht; exact absurd ht (by decide)
      · obtain ⟨ms, rfl, hms⟩ := requestTokens_sends h1
        refine ⟨hr, hs, hret, by simp, hin, ?_, fun _ => ⟨hnil, Or.inr ⟨⟨v, Or.inl rfl⟩, hf⟩⟩,
          fun hne => absurd rfl hne⟩
        intro m hm
        rcases List.mem_append.mp hm with hm | hm
        · exact hout m hm
        · obtain ⟨ht, _, _, hd, _⟩ := hms m hm
          refine ⟨ht, ?_⟩
          have : (initMPI { p with obj := { p.obj with _obj := v } }).obj.rank = 0 := hr
          rw [this] at hd
          exact hd
    · -- poll for a request: nothing is pending
      simp only [Process.step, hv, Option.bind_eq_bind] at h
      have hidle : handleTokenRequests p = some p :=
        handleTokenRequests_idle (by rw [hnil]; rfl)
      rw [hidle] at h
      simp only [Option.some_bind, Option.some.injEq] at h
      subst h
      exact ⟨hr, hs, hret, by simp, hin, hout,
        fun _ => ⟨hnil, Or.inr ⟨⟨v, Or.inr rfl⟩, hfalse⟩⟩, fun hne => absurd rfl hne⟩
    · -- poll for a grant: nothing is pending, and the loop goes on
      simp only [Process.step, hv, Option.bind_eq_bind] at h
      have hidle : receiveTokens p = some p :=
        receiveTokens_idle (by rw [hnil]; rfl)
      rw [hidle] at h
      simp only [Option.some_bind] at h
      rcases write_while_out h with ⟨_, rfl⟩ | ⟨ht, _⟩
      · exact ⟨hr, hs, hret, by simp, hin, hout,
          fun _ => ⟨hnil, Or.inr ⟨⟨v, Or.inl rfl⟩, hfalse⟩⟩, fun hne => absurd rfl hne⟩
      · rw [hfalse] at ht; exact absurd ht (by decide)
  · obtain ⟨hnil, hcase⟩ := h1 hi
    rcases hcase with ⟨v, hv⟩ | hv
    · simp only [Process.step, hv] at h
      rw [construct_other v p (by rw [hr]; exact hi)] at h
      simp only [Option.some.injEq] at h
      subst h
      exact ⟨hr, hs, hret, by simp, hin, hout, fun h0 => absurd h0 hi,
        fun _ => ⟨hnil, Or.inr rfl⟩⟩
    · simp only [Process.step, hv, ctor_receive] at h
      have : takeFirst (fun m => m.src == 0 && m.tag == .VALUE_UPDATE) p.inbox = none := by
        apply takeFirst_none.mpr
        intro x hx
        simp [hin x hx]
      simp [this] at h

theorem runAt_eq {f : Process → Option Process} {i : Nat} {w w2 : World}
    (h : runAt f i w = some w2) :
    ∃ p q, w[i]? = some p ∧ f p = some q ∧ w2 = w.set i q := by
  unfold runAt at h
  simp only [Option.bind_eq_bind] at h
  obtain ⟨p, hp, h⟩ := Option.bind_eq_some.mp h
  obtain ⟨q, hq, h⟩ := Option.bind_eq_some.mp h
  simp only [Option.some.injEq] at h
  exact ⟨p, q, hp, hq, h.symm⟩

theorem runAt_length {f : Process → Option Process} {i : Nat} {w w2 : World}
    (h : runAt f i w = some w2) : w2.length = w.length := by
  obtain ⟨p, q, _, _, rfl⟩ := runAt_eq h
  simp

theorem deliver_length {src dst : Nat} {w w2 : World}
    (h : deliver src dst w = some w2) : w2.length = w.length := by
  obtain ⟨s, m, rest, d, _, _, _, rfl⟩ := deliver_eq h
  simp

/-- A property of the process at each rank that a member function preserves stays true at
every rank when one process runs the function. -/
theorem forall_runAt {P : Nat → Process → Prop} {f : Process → Option Process} {i : Nat}
    {w w2 : World} (hw : ∀ k p, w[k]? = some p → P k p)
    (hf : ∀ p q, f p = some q → P i p → P i q) (h : runAt f i w = some w2) :
    ∀ k p, w2[k]? = some p → P k p := by
  obtain ⟨p0, q0, hp0, hq0, rfl⟩ := runAt_eq h
  intro k p hk
  rw [List.getElem?_set] at hk
  by_cases hik : i = k
  · subst hik
    simp only [if_true] at hk
    split at hk
    · simp only [Option.some.injEq] at hk
      subst hk
      exact hf _ _ hq0 (hw i p0 hp0)
    · exact absurd hk (by simp)
  · simp only [hik, if_false] at hk
    exact hw k p hk

theorem constructing_deliver {n src dst : Nat} {w w2 : World}
    (hw : ∀ k p, w[k]? = some p → constructing n k p)
    (h : deliver src dst w = some w2) : ∀ k p, w2[k]? = some p → constructing n k p := by
  obtain ⟨msg, hdst, ⟨s, hs, hms⟩, _, hframe⟩ := deliver_frame h
  have hlen := deliver_length h
  obtain ⟨_, _, _, _, _, hsout, _, _⟩ := hw src s hs
  obtain ⟨hmt, hmd⟩ := hsout msg hms
  intro k q hk
  have hk2 : k < w.length := by
    rw [← hlen]
    exact (List.getElem?_eq_some.mp hk).1
  obtain ⟨q2, hq2, e1, e2, e3, e4, _, e6, hin, hout, _⟩ :=
    hframe k w[k] (List.getElem?_eq_getElem hk2)
  rw [hk] at hq2
  simp only [Option.some.injEq] at hq2
  subst hq2
  obtain ⟨hr, hsz, hret, hpc, hpin, hpout, h0, h1⟩ := hw k w[k] (List.getElem?_eq_getElem hk2)
  refine ⟨e1.trans hr, e2.trans hsz, e6.trans hret, by rw [e4]; exact hpc, ?_, ?_, ?_, ?_⟩
  · intro m hm
    rcases (hin m).mp hm with hm | ⟨_, rfl⟩
    · exact hpin m hm
    · exact hmt
  · intro m hm
    exact hpout m (hout m hm)
  · intro hk0
    obtain ⟨hnil, hcase⟩ := h0 hk0
    refine ⟨?_, by rw [e4, e3]; exact hcase⟩
    apply List.eq_nil_iff_forall_not_mem.mpr
    intro m hm
    rcases (hin m).mp hm with hm | ⟨hkd, _⟩
    · rw [hnil] at hm; exact absurd hm (by simp)
    · exact hmd (by rw [hdst, ← hkd, hk0])
  · intro hk0
    obtain ⟨hnil, hcase⟩ := h1 hk0
    refine ⟨?_, by rw [e4]; exact hcase⟩
    apply List.eq_nil_iff_forall_not_mem.mpr
    intro m hm
    have := hout m hm
    rw [hnil] at this
    exact absurd this (by simp)

theorem programInit_get (n : Nat) (val : Nat → Int) (script : Nat → List Call) (i : Nat)
    (p : Process) (h : (programInit n val script)[i]? = some p) :
    i < n ∧ p = Process.start i n (val i) (script i) := by
  unfold programInit at h
  rw [List.getElem?_map] at h
  cases hi : (List.range n)[i]? with
  | none => simp [hi] at h
  | some r =>
    obtain ⟨hlt, hv⟩ := List.getElem?_eq_some.mp hi
    simp only [List.getElem_range] at hv
    subst hv
    simp only [hi, Option.map_some', Option.some.injEq] at h
    exact ⟨by simpa using hlt, h.symm⟩

/-- In a group of two or more, whatever the values and the calls that follow, no process
ever leaves its constructor. -/
theorem construction_never_ends (n : Nat) (hn : 2 ≤ n) (val : Nat → Int)
    (script : Nat → List Call) (w : World)
    (hw : Reachable programStep (programInit n val script) w) :
    w.length = n ∧ ∀ k p, w[k]? = some p → constructing n k p := by
  induction hw with
  | start =>
    refine ⟨by simp [programInit], ?_⟩
    intro k p hk
    obtain ⟨_, rfl⟩ := programInit_get n val script k p hk
    refine ⟨rfl, rfl, rfl, by simp [Process.start], by simp [Process.start],
      by simp [Process.start], fun _ => ⟨rfl, Or.inl ⟨⟨_, rfl⟩, rfl⟩⟩,
      fun _ => ⟨rfl, Or.inl ⟨_, rfl⟩⟩⟩
  | @next w1 w2 a _ hs ih =>
    cases a with
    | run i =>
      exact ⟨(runAt_length hs).trans ih.1,
        forall_runAt ih.2 (fun p q hq hp => constructing_step hn hp hq) hs⟩
    | deliver src dst =>
      exact ⟨(deliver_length hs).trans ih.1, constructing_deliver ih.2 hs⟩

/-- C6, the code at the failing input.  In the run of `main.cpp` on 3 processes, in every
state reached, no constructor has returned (no process is between two calls) and no `read`
has returned a value: rank 0 stays in the wait loop of the `write` of its constructor and
ranks 1 and 2 stay in their blocking receive. -/
theorem C6_demo_never_leaves_the_constructors (w : World)
    (hw : Reachable programStep (mainInit 3) w) :
    w.length = 3 ∧ ∀ p ∈ w, p.pc ≠ .ready ∧ p.returns = [] := by
  obtain ⟨hlen, hall⟩ := construction_never_ends 3 (by decide) _ _ w hw
  refine ⟨hlen, ?_⟩
  intro p hp
  obtain ⟨k, hk⟩ := List.mem_iff_getElem?.mp hp
  obtain ⟨_, _, hret, hpc, _⟩ := hall k p hk
  exact ⟨hpc, hret⟩

/-- C6, witness: the state `mainStuckWorld`. -/
theorem C6_demo_never_leaves_the_constructors_witness :
    Reachable programStep (mainInit 3) mainStuckWorld ∧
      (mainStuckWorld.length = 3 ∧ ∀ p ∈ mainStuckWorld, p.pc ≠ .ready ∧ p.returns = []) :=
  have hr : Reachable programStep (mainInit 3) mainStuckWorld :=
    Reachable.of_runTrace _ _ mainStuckTrace _ _ Reachable.start rfl
  ⟨hr, C6_demo_never_leaves_the_constructors mainStuckWorld hr⟩

/-- C7, the code at the failing inputs.  In every group of `n ≥ 2` processes, the first move
of rank 0 (constructor, `initMPI`, then `write(_obj)`) finds `hasAllTokens()` false: it
sends a `TOKEN_REQUEST` to every other rank and stops in the wait loop, with `read_tokens`
true at index 0 only. -/
theorem C7_seeding_write_waits (n : Nat) (hn : 2 ≤ n) (val : Int) (script : List Call) :
    Process.step (Process.start 0 n val script) = some (seedingWait n val script) ∧
      hasAllTokens (seedingWait n val script).obj = false ∧
      (seedingWait n val script).pc = .write_handle val true ∧
      (seedingWait n val script).outbox.length = n - 1 := by
  obtain ⟨h1, h2⟩ := seeding_step n hn val script
  refine ⟨h1, h2, rfl, ?_⟩
  have : 0 < n := by omega
  simp [seedingWait, sentTo, length_filter_ne, this]

/-- C7, witness: a group of 2, constructed from 42. -/
theorem C7_seeding_write_waits_witness :
    2 ≤ 2 ∧
      (Process.step (Process.start 0 2 42 []) = some (seedingWait 2 42 []) ∧
        hasAllTokens (seedingWait 2 42 []).obj = false ∧
        (seedingWait 2 42 []).pc = .write_handle 42 true ∧
        (seedingWait 2 42 []).outbox.length = 2 - 1) :=
  ⟨by decide, C7_seeding_write_waits 2 (by decide) 42 []⟩

/-! ## Write visibility -/

theorem noWriteAhead_iff (p : Process) :
    noWriteAhead p = true ↔
      (p.pc = .ctor_recv ∨ p.pc = .read_handle ∨ p.pc = .read_receive ∨ p.pc = .ready) ∧
        ∀ c ∈ p.script, c = .read := by
  simp [noWriteAhead, or_assoc]

/-- A move of a process with no write ahead: it sends no value, keeps the values delivered
to it, and changes its cache only in the blocking receive of its constructor. -/
theorem quiet_step {p q : Process} (hq : noWriteAhead p = true)
    (h : Process.step p = some q) :
    noWriteAhead q = true ∧ q.pc ≠ .ctor_recv ∧
    (∀ m ∈ q.inbox, m ∈ p.inbox) ∧
    (∃ ms, q.outbox = p.outbox ++ ms ∧ ∀ m ∈ ms, m.tag ≠ .VALUE_UPDATE) ∧
    (p.pc ≠ .ctor_recv →
      q.obj._obj = p.obj._obj ∧ ∀ m ∈ p.inbox, m.tag = .VALUE_UPDATE → m ∈ q.inbox) ∧
    (p.pc = .ctor_recv →
      ∃ m0 rest, takeFirst (fun m => m.src == 0 && m.tag == .VALUE_UPDATE) p.inbox =
          some (m0, rest) ∧ q.inbox = rest ∧ q.obj._obj = m0.payload) := by
  obtain ⟨hpc, hscript⟩ := (noWriteAhead_iff p).mp hq
  have hreq : ∀ {p1 p2 : Process}, requestTokens p1 = some p2 →
      ∃ ms, p2 = { p1 with outbox := p1.outbox ++ ms } ∧ ∀ m ∈ ms, m.tag ≠ .VALUE_UPDATE := by
    intro p1 p2 h12
    obtain ⟨ms, rfl, hms⟩ := requestTokens_sends h12
    exact ⟨ms, rfl, fun m hm => by rw [(hms m hm).1]; decide⟩
  unfold Process.step at h
  rcases hpc with hpc | hpc | hpc | hpc
  · -- the blocking receive of the constructor
    simp only [hpc, ctor_receive] at h
    cases ht : takeFirst (fun m => m.src == 0 && m.tag == .VALUE_UPDATE) p.inbox with
    | none => simp [ht] at h
    | some r =>
      obtain ⟨m0, rest⟩ := r
      simp only [ht] at h
      obtain ⟨ms, rfl, hms⟩ := ctor_finish_sends h
      refine ⟨(noWriteAhead_iff _).mpr ⟨Or.inr (Or.inr (Or.inr rfl)), hscript⟩, by simp,
        fun m hm => (takeFirst_mem ht m).mpr (Or.inr hm),
        ⟨ms, rfl, fun m hm => by rw [hms m hm]; decide⟩,
        fun hne => absurd hpc hne, fun _ => ⟨m0, rest, rfl, rfl, rfl⟩⟩
  · -- poll for a request in `read`
    simp only [hpc, Option.bind_eq_bind] at h
    obtain ⟨p1, h1, h2⟩ := Option.bind_eq_some.mp h
    simp only [Option.some.injEq] at h2
    subst h2
    obtain ⟨_, _, hsc, hobj, _, _, ⟨ms, hout, hms⟩, hin1, hin2⟩ := handleTokenRequests_frame h1
    have hsc2 : ∀ c ∈ p1.script, c = Call.read := by rw [hsc]; exact hscript
    refine ⟨(noWriteAhead_iff _).mpr ⟨Or.inr (Or.inr (Or.inl rfl)), hsc2⟩, by simp, hin1,
      ⟨ms, hout, fun m hm => by rw [hms m hm]; decide⟩,
      fun _ => ⟨hobj, fun m hm ht => hin2 m hm (by rw [ht]; decide)⟩,
      fun hc => by rw [hpc] at hc; exact absurd hc (by decide)⟩
  · -- poll for a grant in `read`, then the loop test
    simp only [hpc, Option.bind_eq_bind] at h
    obtain ⟨p1, h1, h2⟩ := Option.bind_eq_some.mp h
    obtain ⟨hret, _, hsc, hobj, _, _, hout, hin1, hin2⟩ := receiveTokens_frame h1
    have hq2 : q.script = p1.script ∧ q.obj = p1.obj ∧ q.inbox = p1.inbox ∧
        q.outbox = p1.outbox ∧ (q.pc = .read_handle ∨ q.pc = .ready) := by
      rcases read_while_out h2 with ⟨_, rfl⟩ | ⟨_, rfl⟩
      · exact ⟨rfl, rfl, rfl, rfl, Or.inl rfl⟩
      · exact ⟨rfl, rfl, rfl, rfl, Or.inr rfl⟩
    obtain ⟨e1, e2, e3, e4, e5⟩ := hq2
    refine ⟨(noWriteAhead_iff _).mpr ⟨?_, by rw [e1, hsc]; exact hscript⟩, ?_,
      by rw [e3]; exact hin1, ⟨[], by rw [e4, hout]; simp, by simp⟩,
      fun _ => ⟨by rw [e2, hobj], fun m hm ht => by
        rw [e3]; exact hin2 m hm (by rw [ht]; decide)⟩,
      fun hc => by rw [hpc] at hc; exact absurd hc (by decide)⟩
    · rcases e5 with e5 | e5
      · exact Or.inr (Or.inl e5)
      · exact Or.inr (Or.inr (Or.inr e5))
    · rcases e5 with e5 | e5 <;> rw [e5] <;> decide
  · -- between two calls: the next call is a `read`
    simp only [hpc] at h
    cases hs : p.script with
    | nil => simp [hs] at h
    | cons c rest =>
      have hc : c = .read := hscript c (by rw [hs]; exact List.mem_cons_self _ _)
      subst hc
      simp only [hs] at h
      have hrest : ∀ c ∈ rest, c = Call.read :=
        fun c hc => hscript c (by rw [hs]; exact List.mem_cons_of_mem _ hc)
      rcases read_out h with ⟨_, rfl⟩ | ⟨_, p1, h1, rfl⟩
      · exact ⟨(noWriteAhead_iff _).mpr ⟨Or.inr (Or.inr (Or.inr rfl)), hrest⟩, by simp,
          fun m hm => hm, ⟨[], by simp, by simp⟩, fun _ => ⟨rfl, fun m hm _ => hm⟩,
          fun hc => by rw [hpc] at hc; exact absurd hc (by decide)⟩
      · obtain ⟨ms, rfl, hms⟩ := hreq h1
        exact ⟨(noWriteAhead_iff _).mpr ⟨Or.inr (Or.inl rfl), hrest⟩, by simp,
          fun m hm => hm, ⟨ms, rfl, hms⟩, fun _ => ⟨rfl, fun m hm _ => hm⟩,
          fun hc => by rw [hpc] at hc; exact absurd hc (by decide)⟩

theorem noValueUpdateFrom_iff (P : Nat) (w : World) :
    noValueUpdateFrom P w = true ↔
      ∀ p ∈ w, ∀ m, m ∈ p.inbox ∨ m ∈ p.outbox → isValueUpdateFrom P m = false := by
  simp only [noValueUpdateFrom, List.all_eq_true, List.mem_append, Bool.not_eq_eq_eq_not,
    Bool.not_true]

theorem getElem_set_cases {w : World} {i k : Nat} {q pk : Process}
    (h : (w.set i q)[k]? = some pk) : (k = i ∧ pk = q) ∨ (k ≠ i ∧ w[k]? = some pk) := by
  rw [List.getElem?_set] at h
  by_cases hik : i = k
  · subst hik
    simp only [if_true] at h
    split at h
    · simp only [Option.some.injEq] at h
      exact Or.inl ⟨rfl, h.symm⟩
    · exact absurd h (by simp)
  · simp only [hik, if_false] at h
    exact Or.inr ⟨fun e => hik e.symm, h⟩

theorem spreading_run {P : Nat} {v : Int} {w w2 : World} {i : Nat}
    (hw : spreading P v w) (h : runAt Process.step i w = some w2) : spreading P v w2 := by
  obtain ⟨h1, h2, h3⟩ := hw
  obtain ⟨p, q, hp, hq, rfl⟩ := runAt_eq h
  obtain ⟨hil, _⟩ := List.getElem?_eq_some.mp hp
  obtain ⟨hquiet, hmsg⟩ := h1 i p hp
  obtain ⟨g1, g2, g3, ⟨ms, g4, g5⟩, g6, g7⟩ := quiet_step hquiet hq
  have hPq : ∀ pP, w[P]? = some pP → ∀ m ∈ pP.outbox,
      ∃ pP2, (w.set i q)[P]? = some pP2 ∧ m ∈ pP2.outbox := by
    intro pP hpP m hm
    by_cases hiP : i = P
    · subst hiP
      rw [hp] at hpP
      simp only [Option.some.injEq] at hpP
      subst hpP
      exact ⟨q, by simp [hil], by rw [g4]; exact List.mem_append_left _ hm⟩
    · exact ⟨pP, by rw [List.getElem?_set_ne hiP]; exact hpP, hm⟩
  refine ⟨?_, ?_, ?_⟩
  · intro k pk hk
    rcases getElem_set_cases hk with ⟨rfl, rfl⟩ | ⟨_, hk⟩
    · refine ⟨g1, ?_⟩
      intro m hm hvu
      rcases hm with hm | hm
      · exact hmsg m (Or.inl (g3 m hm)) hvu
      · rw [g4] at hm
        rcases List.mem_append.mp hm with hm | hm
        · exact hmsg m (Or.inr hm) hvu
        · simp only [isValueUpdateFrom, Bool.and_eq_true, beq_iff_eq] at hvu
          exact absurd hvu.1 (g5 m hm)
    · exact h1 k pk hk
  · intro pk hk
    rcases getElem_set_cases hk with ⟨rfl, rfl⟩ | ⟨_, hk⟩
    · obtain ⟨e1, e2⟩ := h2 p hp
      exact ⟨(g6 e2).1.trans e1, g2⟩
    · exact h2 pk hk
  · intro k pk hk hkP
    rcases getElem_set_cases hk with ⟨rfl, rfl⟩ | ⟨hki, hk⟩
    · rcases h3 k p hp hkP with ⟨e1, e2⟩ | ⟨m, hm, hvu⟩ | ⟨pP, hpP, m, hm, hvu, hd⟩
      · exact Or.inl ⟨(g6 e2).1.trans e1, g2⟩
      · by_cases hc : p.pc = .ctor_recv
        · obtain ⟨m0, rest, ht, hin, hobj⟩ := g7 hc
          rcases (takeFirst_mem ht m).mp hm with rfl | hm
          · exact Or.inl ⟨hobj.trans (hmsg m (Or.inl hm) hvu), g2⟩
          · exact Or.inr (Or.inl ⟨m, by rw [hin]; exact hm, hvu⟩)
        · refine Or.inr (Or.inl ⟨m, (g6 hc).2 m hm ?_, hvu⟩)
          simp only [isValueUpdateFrom, Bool.and_eq_true, beq_iff_eq] at hvu
          exact hvu.1
      · obtain ⟨pP2, hpP2, hm2⟩ := hPq pP hpP m hm
        exact Or.inr (Or.inr ⟨pP2, hpP2, m, hm2, hvu, hd⟩)
    · rcases h3 k pk hk hkP with hL | hM | ⟨pP, hpP, m, hm, hvu, hd⟩
      · exact Or.inl hL
      · exact Or.inr (Or.inl hM)
      · obtain ⟨pP2, hpP2, hm2⟩ := hPq pP hpP m hm
        exact Or.inr (Or.inr ⟨pP2, hpP2, m, hm2, hvu, hd⟩)

theorem noWriteAhead_congr {p q : Process} (h1 : q.pc = p.pc) (h2 : q.script = p.script) :
    noWriteAhead q = noWriteAhead p := by
  simp [noWriteAhead, h1, h2]

theorem spreading_deliver {P : Nat} {v : Int} {w w2 : World} {src dst : Nat}
    (hw : spreading P v w) (h : deliver src dst w = some w2) : spreading P v w2 := by
  obtain ⟨h1, h2, h3⟩ := hw
  obtain ⟨msg, hdst, ⟨s, hs, hms⟩, _, hframe⟩ := deliver_frame h
  have hlen := deliver_length h
  have back : ∀ k pk, w2[k]? = some pk → ∃ p, w[k]? = some p ∧
      pk.obj = p.obj ∧ pk.pc = p.pc ∧ pk.script = p.script ∧
      (∀ m, m ∈ pk.inbox ↔ (m ∈ p.inbox ∨ (k = dst ∧ m = msg))) ∧
      (∀ m ∈ pk.outbox, m ∈ p.outbox) ∧
      (∀ m ∈ p.outbox, m ∈ pk.outbox ∨ (k = src ∧ m = msg)) := by
    intro k pk hk
    have hk2 : k < w.length := by
      rw [← hlen]
      exact (List.getElem?_eq_some.mp hk).1
    obtain ⟨q2, hq2, _, _, e3, e4, e5, _, hin, hout, hout2⟩ :=
      hframe k w[k] (List.getElem?_eq_getElem hk2)
    rw [hk] at hq2
    simp only [Option.some.injEq] at hq2
    subst hq2
    exact ⟨w[k], List.getElem?_eq_getElem hk2, e3, e4, e5, hin, hout, hout2⟩
  have hmsgv : isValueUpdateFrom P msg = true → msg.payload = v :=
    (h1 src s hs).2 msg (Or.inr hms)
  refine ⟨?_, ?_, ?_⟩
  · intro k pk hk
    obtain ⟨p, hp, _, e4, e5, hin, hout, _⟩ := back k pk hk
    obtain ⟨hquiet, hmsg⟩ := h1 k p hp
    refine ⟨(noWriteAhead_congr e4 e5).trans hquiet, ?_⟩
    intro m hm hvu
    rcases hm with hm | hm
    · rcases (hin m).mp hm with hm | ⟨_, rfl⟩
      · exact hmsg m (Or.inl hm) hvu
      · exact hmsgv hvu
    · exact hmsg m (Or.inr (hout m hm)) hvu
  · intro pk hk
    obtain ⟨p, hp, e3, e4, _⟩ := back P pk hk
    rw [e3, e4]
    exact h2 p hp
  · intro k pk hk hkP
    obtain ⟨p, hp, e3, e4, _, hin, _, _⟩ := back k pk hk
    rcases h3 k p hp hkP with hL | ⟨m, hm, hvu⟩ | ⟨pP, hpP, m, hm, hvu, hd⟩
    · rw [← e3, ← e4] at hL
      exact Or.inl hL
    · exact Or.inr (Or.inl ⟨m, (hin m).mpr (Or.inl hm), hvu⟩)
    · have hPl : P < w2.length := by
        rw [hlen]
        exact (List.getElem?_eq_some.mp hpP).1
      obtain ⟨pP0, hpP0, _, _, _, _, _, hout2⟩ := back P w2[P] (List.getElem?_eq_getElem hPl)
      rw [hpP] at hpP0
      simp only [Option.some.injEq] at hpP0
      subst hpP0
      rcases hout2 m hm with hm2 | ⟨_, rfl⟩
      · exact Or.inr (Or.inr ⟨w2[P], List.getElem?_eq_getElem hPl, m, hm2, hvu, hd⟩)
      · exact Or.inr (Or.inl ⟨m, (hin m).mpr (Or.inr ⟨by rw [← hd, hdst], rfl⟩), hvu⟩)

theorem spreading_reach {P : Nat} {v : Int} {w w2 : World}
    (hw : spreading P v w) (h : Reachable programStep w w2) : spreading P v w2 := by
  induction h with
  | start => exact hw
  | @next w1 w3 a _ hs ih =>
    cases a with
    | run i => exact spreading_run ih hs
    | deliver src dst => exact spreading_deliver ih hs

theorem receiveTokens_ids {p q : Process} (h : receiveTokens p = some q) :
    q.obj.rank = p.obj.rank ∧ q.obj.world_size = p.obj.world_size := by
  cases ht : takeFirst (fun m => m.tag == .TOKEN_RESPONSE) p.inbox with
  | none =>
    rw [receiveTokens_idle ht] at h
    cases h
    exact ⟨rfl, rfl⟩
  | some r =>
    obtain ⟨g, rest⟩ := r
    obtain ⟨_, rfl⟩ := receiveTokens_eq ht h
    exact ⟨rfl, rfl⟩

/-- The move in which a `write(v)` of the application returns ends with the assignment and
the broadcast of `write`. -/
theorem write_returns {p0 p1 : Process} {v : Int}
    (hcall : (p0.pc = .ready ∧ ∃ rest, p0.script = .write v :: rest) ∨
      p0.pc = .write_receive v false)
    (hstep : Process.step p0 = some p1) (hret : p1.pc = .ready) :
    ∃ p, write_commit v false p = some p1 ∧ hasAllTokens p.obj = true ∧
      p.mpi_rank = p0.mpi_rank ∧ p.mpi_size = p0.mpi_size ∧ p.obj.rank = p0.obj.rank ∧
      p.obj.world_size = p0.obj.world_size ∧ (∀ m ∈ p.inbox, m ∈ p0.inbox) ∧
      p.outbox = p0.outbox := by
  unfold Process.step at hstep
  rcases hcall with ⟨hpc, rest, hs⟩ | hpc
  · simp only [hpc, hs] at hstep
    rcases write_out hstep with ⟨ha, hc⟩ | ⟨_, p2, _, rfl⟩
    · exact ⟨_, hc, ha, rfl, rfl, rfl, rfl, fun m hm => hm, rfl⟩
    · simp at hret
  · simp only [hpc, Option.bind_eq_bind] at hstep
    obtain ⟨pr, h1, h2⟩ := Option.bind_eq_some.mp hstep
    obtain ⟨_, _, _, _, e5, e6, e7, hin, _⟩ := receiveTokens_frame h1
    obtain ⟨e8, e9⟩ := receiveTokens_ids h1
    rcases write_while_out h2 with ⟨_, rfl⟩ | ⟨ha, hc⟩
    · simp at hret
    · exact ⟨pr, hc, ha, e5, e6, e8, e9, hin, e7⟩

theorem mem_sentTo {src : Nat} {tag : MessageTag} {payload : Int} {dests : List Nat} {m : Msg} :
    m ∈ sentTo src tag payload dests ↔
      ∃ i ∈ dests, m = { src := src, dst := i, tag := tag, payload := payload } := by
  simp only [sentTo, List.mem_map]
  constructor
  · rintro ⟨i, hi, rfl⟩; exact ⟨i, hi, rfl⟩
  · rintro ⟨i, hi, rfl⟩; exact ⟨i, hi, rfl⟩

/-- Visibility of a write whose updates are received.  Let rank `P` of a group `w0` make a
move in which its `write(v)` returns (the call is entered, or its wait loop ends), giving
the group `w0.set P p1`.  Assume that no `VALUE_UPDATE` of `P` was around before, and that
no other write is ahead: the calls left at `P` are reads, and every other process is past
`initMPI`, in no `write`, with only reads to make.  Then in every state `w2` reached
afterwards in which no `VALUE_UPDATE` of `P` is left in an outbox or an inbox, every process
has `_obj = v`.  Only the blocking receive of a constructor takes a `VALUE_UPDATE`, so this
applies to processes that are still in their constructors. -/
theorem write_visibility_in_constructors (w0 w2 : World) (P : Nat) (v : Int) (p0 p1 : Process)
    (hP : w0[P]? = some p0)
    (hid : p0.mpi_rank = P ∧ p0.mpi_size = w0.length ∧ p0.obj.rank = P ∧
      p0.obj.world_size = w0.length)
    (hcall : (p0.pc = .ready ∧ ∃ rest, p0.script = .write v :: rest) ∨
      p0.pc = .write_receive v false)
    (hstep : Process.step p0 = some p1) (hret : p1.pc = .ready)
    (hquiet : noWriteAhead p1 = true ∧ (w0.eraseIdx P).all noWriteAhead = true)
    (hclean : noValueUpdateFrom P w0 = true)
    (hreach : Reachable programStep (w0.set P p1) w2)
    (hdone : noValueUpdateFrom P w2 = true) :
    ∀ p ∈ w2, p.obj._obj = v := by
  obtain ⟨hr, hsz, hor, hows⟩ := hid
  obtain ⟨hPl, _⟩ := List.getElem?_eq_some.mp hP
  obtain ⟨pc, hcommit, _, e1, e2, e3, e4, hin, hout⟩ := write_returns hcall hstep hret
  have hp1 := write_commit_user v pc (by omega)
  rw [hcommit] at hp1
  simp only [Option.some.injEq] at hp1
  have hclean2 := (noValueUpdateFrom_iff P w0).mp hclean
  have hothers : ∀ (i : Nat) (p : Process), w0[i]? = some p → i ≠ P → noWriteAhead p = true := by
    intro i p hi hne
    exact List.all_eq_true.mp hquiet.2 p (List.mem_eraseIdx_iff_getElem?.mpr ⟨i, hne, hi⟩)
  have hstart : spreading P v (w0.set P p1) := by
    refine ⟨?_, ?_, ?_⟩
    · intro k pk hk
      rcases getElem_set_cases hk with ⟨rfl, rfl⟩ | ⟨hne, hk⟩
      · refine ⟨hquiet.1, ?_⟩
        intro m hm hvu
        rw [hp1] at hm
        rcases hm with hm | hm
        · have := hclean2 p0 (List.getElem?_mem hP) m (Or.inl (hin m hm))
          rw [this] at hvu
          exact absurd hvu (by decide)
        · simp only [List.mem_append] at hm
          rcases hm with hm | hm
          · rw [hout] at hm
            have := hclean2 p0 (List.getElem?_mem hP) m (Or.inr hm)
            rw [this] at hvu
            exact absurd hvu (by decide)
          · obtain ⟨i, _, rfl⟩ := mem_sentTo.mp hm
            rfl
      · refine ⟨hothers k pk hk hne, ?_⟩
        intro m hm hvu
        have := hclean2 pk (List.getElem?_mem hk) m hm
        rw [this] at hvu
        exact absurd hvu (by decide)
    · intro pk hk
      rcases getElem_set_cases hk with ⟨_, rfl⟩ | ⟨hne, _⟩
      · rw [hp1]
        exact ⟨rfl, by simp⟩
      · exact absurd rfl hne
    · intro k pk hk hkP
      rcases getElem_set_cases hk with ⟨rfl, _⟩ | ⟨_, hk⟩
      · exact absurd rfl hkP
      · obtain ⟨hkl, _⟩ := List.getElem?_eq_some.mp hk
        refine Or.inr (Or.inr ⟨p1, by simp [hPl], ⟨P, k, .VALUE_UPDATE, v⟩, ?_, ?_, rfl⟩)
        · rw [hp1]
          apply List.mem_append_right
          rw [e1, hr, e3, hor, e4, hows]
          exact mem_sentTo.mpr ⟨k, by simp [hkl, hkP], rfl⟩
        · simp [isValueUpdateFrom]
  obtain ⟨_, g2, g3⟩ := spreading_reach hstart hreach
  have hdone2 := (noValueUpdateFrom_iff P w2).mp hdone
  intro p hp
  obtain ⟨k, hk⟩ := List.mem_iff_getElem?.mp hp
  by_cases hkP : k = P
  · subst hkP
    exact (g2 p hk).1
  · rcases g3 k p hk hkP with hL | ⟨m, hm, hvu⟩ | ⟨pP, hpP, m, hm, hvu, _⟩
    · exact hL.1
    · rw [hdone2 p hp m (Or.inl hm)] at hvu
      exact absurd hvu (by decide)
    · rw [hdone2 pP (List.getElem?_mem hpP) m (Or.inr hm)] at hvu
      exact absurd hvu (by decide)

/-- In `seedingWorld` rank 0 writes 100; once ranks 1 and 2 have received the update in
their constructors, the three caches hold 100. -/
theorem write_visibility_in_constructors_seeding :
    (seedingWorld[0]? = some seedingWriter ∧
      (seedingWriter.mpi_rank = 0 ∧ seedingWriter.mpi_size = seedingWorld.length ∧
        seedingWriter.obj.rank = 0 ∧ seedingWriter.obj.world_size = seedingWorld.length) ∧
      ((seedingWriter.pc = .ready ∧ ∃ rest, seedingWriter.script = .write 100 :: rest) ∨
        seedingWriter.pc = .write_receive 100 false) ∧
      Process.step seedingWriter = some seedingWritten ∧ seedingWritten.pc = .ready ∧
      (noWriteAhead seedingWritten = true ∧
        (seedingWorld.eraseIdx 0).all noWriteAhead = true) ∧
      noValueUpdateFrom 0 seedingWorld = true ∧
      Reachable programStep (seedingWorld.set 0 seedingWritten) seedingDone ∧
      noValueUpdateFrom 0 seedingDone = true) ∧
    ∀ p ∈ seedingDone, p.obj._obj = 100 :=
  have hcall : (seedingWriter.pc = .ready ∧ ∃ rest, seedingWriter.script = .write 100 :: rest) ∨
      seedingWriter.pc = .write_receive 100 false := Or.inl ⟨rfl, [.read], rfl⟩
  have hreach : Reachable programStep (seedingWorld.set 0 seedingWritten) seedingDone :=
    Reachable.of_runTrace _ _ seedingDeliveries _ _ Reachable.start rfl
  ⟨⟨rfl, ⟨rfl, rfl, rfl, rfl⟩, hcall, rfl, rfl, ⟨rfl, rfl⟩, rfl, hreach, rfl⟩,
    write_visibility_in_constructors seedingWorld seedingDone 0 100 seedingWriter seedingWritten rfl
      ⟨rfl, rfl, rfl, rfl⟩ hcall rfl rfl ⟨rfl, rfl⟩ rfl hreach rfl⟩

/-! ## The member functions of the protocol, one call at a time -/

theorem takeFirst_perm {f : Msg → Bool} {l : List Msg} {m : Msg} {rest : List Msg}
    (h : takeFirst f l = some (m, rest)) : l.Perm (m :: rest) := by
  obtain ⟨_, pre, post, hl, hr, _⟩ := takeFirst_some h
  rw [hl, hr]
  exact List.perm_middle

/-- What `handleTokenRequests` does with a pending request from a valid rank. -/
theorem handleTokenRequests_grant {p : Process} {m : Msg} {rest : List Msg} {own : Bool}
    (ht : takeFirst (fun m => m.tag == .TOKEN_REQUEST) p.inbox = some (m, rest))
    (hown : p.obj.read_tokens[p.obj.rank]? = some own)
    (hq : 0 ≤ m.payload ∧ m.payload < p.mpi_size) :
    handleTokenRequests p = some { p with
      inbox := rest,
      obj := { p.obj with write_token := false,
                          read_tokens := p.obj.read_tokens.set p.obj.rank false },
      outbox := p.outbox ++ (if p.obj.write_token then [grantFor p m] else []) ++
                  (if own then [grantFor p m] else []) } := by
  rcases p with ⟨mr, ms, ⟨o, r, ws, rt, wt⟩, ib, ob, pc, sc, rets⟩
  simp only at ht hown hq ⊢
  simp only [handleTokenRequests, ht]
  cases wt <;> cases own <;>
    simp [hown, MPI_Send, hq, grantFor, set_same_false]

/-- What `receiveTokens` does with a pending grant naming an entry of the vector. -/
theorem receiveTokens_grant {p : Process} {m : Msg} {rest : List Msg}
    (ht : takeFirst (fun m => m.tag == .TOKEN_RESPONSE) p.inbox = some (m, rest))
    (hg : 0 ≤ m.payload ∧ m.payload < p.obj.read_tokens.length) :
    receiveTokens p = some { p with
      inbox := rest,
      obj := { p.obj with read_tokens := p.obj.read_tokens.set m.payload.toNat true,
                          write_token := true } } := by
  simp only [receiveTokens, ht, hg, and_self, if_true]

theorem ctor_finish_eq (p : Process) (hn : p.obj.world_size ≤ p.mpi_size) :
    ctor_finish p = some { p with
      outbox := p.outbox ++ sentTo p.mpi_rank .NEW_PROCESS p.obj.rank
        ((List.range p.obj.world_size).filter (fun i => i != p.obj.rank)),
      pc := .ready } := by
  simp only [ctor_finish, broadcastNewProcess_eq p hn, Option.bind_eq_bind, Option.some_bind]

theorem read_with_token {p : Process} (hown : p.obj.read_tokens[p.obj.rank]? = some true) :
    read p = some { p with returns := p.returns ++ [p.obj._obj], pc := .ready } := by
  simp [read, hown, read_return]

/-- C11.  At a rank other than 0, the constructor (on a fresh object, with any argument
`val`) runs `initMPI` and stops in its blocking receive, having sent nothing.  Whatever
has been delivered meanwhile, once the inbox holds a `VALUE_UPDATE` from rank 0, the
constructor takes the first one, `m`, and returns with `_obj = m.payload`, whatever `val`
was, and with `read_tokens[rank]` true.  Whatever is delivered after that, a `read()` on
that object returns `m.payload` at once: its outbox and inbox are those it was entered
with. -/
theorem C11_join_sequencing (p : Process) (val : Int) (hr : p.mpi_rank ≠ 0)
    (hlt : p.mpi_rank < p.mpi_size) (hfresh : p.obj.read_tokens = []) :
    ∃ p1, construct val p = some p1 ∧ p1.pc = .ctor_recv ∧ p1.outbox = p.outbox ∧
      ∀ (c : Process) (m : Msg) (rest : List Msg),
        c.obj = p1.obj → c.mpi_size = p1.mpi_size →
        takeFirst (fun m => m.src == 0 && m.tag == .VALUE_UPDATE) c.inbox = some (m, rest) →
        ∃ p2, ctor_receive c = some p2 ∧ p2.pc = .ready ∧ p2.obj._obj = m.payload ∧
          p2.inbox = rest ∧ p2.obj.read_tokens[p2.obj.rank]? = some true ∧
          ∀ r : Process, r.obj = p2.obj →
            read r = some { r with returns := r.returns ++ [m.payload], pc := .ready } := by
  refine ⟨_, construct_other val p hr, rfl, rfl, ?_⟩
  intro c m rest hobj hsz hfirst
  have hown : (initMPI { p with obj := { p.obj with _obj := val } }).obj.read_tokens[
      (initMPI { p with obj := { p.obj with _obj := val } }).obj.rank]? = some true := by
    have := initMPI_read_tokens { p with obj := { p.obj with _obj := val } } hfresh
      p.mpi_rank hlt
    simpa using this
  have hws : c.obj.world_size ≤ c.mpi_size := by
    rw [hobj, hsz]
    exact Nat.le_refl _
  have hrecv : ctor_receive c = ctor_finish
      { c with inbox := rest, obj := { c.obj with _obj := m.payload } } := by
    simp only [ctor_receive, hfirst]
  have hfin := ctor_finish_eq { c with inbox := rest, obj := { c.obj with _obj := m.payload } }
    hws
  refine ⟨_, hrecv.trans hfin, rfl, rfl, rfl, ?_, ?_⟩
  · simp only [hobj]
    exact hown
  · intro r hro
    have h2 : r.obj.read_tokens[r.obj.rank]? = some true := by
      rw [hro]
      simp only [hobj]
      exact hown
    have h3 : r.obj._obj = m.payload := by rw [hro]
    rw [read_with_token h2, h3]

/-- C11, witness: rank 1 of 3, constructed from 7. -/
theorem C11_join_sequencing_witness :
    ((Process.start 1 3 7 [.read]).mpi_rank ≠ 0 ∧
      (Process.start 1 3 7 [.read]).mpi_rank < (Process.start 1 3 7 [.read]).mpi_size ∧
      (Process.start 1 3 7 [.read]).obj.read_tokens = []) ∧
    ∃ p1, construct 7 (Process.start 1 3 7 [.read]) = some p1 ∧ p1.pc = .ctor_recv ∧
      p1.outbox = (Process.start 1 3 7 [.read]).outbox ∧
      ∀ (c : Process) (m : Msg) (rest : List Msg),
        c.obj = p1.obj → c.mpi_size = p1.mpi_size →
        takeFirst (fun m => m.src == 0 && m.tag == .VALUE_UPDATE) c.inbox = some (m, rest) →
        ∃ p2, ctor_receive c = some p2 ∧ p2.pc = .ready ∧ p2.obj._obj = m.payload ∧
          p2.inbox = rest ∧ p2.obj.read_tokens[p2.obj.rank]? = some true ∧
          ∀ r : Process, r.obj = p2.obj →
            read r = some { r with returns := r.returns ++ [m.payload], pc := .ready } :=
  ⟨⟨by decide, by decide, rfl⟩,
    C11_join_sequencing (Process.start 1 3 7 [.read]) 7 (by decide) (by decide) rfl⟩

/-- C12.  Let the oldest pending `TOKEN_REQUEST` be `m`, with a payload that is a rank of the
communicator, and let `own` be `read_tokens[rank]`.  Then `handleTokenRequests` takes
exactly that message out of the inbox and leaves `write_token = false` and
`read_tokens[rank] = false`, the other entries, `_obj` and `rank` unchanged.  It sends, to
the rank `m.payload`, one `TOKEN_RESPONSE` with payload `rank` if the write token was held
and, independently, one more if the own read token was held: 0, 1 or 2 grants, and nothing
else. -/
theorem C12_grant_on_request (p : Process) (m : Msg) (rest : List Msg) (own : Bool)
    (ht : takeFirst (fun m => m.tag == .TOKEN_REQUEST) p.inbox = some (m, rest))
    (hown : p.obj.read_tokens[p.obj.rank]? = some own)
    (hq : 0 ≤ m.payload ∧ m.payload < p.mpi_size) :
    ∃ q, handleTokenRequests p = some q ∧
      q.inbox = rest ∧ p.inbox.length = rest.length + 1 ∧
      q.obj.write_token = false ∧ q.obj.read_tokens[p.obj.rank]? = some false ∧
      (∀ j, j ≠ p.obj.rank → q.obj.read_tokens[j]? = p.obj.read_tokens[j]?) ∧
      q.obj._obj = p.obj._obj ∧ q.obj.rank = p.obj.rank ∧
      q.outbox = p.outbox ++ (if p.obj.write_token then [grantFor p m] else []) ++
                  (if own then [grantFor p m] else []) ∧
      (grantFor p m).tag = .TOKEN_RESPONSE ∧ (grantFor p m).payload = p.obj.rank ∧
      ((grantFor p m).dst : Int) = m.payload := by
  refine ⟨_, handleTokenRequests_grant ht hown hq, rfl, ?_, rfl, ?_, ?_, rfl, rfl, rfl, rfl, rfl,
    ?_⟩
  · obtain ⟨_, pre, post, hl, hr, _⟩ := takeFirst_some ht
    rw [hl, hr]
    simp
    omega
  · simp only
    obtain ⟨hlt, _⟩ := List.getElem?_eq_some.mp hown
    simp [hlt]
  · intro j hj
    simp only
    rw [List.getElem?_set_ne (fun e => hj e.symm)]
  · simp only [grantFor]
    exact Int.toNat_of_nonneg hq.1

/-- C12, witness: rank 0 of 2, holding the write token and its own read token, answers a
request of rank 1 with two grants. -/
theorem C12_grant_on_request_witness :
    (takeFirst (fun m => m.tag == .TOKEN_REQUEST) requestPending.inbox =
        some (⟨1, 0, .TOKEN_REQUEST, 1⟩, []) ∧
      requestPending.obj.read_tokens[requestPending.obj.rank]? = some true ∧
      ((0 : Int) ≤ 1 ∧ (1 : Int) < requestPending.mpi_size)) ∧
    ∃ q, handleTokenRequests requestPending = some q ∧
      q.inbox = [] ∧ requestPending.inbox.length = ([] : List Msg).length + 1 ∧
      q.obj.write_token = false ∧ q.obj.read_tokens[requestPending.obj.rank]? = some false ∧
      (∀ j, j ≠ requestPending.obj.rank →
        q.obj.read_tokens[j]? = requestPending.obj.read_tokens[j]?) ∧
      q.obj._obj = requestPending.obj._obj ∧ q.obj.rank = requestPending.obj.rank ∧
      q.outbox = requestPending.outbox ++
          [(⟨0, 1, .TOKEN_RESPONSE, 0⟩ : Msg)] ++ [(⟨0, 1, .TOKEN_RESPONSE, 0⟩ : Msg)] ∧
      (grantFor requestPending ⟨1, 0, .TOKEN_REQUEST, 1⟩).tag = .TOKEN_RESPONSE ∧
      (grantFor requestPending ⟨1, 0, .TOKEN_REQUEST, 1⟩).payload = requestPending.obj.rank ∧
      ((grantFor requestPending ⟨1, 0, .TOKEN_REQUEST, 1⟩).dst : Int) = 1 :=
  ⟨⟨rfl, rfl, by decide, by decide⟩,
    C12_grant_on_request requestPending ⟨1, 0, .TOKEN_REQUEST, 1⟩ [] true rfl rfl
      ⟨by decide, by decide⟩⟩

/-- C13.  Let the oldest pending `TOKEN_RESPONSE` be `m`, with a payload `g` in
`[0, world_size)`, on an object whose vector has `world_size` entries.  Then
`receiveTokens` takes exactly that message out of the inbox and leaves
`read_tokens[g] = true` and `write_token = true`, whatever `write_token` was; the other
entries and `_obj` are unchanged and nothing is sent. -/
theorem C13_grant_receipt (p : Process) (m : Msg) (rest : List Msg)
    (ht : takeFirst (fun m => m.tag == .TOKEN_RESPONSE) p.inbox = some (m, rest))
    (hlen : p.obj.read_tokens.length = p.obj.world_size)
    (hg : 0 ≤ m.payload ∧ m.payload < p.obj.world_size) :
    ∃ q, receiveTokens p = some q ∧
      q.inbox = rest ∧ p.inbox.length = rest.length + 1 ∧
      q.obj.read_tokens[m.payload.toNat]? = some true ∧ q.obj.write_token = true ∧
      (∀ j, j ≠ m.payload.toNat → q.obj.read_tokens[j]? = p.obj.read_tokens[j]?) ∧
      q.obj._obj = p.obj._obj ∧ q.outbox = p.outbox := by
  have hg2 : 0 ≤ m.payload ∧ m.payload < p.obj.read_tokens.length := by
    rw [hlen]; exact hg
  refine ⟨_, receiveTokens_grant ht hg2, rfl, ?_, ?_, rfl, ?_, rfl, rfl⟩
  · obtain ⟨_, pre, post, hl, hr, _⟩ := takeFirst_some ht
    rw [hl, hr]
    simp
    omega
  · simp only
    have : m.payload.toNat < p.obj.read_tokens.length := by omega
    simp [this]
  · intro j hj
    simp only
    rw [List.getElem?_set_ne (fun e => hj e.symm)]

/-- C13, witness: rank 1 of 2, without the write token, takes a grant of rank 0. -/
theorem C13_grant_receipt_witness :
    (takeFirst (fun m => m.tag == .TOKEN_RESPONSE) grantPending.inbox =
        some (⟨0, 1, .TOKEN_RESPONSE, 0⟩, []) ∧
      grantPending.obj.read_tokens.length = grantPending.obj.world_size ∧
      ((0 : Int) ≤ 0 ∧ (0 : Int) < grantPending.obj.world_size)) ∧
    ∃ q, receiveTokens grantPending = some q ∧
      q.inbox = [] ∧ grantPending.inbox.length = ([] : List Msg).length + 1 ∧
      q.obj.read_tokens[0]? = some true ∧ q.obj.write_token = true ∧
      (∀ j, j ≠ 0 → q.obj.read_tokens[j]? = grantPending.obj.read_tokens[j]?) ∧
      q.obj._obj = grantPending.obj._obj ∧ q.outbox = grantPending.outbox :=
  ⟨⟨rfl, rfl, by decide, by decide⟩,
    C13_grant_receipt grantPending ⟨0, 1, .TOKEN_RESPONSE, 0⟩ [] rfl rfl
      ⟨by decide, by decide⟩⟩

/-- C14.  On a constructed object (`world_size` the size of the communicator, one entry of
`read_tokens` per rank, `rank < world_size`), `requestTokens` changes nothing but the
outbox, to which it appends only `TOKEN_REQUEST` messages with payload `rank`: first, if
`write_token` is false, one to every rank other than `rank`, in increasing order; then one
to every rank `i` other than `rank` with `read_tokens[i]` false, in increasing order.  Their
number is `world_size - 1` (or 0 if the write token is held) plus the number of such `i`. -/
theorem C14_request_emission (p : Process) (hsize : p.obj.world_size = p.mpi_size)
    (hlen : p.obj.read_tokens.length = p.obj.world_size)
    (hr : p.obj.rank < p.obj.world_size) :
    requestTokens p = some { p with
      outbox := p.outbox ++
        ((if p.obj.write_token then []
          else sentTo p.mpi_rank .TOKEN_REQUEST p.obj.rank
            ((List.range p.obj.world_size).filter (fun i => i != p.obj.rank))) ++
         sentTo p.mpi_rank .TOKEN_REQUEST p.obj.rank
            ((List.range p.obj.world_size).filter
              (fun i => i != p.obj.rank && !(p.obj.read_tokens.getD i true)))) } ∧
    ((if p.obj.write_token then []
          else sentTo p.mpi_rank .TOKEN_REQUEST p.obj.rank
            ((List.range p.obj.world_size).filter (fun i => i != p.obj.rank))) ++
         sentTo p.mpi_rank .TOKEN_REQUEST p.obj.rank
            ((List.range p.obj.world_size).filter
              (fun i => i != p.obj.rank && !(p.obj.read_tokens.getD i true)))).length =
      (if p.obj.write_token then 0 else p.obj.world_size - 1) +
        ((List.range p.obj.world_size).filter
          (fun i => i != p.obj.rank && !(p.obj.read_tokens.getD i true))).length := by
  refine ⟨requestTokens_eq p (by omega) hlen, ?_⟩
  cases p.obj.write_token <;> simp [sentTo, length_filter_ne, hr]

/-- C14, witness: rank 1 of 3 right after `initMPI` (no write token, only its own read
token) sends four requests: to 0 and 2 for the write token, to 0 and 2 for their read
tokens. -/
theorem C14_request_emission_witness :
    ((Process.initialised 1 3 42).obj.world_size = (Process.initialised 1 3 42).mpi_size ∧
      (Process.initialised 1 3 42).obj.read_tokens.length =
        (Process.initialised 1 3 42).obj.world_size ∧
      (Process.initialised 1 3 42).obj.rank < (Process.initialised 1 3 42).obj.world_size) ∧
    (requestTokens (Process.initialised 1 3 42) = some { Process.initialised 1 3 42 with
        outbox := [⟨1, 0, .TOKEN_REQUEST, 1⟩, ⟨1, 2, .TOKEN_REQUEST, 1⟩,
                   ⟨1, 0, .TOKEN_REQUEST, 1⟩, ⟨1, 2, .TOKEN_REQUEST, 1⟩] } ∧
      ([⟨1, 0, .TOKEN_REQUEST, 1⟩, ⟨1, 2, .TOKEN_REQUEST, 1⟩,
        ⟨1, 0, .TOKEN_REQUEST, 1⟩, (⟨1, 2, .TOKEN_REQUEST, 1⟩ : Msg)]).length = (3 - 1) + 2) :=
  ⟨⟨rfl, rfl, by decide⟩, C14_request_emission (Process.initialised 1 3 42) rfl rfl (by decide)⟩

/-- C16.  With no `TOKEN_REQUEST` in the inbox, `handleTokenRequests` returns the process
state it was given: object, inbox and outbox unchanged.  With no `TOKEN_RESPONSE` in the
inbox, so does `receiveTokens`.  In every case a call of either function leaves the state
as it was or takes exactly one message, of its own tag, out of the inbox. -/
theorem C16_idle_polls_are_no_ops (p : Process) :
    ((∀ m ∈ p.inbox, m.tag ≠ .TOKEN_REQUEST) → handleTokenRequests p = some p) ∧
    ((∀ m ∈ p.inbox, m.tag ≠ .TOKEN_RESPONSE) → receiveTokens p = some p) ∧
    (∀ q, handleTokenRequests p = some q →
      q = p ∨ ∃ m, m.tag = .TOKEN_REQUEST ∧ p.inbox.Perm (m :: q.inbox)) ∧
    (∀ q, receiveTokens p = some q →
      q = p ∨ ∃ m, m.tag = .TOKEN_RESPONSE ∧ p.inbox.Perm (m :: q.inbox)) := by
  refine ⟨?_, ?_, ?_, ?_⟩
  · intro h
    apply handleTokenRequests_idle
    apply takeFirst_none.mpr
    intro x hx
    simpa using h x hx
  · intro h
    apply receiveTokens_idle
    apply takeFirst_none.mpr
    intro x hx
    simpa using h x hx
  · intro q h
    cases ht : takeFirst (fun m => m.tag == .TOKEN_REQUEST) p.inbox with
    | none =>
      rw [handleTokenRequests_idle ht] at h
      exact Or.inl (Option.some.inj h).symm
    | some r =>
      obtain ⟨m, rest⟩ := r
      obtain ⟨_, _, _, rfl⟩ := handleTokenRequests_eq ht h
      exact Or.inr ⟨m, by simpa using (takeFirst_some ht).1, takeFirst_perm ht⟩
  · intro q h
    cases ht : takeFirst (fun m => m.tag == .TOKEN_RESPONSE) p.inbox with
    | none =>
      rw [receiveTokens_idle ht] at h
      exact Or.inl (Option.some.inj h).symm
    | some r =>
      obtain ⟨m, rest⟩ := r
      obtain ⟨_, rfl⟩ := receiveTokens_eq ht h
      exact Or.inr ⟨m, by simpa using (takeFirst_some ht).1, takeFirst_perm ht⟩

/-- C16, witness: a grant is pending and no request.  `handleTokenRequests` changes
nothing; `receiveTokens` takes the grant. -/
theorem C16_idle_polls_are_no_ops_witness :
    (∀ m ∈ grantPending.inbox, m.tag ≠ .TOKEN_REQUEST) ∧
      handleTokenRequests grantPending = some grantPending ∧
      (∀ q, receiveTokens grantPending = some q →
        q = grantPending ∨
          ∃ m, m.tag = .TOKEN_RESPONSE ∧ grantPending.inbox.Perm (m :: q.inbox)) :=
  ⟨by decide, (C16_idle_polls_are_no_ops grantPending).1 (by decide),
    (C16_idle_polls_are_no_ops grantPending).2.2.2⟩

/-! ## Ranks in messages are valid -/

theorem valid_requestTokens {n i : Nat} {p q : Process} (hp : validProcess n i p)
    (h : requestTokens p = some q) : validProcess n i q := by
  obtain ⟨h1, h2, h3, h4, h5, h6, hin, hout⟩ := hp
  obtain ⟨ms, rfl, hms⟩ := requestTokens_sends h
  refine ⟨h1, h2, h3, h4, h5, h6, hin, ?_⟩
  intro m hm
  rcases List.mem_append.mp hm with hm | hm
  · exact hout m hm
  · obtain ⟨_, hsrc, hpay, hdst, hlt⟩ := hms m hm
    refine ⟨fun _ => ⟨?_, ?_, ?_, ?_⟩, hsrc.trans h1⟩
    · rw [hpay, hsrc, h3, h1]
    · rw [hsrc, h1]; exact h6
    · rw [← h2]; exact hlt
    · rw [hsrc, h1, ← h3]; exact fun e => hdst e.symm

theorem valid_grantFor {n i : Nat} {p : Process} {m : Msg} (hp : validProcess n i p)
    (hm : m ∈ p.inbox) (ht : m.tag = .TOKEN_REQUEST) :
    validMsg n (grantFor p m) ∧ (grantFor p m).src = i := by
  obtain ⟨h1, h2, h3, h4, h5, h6, hin, hout⟩ := hp
  obtain ⟨hv, hd⟩ := hin m hm
  obtain ⟨hpay, hsrc, _, hne⟩ := hv (Or.inl ht)
  refine ⟨fun _ => ⟨?_, ?_, ?_, ?_⟩, h1⟩
  · simp [grantFor, h1, h3]
  · simp only [grantFor, h1]; exact h6
  · simp only [grantFor, hpay, Int.toNat_ofNat]; exact hsrc
  · simp only [grantFor, hpay, Int.toNat_ofNat, h1]
    rw [hd] at hne
    exact fun e => hne e.symm

theorem valid_handleTokenRequests {n i : Nat} {p q : Process} (hp : validProcess n i p)
    (h : handleTokenRequests p = some q) : validProcess n i q := by
  cases ht : takeFirst (fun m => m.tag == .TOKEN_REQUEST) p.inbox with
  | none =>
    rw [handleTokenRequests_idle ht] at h
    exact (Option.some.inj h) ▸ hp
  | some r =>
    obtain ⟨req, rest⟩ := r
    obtain ⟨own, _, _, rfl⟩ := handleTokenRequests_eq ht h
    have hreq : req.tag = .TOKEN_REQUEST := by simpa using (takeFirst_some ht).1
    have hmem : req ∈ p.inbox := (takeFirst_mem ht req).mpr (Or.inl rfl)
    have hg := valid_grantFor hp hmem hreq
    obtain ⟨h1, h2, h3, h4, h5, h6, hin, hout⟩ := hp
    refine ⟨h1, h2, h3, h4, by simpa using h5, h6, ?_, ?_⟩
    · intro m hm
      exact hin m ((takeFirst_mem ht m).mpr (Or.inr hm))
    · intro m hm
      simp only [List.mem_append] at hm
      rcases hm with (hm | hm) | hm
      · exact hout m hm
      · split at hm
        · simp only [List.mem_singleton] at hm; subst hm; exact hg
        · simp at hm
      · split at hm
        · simp only [List.mem_singleton] at hm; subst hm; exact hg
        · simp at hm

theorem valid_receiveTokens {n i : Nat} {p q : Process} (hp : validProcess n i p)
    (h : receiveTokens p = some q) : validProcess n i q := by
  cases ht : takeFirst (fun m => m.tag == .TOKEN_RESPONSE) p.inbox with
  | none =>
    rw [receiveTokens_idle ht] at h
    exact (Option.some.inj h) ▸ hp
  | some r =>
    obtain ⟨g, rest⟩ := r
    obtain ⟨_, rfl⟩ := receiveTokens_eq ht h
    obtain ⟨h1, h2, h3, h4, h5, h6, hin, hout⟩ := hp
    refine ⟨h1, h2, h3, h4, by simpa using h5, h6, ?_, hout⟩
    intro m hm
    exact hin m ((takeFirst_mem ht m).mpr (Or.inr hm))

theorem valid_deliver {n src dst : Nat} {w w2 : World} (hw : validWorld n w)
    (h : deliver src dst w = some w2) : validWorld n w2 := by
  obtain ⟨hlen, hall⟩ := hw
  obtain ⟨msg, hdst, ⟨s, hs, hms⟩, _, hframe⟩ := deliver_frame h
  have hlen2 := deliver_length h
  obtain ⟨_, _, _, _, _, _, _, hsout⟩ := hall src s hs
  refine ⟨hlen2.trans hlen, ?_⟩
  intro k q hk
  have hk2 : k < w.length := by
    rw [← hlen2]
    exact (List.getElem?_eq_some.mp hk).1
  obtain ⟨q2, hq2, e1, e2, e3, _, _, _, hin, hout, _⟩ :=
    hframe k w[k] (List.getElem?_eq_getElem hk2)
  rw [hk] at hq2
  simp only [Option.some.injEq] at hq2
  subst hq2
  obtain ⟨h1, h2, h3, h4, h5, h6, hpin, hpout⟩ := hall k w[k] (List.getElem?_eq_getElem hk2)
  refine ⟨e1.trans h1, e2.trans h2, by rw [e3]; exact h3, by rw [e3]; exact h4,
    by rw [e3]; exact h5, h6, ?_, fun m hm => hpout m (hout m hm)⟩
  intro m hm
  rcases (hin m).mp hm with hm | ⟨hkd, rfl⟩
  · exact hpin m hm
  · exact ⟨(hsout m hms).1, by rw [hdst, hkd]⟩

theorem valid_tokenStep {n : Nat} {w w2 : World} {a : TokenAction} (hw : validWorld n w)
    (h : tokenStep w a = some w2) : validWorld n w2 := by
  cases a with
  | requestTokens i =>
    exact ⟨(runAt_length h).trans hw.1,
      forall_runAt hw.2 (fun p q hq hp => valid_requestTokens hp hq) h⟩
  | handleTokenRequests i =>
    exact ⟨(runAt_length h).trans hw.1,
      forall_runAt hw.2 (fun p q hq hp => valid_handleTokenRequests hp hq) h⟩
  | receiveTokens i =>
    exact ⟨(runAt_length h).trans hw.1,
      forall_runAt hw.2 (fun p q hq hp => valid_receiveTokens hp hq) h⟩
  | deliver src dst => exact valid_deliver hw h

theorem valid_initialised (r n : Nat) (val : Int) (hr : r < n) :
    validProcess n r (Process.initialised r n val) :=
  ⟨rfl, rfl, rfl, rfl, initMPI_length _ rfl, hr,
    fun m hm => absurd hm (by simp [Process.initialised, initMPI, Process.start]),
    fun m hm => absurd hm (by simp [Process.initialised, initMPI, Process.start])⟩

theorem valid_tokenInit (n : Nat) (val : Nat → Int) : validWorld n (tokenInit n val) := by
  refine ⟨by simp [tokenInit], ?_⟩
  intro i p hp
  have hi : i < n := by
    have := (List.getElem?_eq_some.mp hp).1
    simpa [tokenInit] using this
  rw [tokenInit_get n val i hi] at hp
  simp only [Option.some.injEq] at hp
  subst hp
  exact valid_initialised i n (val i) hi

theorem valid_reach {n : Nat} {w w2 : World} (hw : validWorld n w)
    (h : Reachable tokenStep w w2) : validWorld n w2 := by
  induction h with
  | start => exact hw
  | next _ hs ih => exact valid_tokenStep ih hs

theorem Reachable.trans {α : Type} {step : World → α → Option World} {a b c : World}
    (h1 : Reachable step a b) (h2 : Reachable step b c) : Reachable step a c := by
  induction h2 with
  | start => exact h1
  | next _ hs ih => exact Reachable.next ih hs

/-- On a valid process the three functions of the protocol return: no index is out of the
vector and no grant goes to a rank outside the group. -/
theorem valid_total {n i : Nat} {p : Process} (hp : validProcess n i p) :
    (∃ q, requestTokens p = some q) ∧ (∃ q, handleTokenRequests p = some q) ∧
      (∃ q, receiveTokens p = some q) := by
  obtain ⟨h1, h2, h3, h4, h5, h6, hin, hout⟩ := hp
  refine ⟨⟨_, requestTokens_eq p (by omega) (by omega)⟩, ?_, ?_⟩
  · cases ht : takeFirst (fun m => m.tag == .TOKEN_REQUEST) p.inbox with
    | none => exact ⟨p, handleTokenRequests_idle ht⟩
    | some r =>
      obtain ⟨req, rest⟩ := r
      have hreq : req.tag = .TOKEN_REQUEST := by simpa using (takeFirst_some ht).1
      obtain ⟨hv, _⟩ := hin req ((takeFirst_mem ht req).mpr (Or.inl rfl))
      obtain ⟨hpay, hsrc, _, _⟩ := hv (Or.inl hreq)
      have hown : p.obj.read_tokens[p.obj.rank]? = some (p.obj.read_tokens.getD p.obj.rank true) := by
        have : p.obj.rank < p.obj.read_tokens.length := by omega
        simp [List.getD, List.getElem?_eq_getElem this]
      exact ⟨_, handleTokenRequests_grant ht hown
        ⟨by rw [hpay]; exact Int.ofNat_nonneg _, by rw [hpay, h2]; exact_mod_cast hsrc⟩⟩
  · cases ht : takeFirst (fun m => m.tag == .TOKEN_RESPONSE) p.inbox with
    | none => exact ⟨p, receiveTokens_idle ht⟩
    | some r =>
      obtain ⟨g, rest⟩ := r
      have hg : g.tag = .TOKEN_RESPONSE := by simpa using (takeFirst_some ht).1
      obtain ⟨hv, _⟩ := hin g ((takeFirst_mem ht g).mpr (Or.inl rfl))
      obtain ⟨hpay, hsrc, _, _⟩ := hv (Or.inr hg)
      exact ⟨_, receiveTokens_grant ht
        ⟨by rw [hpay]; exact Int.ofNat_nonneg _, by rw [hpay, h5]; exact_mod_cast hsrc⟩⟩

theorem lostOwn_requestTokens {n k : Nat} {p q : Process} (hp : lostOwn n k p)
    (h : requestTokens p = some q) : lostOwn n k q := by
  refine ⟨valid_requestTokens hp.1 h, ?_⟩
  obtain ⟨ms, rfl, _⟩ := requestTokens_sends h
  exact hp.2

theorem lostOwn_handleTokenRequests {n k : Nat} {p q : Process} (hp : lostOwn n k p)
    (h : handleTokenRequests p = some q) : lostOwn n k q := by
  refine ⟨valid_handleTokenRequests hp.1 h, ?_⟩
  cases ht : takeFirst (fun m => m.tag == .TOKEN_REQUEST) p.inbox with
  | none =>
    rw [handleTokenRequests_idle ht] at h
    exact (Option.some.inj h) ▸ hp.2
  | some r =>
    obtain ⟨req, rest⟩ := r
    obtain ⟨own, _, _, rfl⟩ := handleTokenRequests_eq ht h
    obtain ⟨⟨_, _, h3, _⟩, hf⟩ := hp
    simp only [h3]
    obtain ⟨hlt, _⟩ := List.getElem?_eq_some.mp hf
    simp [hlt]

theorem lostOwn_receiveTokens {n k : Nat} {p q : Process} (hp : lostOwn n k p)
    (h : receiveTokens p = some q) : lostOwn n k q := by
  refine ⟨valid_receiveTokens hp.1 h, ?_⟩
  cases ht : takeFirst (fun m => m.tag == .TOKEN_RESPONSE) p.inbox with
  | none =>
    rw [receiveTokens_idle ht] at h
    exact (Option.some.inj h) ▸ hp.2
  | some r =>
    obtain ⟨g, rest⟩ := r
    obtain ⟨_, rfl⟩ := receiveTokens_eq ht h
    obtain ⟨⟨_, _, _, _, _, _, hin, _⟩, hf⟩ := hp
    have hg : g.tag = .TOKEN_RESPONSE := by simpa using (takeFirst_some ht).1
    obtain ⟨hv, hd⟩ := hin g ((takeFirst_mem ht g).mpr (Or.inl rfl))
    obtain ⟨hpay, _, _, hne⟩ := hv (Or.inr hg)
    simp only
    rw [List.getElem?_set_ne]
    · exact hf
    · rw [hpay, Int.toNat_ofNat, ← hd]
      exact hne

/-- What a delivery leaves alone, read from the state after it. -/
theorem deliver_back {src dst : Nat} {w w2 : World} (h : deliver src dst w = some w2) :
    ∀ (k : Nat) (q : Process), w2[k]? = some q → ∃ p, w[k]? = some p ∧ q.obj = p.obj ∧
      q.pc = p.pc ∧ q.script = p.script ∧ q.returns = p.returns := by
  obtain ⟨msg, _, _, _, hframe⟩ := deliver_frame h
  have hlen := deliver_length h
  intro k q hk
  have hk2 : k < w.length := by
    rw [← hlen]
    exact (List.getElem?_eq_some.mp hk).1
  obtain ⟨q2, hq2, _, _, e3, e4, e5, e6, _⟩ := hframe k w[k] (List.getElem?_eq_getElem hk2)
  rw [hk] at hq2
  simp only [Option.some.injEq] at hq2
  subst hq2
  exact ⟨w[k], List.getElem?_eq_getElem hk2, e3, e4, e5, e6⟩

/-- The own read token of rank `i`, once lost, stays lost through every move of the protocol. -/
theorem ownLost_tokenStep {n i : Nat} {w w2 : World} {a : TokenAction}
    (hw : ∀ (k : Nat) (p : Process), w[k]? = some p →
      validProcess n k p ∧ (k = i → p.obj.read_tokens[i]? = some false))
    (h : tokenStep w a = some w2) :
    ∀ (k : Nat) (p : Process), w2[k]? = some p →
      validProcess n k p ∧ (k = i → p.obj.read_tokens[i]? = some false) := by
  have lift : ∀ (f : Process → Option Process),
      (∀ k p q, lostOwn n k p → f p = some q → lostOwn n k q) →
      (∀ k p q, validProcess n k p → f p = some q → validProcess n k q) →
      ∀ j, runAt f j w = some w2 → ∀ (k : Nat) (p : Process), w2[k]? = some p →
        validProcess n k p ∧ (k = i → p.obj.read_tokens[i]? = some false) := by
    intro f hl hv j hj
    refine forall_runAt hw ?_ hj
    intro p q hq hp
    refine ⟨hv j p q hp.1 hq, ?_⟩
    intro hji
    subst hji
    exact (hl j p q ⟨hp.1, hp.2 rfl⟩ hq).2
  cases a with
  | requestTokens j =>
    exact lift _ (fun _ _ _ hp hq => lostOwn_requestTokens hp hq)
      (fun _ _ _ hp hq => valid_requestTokens hp hq) j h
  | handleTokenRequests j =>
    exact lift _ (fun _ _ _ hp hq => lostOwn_handleTokenRequests hp hq)
      (fun _ _ _ hp hq => valid_handleTokenRequests hp hq) j h
  | receiveTokens j =>
    exact lift _ (fun _ _ _ hp hq => lostOwn_receiveTokens hp hq)
      (fun _ _ _ hp hq => valid_receiveTokens hp hq) j h
  | deliver src dst =>
    intro k q hk
    obtain ⟨p, hp, e3, _⟩ := deliver_back h k q hk
    obtain ⟨msg, hdst, ⟨s, hs, hms⟩, _, hframe⟩ := deliver_frame h
    obtain ⟨q2, hq2, e1, e2, _, _, _, _, hin, hout, _⟩ := hframe k p hp
    rw [hk] at hq2
    simp only [Option.some.injEq] at hq2
    subst hq2
    obtain ⟨⟨h1, h2, h3, h4, h5, h6, hpin, hpout⟩, hfalse⟩ := hw k p hp
    obtain ⟨⟨_, _, _, _, _, _, _, hsout⟩, _⟩ := hw src s hs
    refine ⟨⟨e1.trans h1, e2.trans h2, by rw [e3]; exact h3, by rw [e3]; exact h4,
      by rw [e3]; exact h5, h6, ?_, fun m hm => hpout m (hout m hm)⟩,
      fun hki => by rw [e3]; exact hfalse hki⟩
    intro m hm
    rcases (hin m).mp hm with hm | ⟨hkd, rfl⟩
    · exact hpin m hm
    · exact ⟨(hsout m hms).1, by rw [hdst, hkd]⟩

theorem ownLost_reach {n i : Nat} {w w2 : World}
    (hw : ∀ (k : Nat) (p : Process), w[k]? = some p →
      validProcess n k p ∧ (k = i → p.obj.read_tokens[i]? = some false))
    (h : Reachable tokenStep w w2) :
    ∀ (k : Nat) (p : Process), w2[k]? = some p →
      validProcess n k p ∧ (k = i → p.obj.read_tokens[i]? = some false) := by
  induction h with
  | start => exact hw
  | next _ hs ih => exact ownLost_tokenStep ih hs

theorem read_while_waits {p : Process} (h : p.obj.read_tokens[p.obj.rank]? = some false) :
    read_while p = some { p with pc := .read_handle } := by
  simp [read_while, h]

/-- C18.  In every state of a group of `n` processes reached from the states set by
`initMPI` through `requestTokens`, `handleTokenRequests`, `receiveTokens` and deliveries, at
every rank `i`: each `TOKEN_REQUEST` and `TOKEN_RESPONSE` in the inbox or the outbox has a
payload equal to the rank of its sender, in `[0, n)`, and a destination other than its
sender; the inbox holds messages sent to `i` and the outbox messages sent by `i`, whose
rank member is `i`; the vector has `n` entries; and the three functions return a state: no
index falls outside the vector and no grant is sent to a rank outside the group. -/
theorem C18_ranks_in_messages_are_valid (n : Nat) (val : Nat → Int) (w : World) (i : Nat)
    (p : Process) (hw : Reachable tokenStep (tokenInit n val) w) (hp : w[i]? = some p) :
    (∀ m, m ∈ p.inbox ∨ m ∈ p.outbox → m.tag = .TOKEN_REQUEST ∨ m.tag = .TOKEN_RESPONSE →
      m.payload = (m.src : Int) ∧ 0 ≤ m.payload ∧ m.payload < n ∧ m.src ≠ m.dst) ∧
    (∀ m ∈ p.inbox, m.dst = i) ∧ (∀ m ∈ p.outbox, m.src = i ∧ m.src = p.obj.rank) ∧
    p.obj.read_tokens.length = n ∧
    (∃ q, requestTokens p = some q) ∧ (∃ q, handleTokenRequests p = some q) ∧
    (∃ q, receiveTokens p = some q) := by
  have hv := (valid_reach (valid_tokenInit n val) hw).2 i p hp
  have hvt := valid_total hv
  obtain ⟨h1, h2, h3, h4, h5, h6, hin, hout⟩ := hv
  refine ⟨?_, fun m hm => (hin m hm).2, fun m hm => ⟨(hout m hm).2, (hout m hm).2.trans h3.symm⟩,
    h5, hvt⟩
  intro m hm ht
  have hvm : validMsg n m := by
    rcases hm with hm | hm
    · exact (hin m hm).1
    · exact (hout m hm).1
  obtain ⟨hpay, hsrc, _, hne⟩ := hvm ht
  exact ⟨hpay, by rw [hpay]; exact Int.ofNat_nonneg _, by rw [hpay]; exact_mod_cast hsrc, hne⟩

/-- C18, witness: rank 1 in `duplicateWriteWorld`. -/
theorem C18_ranks_in_messages_are_valid_witness :
    (Reachable tokenStep (tokenInit 2 (fun _ => 42)) duplicateWriteWorld ∧
      duplicateWriteWorld[1]? = some ownLostAt1) ∧
    ((∀ m, m ∈ ownLostAt1.inbox ∨ m ∈ ownLostAt1.outbox →
        m.tag = .TOKEN_REQUEST ∨ m.tag = .TOKEN_RESPONSE →
        m.payload = (m.src : Int) ∧ 0 ≤ m.payload ∧ m.payload < (2 : Nat) ∧ m.src ≠ m.dst) ∧
      (∀ m ∈ ownLostAt1.inbox, m.dst = 1) ∧
      (∀ m ∈ ownLostAt1.outbox, m.src = 1 ∧ m.src = ownLostAt1.obj.rank) ∧
      ownLostAt1.obj.read_tokens.length = 2 ∧
      (∃ q, requestTokens ownLostAt1 = some q) ∧ (∃ q, handleTokenRequests ownLostAt1 = some q) ∧
      (∃ q, receiveTokens ownLostAt1 = some q)) :=
  have hr : Reachable tokenStep (tokenInit 2 (fun _ => 42)) duplicateWriteWorld :=
    Reachable.of_runTrace _ _ duplicateWriteTrace _ _ Reachable.start rfl
  ⟨⟨hr, rfl⟩,
    C18_ranks_in_messages_are_valid 2 (fun _ => 42) duplicateWriteWorld 1 ownLostAt1 hr rfl⟩

/-- C17.  Take a state `w` of a group of `n` processes reached from the states set by
`initMPI` through `requestTokens`, `handleTokenRequests`, `receiveTokens` and deliveries, in
which rank `i` has `read_tokens[i] = false`, and any state `w2` reached from `w` by more such
moves.  In `w2`, no `TOKEN_RESPONSE` delivered to rank `i` has payload `i`;
`read_tokens[i]` at rank `i` is still false; `hasAllTokens()` is false there; and the loop
test of `read` sends the process back into the wait loop. -/
theorem C17_own_read_token_never_regained (n : Nat) (val : Nat → Int) (w w2 : World) (i : Nat)
    (p p2 : Process)
    (hw : Reachable tokenStep (tokenInit n val) w) (hw2 : Reachable tokenStep w w2)
    (hp : w[i]? = some p) (hp2 : w2[i]? = some p2)
    (hcleared : p.obj.read_tokens[i]? = some false) :
    (∀ m ∈ p2.inbox, m.tag = .TOKEN_RESPONSE → m.payload ≠ (i : Int)) ∧
    p2.obj.rank = i ∧ p2.obj.read_tokens[i]? = some false ∧
    hasAllTokens p2.obj = false ∧ read_while p2 = some { p2 with pc := .read_handle } := by
  have hv := valid_reach (valid_tokenInit n val) hw
  have hinv : ∀ (k : Nat) (q : Process), w[k]? = some q →
      validProcess n k q ∧ (k = i → q.obj.read_tokens[i]? = some false) := by
    intro k q hq
    refine ⟨hv.2 k q hq, ?_⟩
    intro hki
    subst hki
    rw [hp] at hq
    exact (Option.some.inj hq) ▸ hcleared
  obtain ⟨⟨_, _, h3, _, _, _, hin, _⟩, hf⟩ := ownLost_reach hinv hw2 i p2 hp2
  have hf2 := hf rfl
  refine ⟨?_, h3, hf2, hasAllTokens_false_of_missing hf2, read_while_waits (by rw [h3]; exact hf2)⟩
  intro m hm ht hpay
  obtain ⟨hvm, hd⟩ := hin m hm
  obtain ⟨hpay2, _, _, hne⟩ := hvm (Or.inr ht)
  rw [hpay2] at hpay
  have : m.src = i := by exact_mod_cast hpay
  exact hne (this.trans hd.symm)

/-- C17, witness: rank 0 has lost its own read token in `lostReadWorld`; later, in
`lostReadLater`, it holds the write token and the read token of rank 1, and still not its
own. -/
theorem C17_own_read_token_never_regained_witness :
    (Reachable tokenStep (tokenInit 2 (fun _ => 42)) lostReadWorld ∧
      Reachable tokenStep lostReadWorld lostReadLater ∧
      lostReadWorld[0]? = some ownLostAt0 ∧ lostReadLater[0]? = some ownLostAt0Later ∧
      ownLostAt0.obj.read_tokens[0]? = some false) ∧
    ((∀ m ∈ ownLostAt0Later.inbox, m.tag = .TOKEN_RESPONSE → m.payload ≠ ((0 : Nat) : Int)) ∧
      ownLostAt0Later.obj.rank = 0 ∧ ownLostAt0Later.obj.read_tokens[0]? = some false ∧
      hasAllTokens ownLostAt0Later.obj = false ∧
      read_while ownLostAt0Later = some { ownLostAt0Later with pc := .read_handle }) :=
  have h1 : Reachable tokenStep (tokenInit 2 (fun _ => 42)) lostReadWorld :=
    Reachable.of_runTrace _ _ lostReadTrace _ _ Reachable.start rfl
  have h2 : Reachable tokenStep lostReadWorld lostReadLater :=
    Reachable.of_runTrace _ _ lostReadLaterTrace _ _ Reachable.start rfl
  ⟨⟨h1, h2, rfl, rfl, rfl⟩,
    C17_own_read_token_never_regained 2 (fun _ => 42) lostReadWorld lostReadLater 0
      ownLostAt0 ownLostAt0Later h1 h2 rfl rfl rfl⟩

/-! ## Two writers at once -/

/-- A process in the wait loop of `write` without its own read token stays there after one
more move: the loop makes the moves of the protocol, none of which sets that entry. -/
theorem stuckWriter_step {n k : Nat} {p q : Process} (hp : stuckWriter n k p)
    (h : Process.step p = some q) : stuckWriter n k q := by
  obtain ⟨hl, v, hv | hv⟩ := hp
  · simp only [Process.step, hv, Option.bind_eq_bind] at h
    obtain ⟨q1, h1, h2⟩ := Option.bind_eq_some.mp h
    simp only [Option.some.injEq] at h2
    subst h2
    have hq1 : lostOwn n k q1 := lostOwn_handleTokenRequests hl h1
    exact ⟨hq1, v, Or.inr rfl⟩
  · simp only [Process.step, hv, Option.bind_eq_bind] at h
    obtain ⟨q1, h1, h2⟩ := Option.bind_eq_some.mp h
    have hl1 := lostOwn_receiveTokens hl h1
    rcases write_while_out h2 with ⟨_, rfl⟩ | ⟨ht, _⟩
    · have hq1 : lostOwn n k q1 := hl1
      exact ⟨hq1, v, Or.inl rfl⟩
    · rw [hasAllTokens_false_of_missing hl1.2] at ht
      exact absurd ht (by decide)

theorem stuckWriter_programStep {n : Nat} {w w2 : World} {a : Action}
    (hw : validWorld n w ∧ ∀ (k : Nat) (p : Process), w[k]? = some p → stuckWriter n k p)
    (h : programStep w a = some w2) :
    validWorld n w2 ∧ ∀ (k : Nat) (p : Process), w2[k]? = some p → stuckWriter n k p := by
  cases a with
  | run i =>
    have hall := forall_runAt hw.2 (fun p q hq hp => stuckWriter_step hp hq) h
    exact ⟨⟨(runAt_length h).trans hw.1.1, fun k p hk => (hall k p hk).1.1⟩, hall⟩
  | deliver src dst =>
    have hv := valid_deliver hw.1 h
    refine ⟨hv, ?_⟩
    intro k q hk
    obtain ⟨p, hp, e3, e4, _⟩ := deliver_back h k q hk
    obtain ⟨⟨_, hf⟩, hpc⟩ := hw.2 k p hp
    exact ⟨⟨hv.2 k q hk, by rw [e3]; exact hf⟩, by rw [e4]; exact hpc⟩

/-- Processes that wait in `write` without their own read token wait for ever. -/
theorem stuckWriter_reach {n : Nat} {w w2 : World}
    (hw : validWorld n w ∧ ∀ (k : Nat) (p : Process), w[k]? = some p → stuckWriter n k p)
    (h : Reachable programStep w w2) :
    validWorld n w2 ∧ ∀ (k : Nat) (p : Process), w2[k]? = some p → stuckWriter n k p := by
  induction h with
  | start => exact hw
  | next _ hs ih => exact stuckWriter_programStep ih hs

theorem writersStuck_stuck :
    validWorld 2 writersStuck ∧
      ∀ (k : Nat) (p : Process), writersStuck[k]? = some p → stuckWriter 2 k p := by
  have h0 : stuckWriter 2 0 stuckAt0 := ⟨by decide, 1, Or.inl rfl⟩
  have h1 : stuckWriter 2 1 stuckAt1 := ⟨by decide, 2, Or.inl rfl⟩
  have hall : ∀ (k : Nat) (p : Process), writersStuck[k]? = some p → stuckWriter 2 k p := by
    intro k p hk
    match k, hk with
    | 0, hk => exact (Option.some.inj hk) ▸ h0
    | 1, hk => exact (Option.some.inj hk) ▸ h1
    | k + 2, hk => simp [writersStuck] at hk
  exact ⟨⟨rfl, fun k p hk => (hall k p hk).1.1⟩, hall⟩

/-- C15, the code at the failing input.  Two ranks, constructed, call `write` at the same
time and reach `writersStuck`, both in the wait loop.  In every state reached from there,
by any polls of the two and any deliveries, `hasAllTokens()` is false at both ranks and
both are still in the wait loop: neither `write` ever completes. -/
theorem C15_two_waiting_writers_never_complete (w2 : World)
    (h : Reachable programStep writersStuck w2) :
    w2.length = 2 ∧ ∀ p ∈ w2, hasAllTokens p.obj = false ∧ p.pc ≠ .ready ∧
      ∃ v, p.pc = .write_handle v false ∨ p.pc = .write_receive v false := by
  obtain ⟨hv, hall⟩ := stuckWriter_reach writersStuck_stuck h
  refine ⟨hv.1, ?_⟩
  intro p hp
  obtain ⟨k, hk⟩ := List.mem_iff_getElem?.mp hp
  obtain ⟨⟨_, hf⟩, v, hpc⟩ := hall k p hk
  refine ⟨hasAllTokens_false_of_missing hf, ?_, v, hpc⟩
  rcases hpc with hpc | hpc <;> rw [hpc] <;> exact fun e => by cases e

/-- C15, witness: `writersStuck` is reached from the two ranks about to call `write`, and
`writersLater` from `writersStuck`. -/
theorem C15_two_waiting_writers_never_complete_witness :
    (Reachable programStep writersWorld writersStuck ∧
      Reachable programStep writersStuck writersLater) ∧
    (writersLater.length = 2 ∧ ∀ p ∈ writersLater, hasAllTokens p.obj = false ∧
      p.pc ≠ .ready ∧ ∃ v, p.pc = .write_handle v false ∨ p.pc = .write_receive v false) :=
  have h1 : Reachable programStep writersWorld writersStuck :=
    Reachable.of_runTrace _ _ writersTrace _ _ Reachable.start rfl
  have h2 : Reachable programStep writersStuck writersLater :=
    Reachable.of_runTrace _ _ writersLaterTrace _ _ Reachable.start rfl
  ⟨⟨h1, h2⟩, C15_two_waiting_writers_never_complete writersLater h2⟩

/-! ## Collected read tokens are kept -/

theorem holdsToken_requestTokens {r j : Nat} {p q : Process} (hp : holdsToken r j p)
    (h : requestTokens p = some q) : holdsToken r j q := by
  obtain ⟨ms, rfl, _⟩ := requestTokens_sends h
  exact hp

theorem holdsToken_handleTokenRequests {r j : Nat} {p q : Process} (hj : j ≠ r)
    (hp : holdsToken r j p) (h : handleTokenRequests p = some q) : holdsToken r j q := by
  cases ht : takeFirst (fun m => m.tag == .TOKEN_REQUEST) p.inbox with
  | none =>
    rw [handleTokenRequests_idle ht] at h
    exact (Option.some.inj h) ▸ hp
  | some mr =>
    obtain ⟨m, rest⟩ := mr
    obtain ⟨own, _, _, rfl⟩ := handleTokenRequests_eq ht h
    refine ⟨hp.1, ?_⟩
    show (p.obj.read_tokens.set p.obj.rank false)[j]? = some true
    rw [List.getElem?_set_ne (by rw [hp.1]; exact fun e => hj e.symm)]
    exact hp.2

theorem holdsToken_receiveTokens {r j : Nat} {p q : Process}
    (hp : holdsToken r j p) (h : receiveTokens p = some q) : holdsToken r j q := by
  cases ht : takeFirst (fun m => m.tag == .TOKEN_RESPONSE) p.inbox with
  | none =>
    rw [receiveTokens_idle ht] at h
    exact (Option.some.inj h) ▸ hp
  | some mr =>
    obtain ⟨m, rest⟩ := mr
    obtain ⟨_, rfl⟩ := receiveTokens_eq ht h
    refine ⟨hp.1, ?_⟩
    show (p.obj.read_tokens.set m.payload.toNat true)[j]? = some true
    rw [List.getElem?_set]
    by_cases hmj : m.payload.toNat = j
    · have hlt : j < p.obj.read_tokens.length := by
        rcases Nat.lt_or_ge j p.obj.read_tokens.length with hlt | hge
        · exact hlt
        · have := hp.2
          rw [List.getElem?_eq_none hge] at this
          cases this
      simp [hmj, hlt]
    · simp only [hmj, if_false]
      exact hp.2

theorem holdsToken_write_while {r j : Nat} {val : Int} {c : Bool} {p q : Process}
    (hp : holdsToken r j p) (h : write_while val c p = some q) : holdsToken r j q := by
  rcases write_while_out h with ⟨_, rfl⟩ | ⟨_, h2⟩
  · exact hp
  · obtain ⟨ms, rfl, _⟩ := write_commit_sends h2
    exact hp

theorem holdsToken_write {r j : Nat} {val : Int} {c : Bool} {p q : Process}
    (hp : holdsToken r j p) (h : write val c p = some q) : holdsToken r j q := by
  rcases write_out h with ⟨_, h2⟩ | ⟨_, p1, h1, rfl⟩
  · obtain ⟨ms, rfl, _⟩ := write_commit_sends h2
    exact hp
  · have hq : holdsToken r j p1 := holdsToken_requestTokens hp h1
    exact hq

theorem holdsToken_read_while {r j : Nat} {p q : Process}
    (hp : holdsToken r j p) (h : read_while p = some q) : holdsToken r j q := by
  rcases read_while_out h with ⟨_, rfl⟩ | ⟨_, rfl⟩ <;> exact hp

theorem holdsToken_read {r j : Nat} {p q : Process}
    (hp : holdsToken r j p) (h : read p = some q) : holdsToken r j q := by
  rcases read_out h with ⟨_, rfl⟩ | ⟨_, p1, h1, rfl⟩
  · exact hp
  · have hq : holdsToken r j p1 := holdsToken_requestTokens hp h1
    exact hq

/-- One move of a constructed process keeps the read tokens it has collected, and the
process stays constructed. -/
theorem holdsToken_step {r j : Nat} {p q : Process} (hj : j ≠ r)
    (hp : holdsToken r j p ∧ ∀ v, p.pc ≠ .construct v) (h : Process.step p = some q) :
    holdsToken r j q ∧ ∀ v, q.pc ≠ .construct v := by
  obtain ⟨hp, hc⟩ := hp
  unfold Process.step at h
  split at h
  · rename_i val hpc
    exact absurd hpc (hc val)
  · unfold ctor_receive at h
    split at h
    · cases h
    · obtain ⟨ms, rfl, _⟩ := ctor_finish_sends h
      exact ⟨hp, fun v e => by cases e⟩
  · simp only [Option.bind_eq_bind] at h
    obtain ⟨q1, h1, h2⟩ := Option.bind_eq_some.mp h
    simp only [Option.some.injEq] at h2
    subst h2
    have hq : holdsToken r j q1 := holdsToken_handleTokenRequests hj hp h1
    exact ⟨hq, fun v e => by cases e⟩
  · simp only [Option.bind_eq_bind] at h
    obtain ⟨q1, h1, h2⟩ := Option.bind_eq_some.mp h
    have hq := holdsToken_receiveTokens hp h1
    refine ⟨holdsToken_read_while hq h2, ?_⟩
    rcases read_while_out h2 with ⟨_, rfl⟩ | ⟨_, rfl⟩ <;> exact fun v e => by cases e
  · simp only [Option.bind_eq_bind] at h
    obtain ⟨q1, h1, h2⟩ := Option.bind_eq_some.mp h
    simp only [Option.some.injEq] at h2
    subst h2
    have hq : holdsToken r j q1 := holdsToken_handleTokenRequests hj hp h1
    exact ⟨hq, fun v e => by cases e⟩
  · simp only [Option.bind_eq_bind] at h
    obtain ⟨q1, h1, h2⟩ := Option.bind_eq_some.mp h
    have hq := holdsToken_receiveTokens hp h1
    refine ⟨holdsToken_write_while hq h2, ?_⟩
    rcases write_while_out h2 with ⟨_, rfl⟩ | ⟨_, h3⟩
    · exact fun v e => by cases e
    · obtain ⟨ms, rfl, _⟩ := write_commit_sends h3
      exact fun v e => by cases e
  · split at h
    · cases h
    · rename_i rest hs
      have hp1 : holdsToken r j { p with script := rest } := hp
      refine ⟨holdsToken_read hp1 h, ?_⟩
      rcases read_out h with ⟨_, rfl⟩ | ⟨_, p1, _, rfl⟩ <;> exact fun v e => by cases e
    · rename_i val rest hs
      have hp1 : holdsToken r j { p with script := rest } := hp
      refine ⟨holdsToken_write hp1 h, ?_⟩
      rcases write_out h with ⟨_, h3⟩ | ⟨_, p1, _, rfl⟩
      · obtain ⟨ms, rfl, _⟩ := write_commit_sends h3
        exact fun v e => by cases e
      · exact fun v e => by cases e

theorem holdsToken_tokenStep {r i j : Nat} {w w2 : World} {a : TokenAction} (hj : j ≠ r)
    (hw : ∀ (k : Nat) (p : Process), w[k]? = some p → k = i → holdsToken r j p)
    (hlen : i < w.length) (h : tokenStep w a = some w2) :
    (∀ (k : Nat) (p : Process), w2[k]? = some p → k = i → holdsToken r j p) ∧
      i < w2.length := by
  cases a with
  | requestTokens t =>
    exact ⟨forall_runAt hw (fun p q hq hp e => holdsToken_requestTokens (hp e) hq) h,
      by rw [runAt_length h]; exact hlen⟩
  | handleTokenRequests t =>
    exact ⟨forall_runAt hw (fun p q hq hp e => holdsToken_handleTokenRequests hj (hp e) hq) h,
      by rw [runAt_length h]; exact hlen⟩
  | receiveTokens t =>
    exact ⟨forall_runAt hw (fun p q hq hp e => holdsToken_receiveTokens (hp e) hq) h,
      by rw [runAt_length h]; exact hlen⟩
  | deliver src dst =>
    refine ⟨?_, by rw [deliver_length h]; exact hlen⟩
    intro k q hk e
    obtain ⟨p, hp, e3, _⟩ := deliver_back h k q hk
    have := hw k p hp e
    exact ⟨by rw [e3]; exact this.1, by rw [e3]; exact this.2⟩

theorem holdsToken_programStep {r i j : Nat} {w w2 : World} {a : Action} (hj : j ≠ r)
    (hw : ∀ (k : Nat) (p : Process), w[k]? = some p → k = i →
      holdsToken r j p ∧ ∀ v, p.pc ≠ .construct v)
    (hlen : i < w.length) (h : programStep w a = some w2) :
    (∀ (k : Nat) (p : Process), w2[k]? = some p → k = i →
      holdsToken r j p ∧ ∀ v, p.pc ≠ .construct v) ∧ i < w2.length := by
  cases a with
  | run t =>
    exact ⟨forall_runAt hw (fun p q hq hp e => holdsToken_step hj (hp e) hq) h,
      by rw [runAt_length h]; exact hlen⟩
  | deliver src dst =>
    refine ⟨?_, by rw [deliver_length h]; exact hlen⟩
    intro k q hk e
    obtain ⟨p, hp, e3, e4, _⟩ := deliver_back h k q hk
    have := hw k p hp e
    exact ⟨⟨by rw [e3]; exact this.1.1, by rw [e3]; exact this.1.2⟩, by rw [e4]; exact this.2⟩

theorem holdsToken_reach_token {r i j : Nat} {w w2 : World} (hj : j ≠ r)
    (hw : ∀ (k : Nat) (p : Process), w[k]? = some p → k = i → holdsToken r j p)
    (hlen : i < w.length) (h : Reachable tokenStep w w2) :
    (∀ (k : Nat) (p : Process), w2[k]? = some p → k = i → holdsToken r j p) ∧
      i < w2.length := by
  induction h with
  | start => exact ⟨hw, hlen⟩
  | next _ hs ih => exact holdsToken_tokenStep hj ih.1 ih.2 hs

theorem holdsToken_reach_program {r i j : Nat} {w w2 : World} (hj : j ≠ r)
    (hw : ∀ (k : Nat) (p : Process), w[k]? = some p → k = i →
      holdsToken r j p ∧ ∀ v, p.pc ≠ .construct v)
    (hlen : i < w.length) (h : Reachable programStep w w2) :
    (∀ (k : Nat) (p : Process), w2[k]? = some p → k = i →
      holdsToken r j p ∧ ∀ v, p.pc ≠ .construct v) ∧ i < w2.length := by
  induction h with
  | start => exact ⟨hw, hlen⟩
  | next _ hs ih => exact holdsToken_programStep hj ih.1 ih.2 hs

/-- C19: a participant never gives back a read token it has collected.  Let `p` be the
process at place `i` of a group, holding the read token of a rank `j` other than its own.
Then no operation of `p` (`requestTokens`, `handleTokenRequests`, `receiveTokens`, `read` or
`write` up to the first poll, or any later move of a call under way) clears
`read_tokens[j]` or changes the rank; and in every state the group reaches, by the moves of
the protocol in any order or by the programs of the processes (`p` being constructed), the
process at place `i` still holds the read token of `j`. -/
theorem C19_collected_read_tokens_are_kept (w w2 : World) (i j : Nat) (p : Process)
    (hp : w[i]? = some p) (hj : j ≠ p.obj.rank)
    (hheld : p.obj.read_tokens[j]? = some true)
    (hreach : Reachable tokenStep w w2 ∨
      ((∀ v, p.pc ≠ .construct v) ∧ Reachable programStep w w2)) :
    (∀ q, (requestTokens p = some q ∨ handleTokenRequests p = some q ∨
          receiveTokens p = some q ∨ read p = some q ∨
          (∃ val c, write val c p = some q) ∨
          ((∀ v, p.pc ≠ .construct v) ∧ Process.step p = some q)) →
        q.obj.rank = p.obj.rank ∧ q.obj.read_tokens[j]? = some true) ∧
    ∃ p2, w2[i]? = some p2 ∧ p2.obj.rank = p.obj.rank ∧
      p2.obj.read_tokens[j]? = some true := by
  have hh : holdsToken p.obj.rank j p := ⟨rfl, hheld⟩
  have hlen : i < w.length := by
    rcases Nat.lt_or_ge i w.length with hlt | hge
    · exact hlt
    · rw [List.getElem?_eq_none hge] at hp
      cases hp
  refine ⟨?_, ?_⟩
  · intro q hq
    rcases hq with hq | hq | hq | hq | ⟨val, c, hq⟩ | ⟨hc, hq⟩
    · exact holdsToken_requestTokens hh hq
    · exact holdsToken_handleTokenRequests hj hh hq
    · exact holdsToken_receiveTokens hh hq
    · exact holdsToken_read hh hq
    · exact holdsToken_write hh hq
    · exact (holdsToken_step hj ⟨hh, hc⟩ hq).1
  · rcases hreach with hr | ⟨hc, hr⟩
    · have hw : ∀ (k : Nat) (q : Process), w[k]? = some q → k = i →
          holdsToken p.obj.rank j q := by
        intro k q hk e
        subst e
        rw [hp] at hk
        exact (Option.some.inj hk) ▸ hh
      obtain ⟨hall, hlen2⟩ := holdsToken_reach_token hj hw hlen hr
      exact ⟨w2[i], List.getElem?_eq_getElem hlen2,
        hall i w2[i] (List.getElem?_eq_getElem hlen2) rfl⟩
    · have hw : ∀ (k : Nat) (q : Process), w[k]? = some q → k = i →
          holdsToken p.obj.rank j q ∧ ∀ v, q.pc ≠ .construct v := by
        intro k q hk e
        subst e
        rw [hp] at hk
        have e2 := Option.some.inj hk
        subst e2
        exact ⟨hh, hc⟩
      obtain ⟨hall, hlen2⟩ := holdsToken_reach_program hj hw hlen hr
      exact ⟨w2[i], List.getElem?_eq_getElem hlen2,
        (hall i w2[i] (List.getElem?_eq_getElem hlen2) rfl).1⟩

/-- C19, witness: rank 1 in `writersStuck` holds the read token of rank 0 and still holds
it in `writersLater`. -/
theorem C19_collected_read_tokens_are_kept_witness :
    (writersStuck[1]? = some stuckAt1 ∧ 0 ≠ stuckAt1.obj.rank ∧
      stuckAt1.obj.read_tokens[0]? = some true ∧
      (Reachable tokenStep writersStuck writersLater ∨
        ((∀ v, stuckAt1.pc ≠ .construct v) ∧
          Reachable programStep writersStuck writersLater))) ∧
    ((∀ q, (requestTokens stuckAt1 = some q ∨ handleTokenRequests stuckAt1 = some q ∨
          receiveTokens stuckAt1 = some q ∨ read stuckAt1 = some q ∨
          (∃ val c, write val c stuckAt1 = some q) ∨
          ((∀ v, stuckAt1.pc ≠ .construct v) ∧ Process.step stuckAt1 = some q)) →
        q.obj.rank = stuckAt1.obj.rank ∧ q.obj.read_tokens[0]? = some true) ∧
    ∃ p2, writersLater[1]? = some p2 ∧ p2.obj.rank = stuckAt1.obj.rank ∧
      p2.obj.read_tokens[0]? = some true) :=
  have h1 : writersStuck[1]? = some stuckAt1 := rfl
  have h2 : 0 ≠ stuckAt1.obj.rank := by decide
  have h3 : stuckAt1.obj.read_tokens[0]? = some true := rfl
  have h4 : Reachable tokenStep writersStuck writersLater ∨
      ((∀ v, stuckAt1.pc ≠ .construct v) ∧
        Reachable programStep writersStuck writersLater) :=
    Or.inr ⟨fun v e => (by cases e),
      Reachable.of_runTrace _ _ writersLaterTrace _ _ Reachable.start rfl⟩
  ⟨⟨h1, h2, h3, h4⟩,
    C19_collected_read_tokens_are_kept writersStuck writersLater 1 0 stuckAt1 h1 h2 h3 h4⟩

/-! ## A `VALUE_UPDATE` sent by `write` is never received -/

/-- After construction no move takes a `VALUE_UPDATE` out of the inbox: `read` and `write`
probe for `TOKEN_REQUEST` and `TOKEN_RESPONSE` only. -/
theorem value_update_stays {p q : Process} (h : Process.step p = some q)
    (hc : ∀ v, p.pc ≠ .construct v) (hr : p.pc ≠ .ctor_recv) :
    ∀ m ∈ p.inbox, m.tag = .VALUE_UPDATE → m ∈ q.inbox := by
  have hne1 : ∀ m : Msg, m.tag = .VALUE_UPDATE → m.tag ≠ .TOKEN_REQUEST :=
    fun m e1 e2 => by rw [e1] at e2; cases e2
  have hne2 : ∀ m : Msg, m.tag = .VALUE_UPDATE → m.tag ≠ .TOKEN_RESPONSE :=
    fun m e1 e2 => by rw [e1] at e2; cases e2
  have hreq : ∀ {s t : Process}, requestTokens s = some t → t.inbox = s.inbox := by
    intro s t hst
    obtain ⟨ms, rfl, _⟩ := requestTokens_sends hst
    rfl
  have hcom : ∀ {val : Int} {c : Bool} {s t : Process},
      write_commit val c s = some t → t.inbox = s.inbox := by
    intro val c s t hst
    obtain ⟨ms, rfl, _⟩ := write_commit_sends hst
    rfl
  intro m hm ht
  unfold Process.step at h
  cases hpc : p.pc with
  | construct val => exact absurd hpc (hc val)
  | ctor_recv => exact absurd hpc hr
  | read_handle =>
    simp only [hpc, Option.bind_eq_bind] at h
    obtain ⟨p1, h1, h2⟩ := Option.bind_eq_some.mp h
    simp only [Option.some.injEq] at h2
    subst h2
    exact (handleTokenRequests_frame h1).2.2.2.2.2.2.2.2 m hm (hne1 m ht)
  | read_receive =>
    simp only [hpc, Option.bind_eq_bind] at h
    obtain ⟨p1, h1, h2⟩ := Option.bind_eq_some.mp h
    have hm1 := (receiveTokens_frame h1).2.2.2.2.2.2.2.2 m hm (hne2 m ht)
    rcases read_while_out h2 with ⟨_, rfl⟩ | ⟨_, rfl⟩ <;> exact hm1
  | write_handle val c =>
    simp only [hpc, Option.bind_eq_bind] at h
    obtain ⟨p1, h1, h2⟩ := Option.bind_eq_some.mp h
    simp only [Option.some.injEq] at h2
    subst h2
    exact (handleTokenRequests_frame h1).2.2.2.2.2.2.2.2 m hm (hne1 m ht)
  | write_receive val c =>
    simp only [hpc, Option.bind_eq_bind] at h
    obtain ⟨p1, h1, h2⟩ := Option.bind_eq_some.mp h
    have hm1 := (receiveTokens_frame h1).2.2.2.2.2.2.2.2 m hm (hne2 m ht)
    rcases write_while_out h2 with ⟨_, rfl⟩ | ⟨_, h3⟩
    · exact hm1
    · rw [hcom h3]
      exact hm1
  | ready =>
    simp only [hpc] at h
    cases hs : p.script with
    | nil => simp [hs] at h
    | cons c rest =>
      cases c with
      | read =>
        simp only [hs] at h
        rcases read_out h with ⟨_, rfl⟩ | ⟨_, p1, h1, rfl⟩
        · exact hm
        · show m ∈ p1.inbox
          rw [hreq h1]
          exact hm
      | write v0 =>
        simp only [hs] at h
        rcases write_out h with ⟨_, h3⟩ | ⟨_, p1, h1, rfl⟩
        · rw [hcom h3]
          exact hm
        · show m ∈ p1.inbox
          rw [hreq h1]
          exact hm

theorem staleWriter_step {n k : Nat} {old : Int} {m : Msg} {p q : Process}
    (hm : m.tag = .VALUE_UPDATE) (hp : staleWriter n k old m p)
    (h : Process.step p = some q) : staleWriter n k old m q := by
  obtain ⟨hs, ho, hin⟩ := hp
  have hq := stuckWriter_step hs h
  have hpc : (∀ v, p.pc ≠ .construct v) ∧ p.pc ≠ .ctor_recv := by
    obtain ⟨_, v, hv | hv⟩ := hs <;> rw [hv] <;>
      exact ⟨fun v e => (by cases e), fun e => (by cases e)⟩
  refine ⟨hq, ?_, value_update_stays h hpc.1 hpc.2 m hin hm⟩
  obtain ⟨ms, _, hex⟩ := step_write_exact p q h
  by_cases hne : q.obj._obj = p.obj._obj
  · rw [hne]
    exact ho
  · obtain ⟨_, _, _, _, _, _, _, _, hr, _⟩ := hex (Or.inl ⟨hpc.1, hpc.2, hne⟩)
    obtain ⟨_, v, hv | hv⟩ := hq <;> rw [hv] at hr <;> cases hr

theorem stale_programStep {v old : Int} {m : Msg} {w w2 : World} {a : Action}
    (hm : m.tag = .VALUE_UPDATE)
    (hw : ∀ (k : Nat) (p : Process), w[k]? = some p →
      validProcess 2 k p ∧ (k = 0 → writtenOut 2 0 v p) ∧ (k = 1 → staleWriter 2 1 old m p))
    (hlen : w.length = 2) (h : programStep w a = some w2) :
    (∀ (k : Nat) (p : Process), w2[k]? = some p →
      validProcess 2 k p ∧ (k = 0 → writtenOut 2 0 v p) ∧ (k = 1 → staleWriter 2 1 old m p)) ∧
    w2.length = 2 := by
  cases a with
  | run i =>
    refine ⟨forall_runAt hw ?_ h, (runAt_length h).trans hlen⟩
    intro p q hq ⟨hv, h0, h1⟩
    obtain ⟨p2, q2, hp2, _, _⟩ := runAt_eq h
    have hi : i < 2 := by
      have := (List.getElem?_eq_some.mp hp2).1
      omega
    rcases Nat.lt_or_ge i 1 with hi0 | hi1
    · have e : i = 0 := by omega
      obtain ⟨_, hpc, hsc, _⟩ := h0 e
      simp [Process.step, hpc, hsc] at hq
    · have e : i = 1 := by omega
      have hs := staleWriter_step hm (h1 e) hq
      exact ⟨e ▸ hs.1.1.1, fun e0 => by omega, fun _ => hs⟩
  | deliver src dst =>
    have hvw : validWorld 2 w := ⟨hlen, fun k p hk => (hw k p hk).1⟩
    have hv2 := valid_deliver hvw h
    refine ⟨?_, hv2.1⟩
    intro k q hk
    obtain ⟨p, hp, e3, e4, e5, _⟩ := deliver_back h k q hk
    obtain ⟨msg, _, _, _, hfr⟩ := deliver_frame h
    obtain ⟨q1, hq1, _, _, _, _, _, _, hin, hout, _⟩ := hfr k p hp
    rw [hk] at hq1
    have eq1 : q1 = q := (Option.some.inj hq1).symm
    subst eq1
    obtain ⟨_, h0, h1⟩ := hw k p hp
    refine ⟨hv2.2 k q1 hk, ?_, ?_⟩
    · intro e
      obtain ⟨_, hpc, hsc, hobj, hob⟩ := h0 e
      refine ⟨e ▸ hv2.2 k q1 hk, by rw [e4]; exact hpc, by rw [e5]; exact hsc,
        by rw [e3]; exact hobj, ?_⟩
      cases hqo : q1.outbox with
      | nil => rfl
      | cons x xs =>
        have := hout x (by rw [hqo]; simp)
        rw [hob] at this
        cases this
    · intro e
      obtain ⟨⟨⟨_, hf⟩, hpc⟩, hobj, hmem⟩ := h1 e
      exact ⟨⟨⟨e ▸ hv2.2 k q1 hk, by rw [e3]; exact hf⟩, by rw [e4]; exact hpc⟩,
        by rw [e3]; exact hobj, (hin m).mpr (Or.inl hmem)⟩

theorem stale_reach {v old : Int} {m : Msg} {w w2 : World}
    (hm : m.tag = .VALUE_UPDATE)
    (hw : ∀ (k : Nat) (p : Process), w[k]? = some p →
      validProcess 2 k p ∧ (k = 0 → writtenOut 2 0 v p) ∧ (k = 1 → staleWriter 2 1 old m p))
    (hlen : w.length = 2) (h : Reachable programStep w w2) :
    (∀ (k : Nat) (p : Process), w2[k]? = some p →
      validProcess 2 k p ∧ (k = 0 → writtenOut 2 0 v p) ∧ (k = 1 → staleWriter 2 1 old m p)) ∧
    w2.length = 2 := by
  induction h with
  | start => exact ⟨hw, hlen⟩
  | next _ hs ih => exact stale_programStep hm ih.1 ih.2 hs

theorem staleWorld_stale :
    ∀ (k : Nat) (p : Process), staleWorld[k]? = some p →
      validProcess 2 k p ∧ (k = 0 → writtenOut 2 0 1 p) ∧
        (k = 1 → staleWriter 2 1 42 ⟨0, 1, .VALUE_UPDATE, 1⟩ p) := by
  have h0 : writtenOut 2 0 1 writtenAt0 := ⟨by decide, rfl, rfl, rfl, rfl⟩
  have h1 : staleWriter 2 1 42 ⟨0, 1, .VALUE_UPDATE, 1⟩ staleAt1 :=
    ⟨⟨by decide, 2, Or.inr rfl⟩, rfl, by decide⟩
  intro k p hk
  match k, hk with
  | 0, hk =>
    have e := Option.some.inj hk
    subst e
    exact ⟨h0.1, fun _ => h0, fun e => by omega⟩
  | 1, hk =>
    have e := Option.some.inj hk
    subst e
    exact ⟨h1.1.1.1, fun e => by omega, fun _ => h1⟩
  | k + 2, hk => simp [staleWorld] at hk

/-- C5, the code at the failing input.  Two constructed ranks call `write` at the same
time and reach `staleWorld`: the `write(1)` of rank 0 has returned and its one
`VALUE_UPDATE` has been delivered to rank 1.  In every state reached from there, by any
moves and deliveries: rank 0 has returned from `write` with `_obj = 1` and has no
`VALUE_UPDATE` left to deliver; the `VALUE_UPDATE` is still in the inbox of rank 1, never
received, and rank 1 still caches 42, not 1.  Rank 1 is still in its wait loop without its
own read token. -/
theorem C5_value_update_is_never_received (w2 : World)
    (h : Reachable programStep staleWorld w2) :
    w2.length = 2 ∧
    (∃ p0, w2[0]? = some p0 ∧ p0.pc = .ready ∧ p0.script = [] ∧ p0.obj._obj = 1 ∧
      p0.outbox = []) ∧
    (∃ p1, w2[1]? = some p1 ∧ (⟨0, 1, .VALUE_UPDATE, 1⟩ : Msg) ∈ p1.inbox ∧
      p1.obj._obj = 42 ∧ p1.obj._obj ≠ 1 ∧ p1.obj.read_tokens[1]? = some false ∧
      ∃ v, p1.pc = .write_handle v false ∨ p1.pc = .write_receive v false) := by
  obtain ⟨hall, hlen⟩ := stale_reach (m := ⟨0, 1, .VALUE_UPDATE, 1⟩) rfl staleWorld_stale rfl h
  have e0 : w2[0]? = some w2[0] := List.getElem?_eq_getElem (by omega)
  have e1 : w2[1]? = some w2[1] := List.getElem?_eq_getElem (by omega)
  obtain ⟨_, hpc, hsc, hobj, hout⟩ := (hall 0 _ e0).2.1 rfl
  obtain ⟨⟨⟨_, hf⟩, hv⟩, hold, hmem⟩ := (hall 1 _ e1).2.2 rfl
  exact ⟨hlen, ⟨_, e0, hpc, hsc, hobj, hout⟩,
    ⟨_, e1, hmem, hold, by rw [hold]; decide, hf, hv⟩⟩

/-- C5, witness: `staleWorld` is reached from the two ranks about to call `write`, and
`staleLater` from `staleWorld`. -/
theorem C5_value_update_is_never_received_witness :
    (Reachable programStep writersWorld staleWorld ∧
      Reachable programStep staleWorld staleLater) ∧
    (staleLater.length = 2 ∧
    (∃ p0, staleLater[0]? = some p0 ∧ p0.pc = .ready ∧ p0.script = [] ∧ p0.obj._obj = 1 ∧
      p0.outbox = []) ∧
    (∃ p1, staleLater[1]? = some p1 ∧ (⟨0, 1, .VALUE_UPDATE, 1⟩ : Msg) ∈ p1.inbox ∧
      p1.obj._obj = 42 ∧ p1.obj._obj ≠ 1 ∧ p1.obj.read_tokens[1]? = some false ∧
      ∃ v, p1.pc = .write_handle v false ∨ p1.pc = .write_receive v false)) :=
  have h1 : Reachable programStep writersWorld staleWorld :=
    Reachable.of_runTrace _ _ staleTrace _ _ Reachable.start rfl
  have h2 : Reachable programStep staleWorld staleLater :=
    Reachable.of_runTrace _ _ staleLaterTrace _ _ Reachable.start rfl
  ⟨⟨h1, h2⟩, C5_value_update_is_never_received staleLater h2⟩

end Lab6
